import Mathlib

/-!
# Dispersive-material oscillators of `polarization.cpp`

A shallow embedding of `src/polarization.cpp`.

Conventions of the embedding.

* `double` is modelled by `ℚ`: arithmetic is exact; rounding, overflow, NaN and the infinities
  of a division by zero are not modelled. Counts and indices (`int`) are natural numbers.
* A `double *` obtained from `new double[n]` is a `dbuf`: the address of the block (counted in
  units of `sizeof(double)`) together with its contents; a nullable pointer is an `Option dbuf`.
  `operator new[]` is a bump allocator over a `heap` whose residue supplies the contents of a
  fresh, uninitialised block.
* A singly linked chain (`next` pointers ending in `NULL`) is a `List` of node payloads; `NULL`
  is `[]`. A `pb` reference is the payload of the susceptibility term referred to.
* Two chains, and two buffers, given as separate values are separate objects in memory. The
  exception is a call of `initialize_polarizations` with explicit chains: its arguments may
  share nodes with each other or be chains of the container, so its assignments go to the
  store by address (`store_at`, `poke`) and show in every chain that holds the block written.
* `step_e_polarization` subscripts the tables `P` and `P_pml` with two indices. Inside the
  twenty slots of a table the pointer held in the slot is read; what the subtraction gives
  once the subscripts run past the tables is a parameter of the call (`past_tables`), as the
  layout of the class and the allocator are not part of the sources.
* A `for` loop is `forRange`; loop bodies update the object the source updates.
* `dactyl.h` and `dactyl_internals.h` are not part of the sources: what `polarization.cpp`
  uses from them (grid geometry, component enumeration, positions) is a field of `volume` or
  is modelled below, marked as such. The macro `DOCMP` is the loop over the two numeric parts
  `cmp = 0, 1`. The members `P` and `P_pml` are tables `double *[10][2]`, as the constructor
  fills them (`P[c][cmp] = new double[...]` for `c < 10` and both `cmp`), and `s` is a table
  `double *[10]`.
* The exits on a failed allocation are not modelled.
* Where a property speaks of the subscripts the cylindrical loops use, they are listed by
  `cyl_reads` and `cyl_writes`, which run the loops of the source and record each subscript
  (as an integer) instead of performing the access.
-/

/-! ## The embedding -/

/-- The loop `for (int i = 0; i < n; i++) body`, as a state transformer. -/
def forRange {σ : Type} : Nat → (Nat → σ → σ) → σ → σ
  | 0, _, s => s
  | n + 1, body, s => body n (forRange n body s)

/-- A block of doubles on the free store: base address (in units of `sizeof(double)`) and
contents. -/
structure dbuf where
  addr : Int
  val : List ℚ
deriving DecidableEq

/-- The free store: the next free address and the residue found in unallocated memory. -/
structure heap where
  brk : Int
  junk : Int → ℚ

/-- The expression `new double[n]`: an uninitialised block of `n` doubles at the break. -/
def new_double (h : heap) (n : Nat) : dbuf × heap :=
  ({ addr := h.brk, val := (List.range n).map (fun i : Nat => h.junk (h.brk + (i : Int))) },
   { h with brk := h.brk + (n : Int) })

/-- The read `p[i]` of a block (a read outside the block, undefined in C++, gives `0`). -/
def dbuf.get (b : dbuf) (i : Nat) : ℚ := b.val.getD i 0

/-- The write `p[i] = x` of a block (a write outside the block, undefined in C++, is dropped). -/
def dbuf.set (b : dbuf) (i : Nat) (x : ℚ) : dbuf := { b with val := b.val.set i x }

/-- The block `b` after the double at address `a` of the store is overwritten with `x`: the
block changes only when the address lies inside it. -/
def poke (a : Int) (x : ℚ) (b : dbuf) : dbuf :=
  if b.addr ≤ a ∧ a < b.addr + (b.val.length : Int) then b.set (a - b.addr).toNat x else b

/-- The read `p[i]` through a nullable pointer (through `NULL`, undefined in C++, gives `0`). -/
def rd (p : Option dbuf) (i : Nat) : ℚ :=
  match p with
  | some b => b.get i
  | none => 0

/-- The write `p[i] = x` through a nullable pointer (through `NULL`, undefined in C++, it is
dropped). -/
def wr (p : Option dbuf) (i : Nat) (x : ℚ) : Option dbuf :=
  match p with
  | some b => some (b.set i x)
  | none => none

/-- The assignment `t[c][cmp] = x` to one slot of a table such as `double *P[10][2]`. -/
def tset {α : Type} (t : Nat → Nat → α) (c cmp : Nat) (x : α) : Nat → Nat → α :=
  fun c1 cmp1 => if c1 = c ∧ cmp1 = cmp then x else t c1 cmp1

/-- The assignment `t[c] = x` to one slot of a table such as `double *s[10]`. -/
def vset {α : Type} (t : Nat → α) (c : Nat) (x : α) : Nat → α :=
  fun c1 => if c1 = c then x else t c1

/-- Modelled from the spec: the component enumeration of `dactyl.h` (not under `src/`): ten
field components, cast from `int c` with `0 <= c < 10`. -/
def Ex : Nat := 0
/-- Modelled from the spec: see `Ex`. -/
def Ey : Nat := 1
/-- Modelled from the spec: see `Ex`. -/
def Er : Nat := 2
/-- Modelled from the spec: see `Ex`. -/
def Ep : Nat := 3
/-- Modelled from the spec: see `Ex`. -/
def Ez : Nat := 4
/-- Modelled from the spec: see `Ex`. -/
def Hp : Nat := 8

/-- Modelled from the spec: the predicate `is_electric` of `dactyl.h` (not under `src/`): the
component is one of the electric ones. -/
def is_electric (c : Nat) : Bool :=
  c == Ex || c == Ey || c == Er || c == Ep || c == Ez

/-- Modelled from the spec: the position class `vec` of `dactyl.h` (not under `src/`): a pair
of coordinates with componentwise sum and difference and scaling by a number. -/
structure vec where
  r : ℚ
  z : ℚ
deriving DecidableEq

instance : Add vec := ⟨fun a b => ⟨a.r + b.r, a.z + b.z⟩⟩
instance : Sub vec := ⟨fun a b => ⟨a.r - b.r, a.z - b.z⟩⟩
instance : HMul vec ℚ vec := ⟨fun a k => ⟨a.r * k, a.z * k⟩⟩

/-- The dimensionality tag `ndim`: the two tags `polarization.cpp` names, and any other. -/
inductive ndim where
  | d1
  | dcyl
  | dother
deriving DecidableEq

/-- The grid description `volume` as `polarization.cpp` uses it: every member function it
calls is a field. -/
structure volume where
  dim : ndim
  ntot : Nat
  nr : Nat
  nz : Nat
  has_field : Nat → Bool
  loc : Nat → Nat → vec
  dr : vec
  dz : vec

/-- The test `v.has_field((component)c) && is_electric((component)c)`. -/
def volume.electric (v : volume) (c : Nat) : Bool := v.has_field c && is_electric c

/-- One susceptibility term (`class polarizability`); its `next` is the tail of the list it
is in. -/
structure polarizability where
  omeganot : ℚ
  gamma : ℚ
  v : volume
  sigma : dbuf
  s : Nat → Option dbuf

/-- The material `mat` as `polarization.cpp` uses it. -/
structure mat where
  v : volume
  a : ℚ
  inveps : Nat → List ℚ
  pb : List polarizability

/-- One oscillator state (`class polarization`); its `next` is the tail of the list it is
in. -/
structure polarization where
  P : Nat → Nat → Option dbuf
  P_pml : Nat → Nat → Option dbuf
  pb : polarizability

/-- The members a constructor of `polarization` fills in its loops, with the free store. -/
structure polarization_raw where
  P : Nat → Nat → Option dbuf
  P_pml : Nat → Nat → Option dbuf
  h : heap

/-- The loop `for (int i=0;i<n;i++) p[i] = 0.0`. -/
def zero_fill (n : Nat) (b : dbuf) : dbuf := forRange n (fun i b => b.set i 0) b

/-- The body of the loops of `polarization::polarization` for one `c` and `cmp`. -/
def polarization.alloc_slot (v : volume) (cmp c : Nat) (st : polarization_raw) :
    polarization_raw :=
  if v.has_field c && is_electric c then
    let a1 := new_double st.h v.ntot
    let p := zero_fill v.ntot a1.1
    let a2 := new_double a1.2 v.ntot
    let q := zero_fill v.ntot a2.1
    { P := tset st.P c cmp (some p), P_pml := tset st.P_pml c cmp (some q), h := a2.2 }
  else
    { P := tset st.P c cmp none, P_pml := tset st.P_pml c cmp none, h := st.h }

/-- The constructor `polarization::polarization(const polarizability *the_pb)`, as called in
`new polarization(the_pb)`, on the chain `the_pb :: rest`: the chain of nodes built, and the
free store left. -/
def polarization.new_polarization : heap → polarizability → List polarizability →
    List polarization × heap
  | h, the_pb, rest =>
    let v := the_pb.v
    let st := forRange 2 (fun cmp st => forRange 10 (polarization.alloc_slot v cmp) st)
      { P := fun _ _ => none, P_pml := fun _ _ => none, h := h }
    let node : polarization := { P := st.P, P_pml := st.P_pml, pb := the_pb }
    match rest with
    | [] => ([node], st.h)
    | nx :: rest1 =>
      let r := polarization.new_polarization st.h nx rest1
      (node :: r.1, r.2)

/-- The function `polarization::set_up_polarizations(const mat *ma)`. -/
def polarization.set_up_polarizations (ma : mat) (h : heap) : List polarization × heap :=
  match ma.pb with
  | [] => ([], h)
  | the_pb :: rest => polarization.new_polarization h the_pb rest

/-- The field container `fields` as `polarization.cpp` uses it: grid, material, the electric
field arrays `f[c][cmp]` and `f_pml[c][cmp]`, and the two oscillator chains. -/
structure fields where
  v : volume
  ma : mat
  f : Nat → Nat → List ℚ
  f_pml : Nat → Nat → List ℚ
  olpol : List polarization
  pol : List polarization

/-- Whether some innermost loop body of an update runs at all: the grid has a point and one of
the ten components passes the test of the loops. -/
def volume.loops_run (v : volume) : Bool :=
  decide (0 < v.ntot) && (List.range 10).any v.electric

/-- The loop `for (i...) np->P[c][cmp][i] = op->P[c][cmp][i] = f[c][cmp][i]` on the two
blocks, `st.1` of `op` and `st.2` of `np`. -/
def seed_loop (n : Nat) (src : List ℚ) (st : Option dbuf × Option dbuf) :
    Option dbuf × Option dbuf :=
  forRange n (fun i st => (wr st.1 i (src.getD i 0), wr st.2 i (src.getD i 0))) st

/-- The body of the loops of `initialize_polarizations` for one `c` and `cmp`, on the pair of
nodes `(op, np)`. -/
def fields.seed_slot (F : fields) (cmp c : Nat) (st : polarization × polarization) :
    polarization × polarization :=
  if F.v.has_field c && is_electric c then
    let r := seed_loop F.v.ntot (F.f c cmp) (st.1.P c cmp, st.2.P c cmp)
    ({ st.1 with P := tset st.1.P c cmp r.1 }, { st.2 with P := tset st.2.P c cmp r.2 })
  else st

/-- The `DOCMP` block of `initialize_polarizations` on the heads `op` and `np`. The locals
`omt`, `amp_shift`, `sinkz` and `coskz` computed before it are never used and are left out. -/
def fields.seed_node (F : fields) (op np : polarization) : polarization × polarization :=
  forRange 2 (fun cmp st => forRange 10 (F.seed_slot cmp) st) (op, np)

/-- The second branch of `initialize_polarizations` on two non-null chains: the head nodes
are seeded, and the call recurses while both have a `next`. -/
def fields.initialize_polarizations_nodes (F : fields) :
    List polarization → List polarization → List polarization × List polarization
  | o :: os, n :: ns =>
    let r := F.seed_node o n
    if os.isEmpty || ns.isEmpty then (r.1 :: os, r.2 :: ns)
    else
      let t := fields.initialize_polarizations_nodes F os ns
      (r.1 :: t.1, r.2 :: t.2)
  | op, np => (op, np)

/-- The block a nullable pointer leads to, after the double at address `a` of the store is
overwritten with `x`. -/
def poke_slot (a : Int) (x : ℚ) (p : Option dbuf) : Option dbuf := p.map (poke a x)

/-- A node after the double at address `a` of the store is overwritten with `x`: each block
held in the twenty slots of `P` and of `P_pml` shows the store. -/
def polarization.poke (a : Int) (x : ℚ) (o : polarization) : polarization :=
  { P := fun c cmp => if c < 10 ∧ cmp < 2 then poke_slot a x (o.P c cmp) else o.P c cmp,
    P_pml := fun c cmp => if c < 10 ∧ cmp < 2 then poke_slot a x (o.P_pml c cmp)
      else o.P_pml c cmp,
    pb := o.pb }

/-- The oscillator chains within reach of a call with explicit arguments: the two buffers of
the container and the chains `op` and `np` passed. A node that two of them share stands in
both, with the same addresses. -/
structure reach where
  olpol : List polarization
  pol : List polarization
  op : List polarization
  np : List polarization

/-- The chains after the double at address `a` of the store is overwritten with `x`. -/
def reach.poke (a : Int) (x : ℚ) (S : reach) : reach :=
  { olpol := S.olpol.map (polarization.poke a x), pol := S.pol.map (polarization.poke a x),
    op := S.op.map (polarization.poke a x), np := S.np.map (polarization.poke a x) }

/-- The assignment `p[i] = x` through the pointer `p`, on the store: the double at address
`p + i` is overwritten, which shows in every chain that holds it (through `NULL` or outside
the block, undefined in C++, the assignment is dropped). -/
def store_at (p : Option dbuf) (i : Nat) (x : ℚ) (S : reach) : reach :=
  match p with
  | some b => if i < b.val.length then S.poke (b.addr + (i : Int)) x else S
  | none => S

/-- The loop `for (i...) np->P[c][cmp][i] = op->P[c][cmp][i] = f[c][cmp][i]` on the store,
through the pointers `opP` of `op` and `npP` of `np`. -/
def seed_loop_store (n : Nat) (src : List ℚ) (opP npP : Option dbuf) (S : reach) : reach :=
  forRange n (fun i S => store_at npP i (src.getD i 0) (store_at opP i (src.getD i 0) S)) S

/-- The body of the loops of `initialize_polarizations` for one `c` and `cmp`, on the store,
for the heads `op` and `np`. -/
def fields.seed_slot_store (F : fields) (op np : polarization) (cmp c : Nat) (S : reach) :
    reach :=
  if F.v.has_field c && is_electric c then
    seed_loop_store F.v.ntot (F.f c cmp) (op.P c cmp) (np.P c cmp) S
  else S

/-- The `DOCMP` block of `initialize_polarizations` on the store, for the heads `op` and
`np`. -/
def fields.seed_node_store (F : fields) (op np : polarization) (S : reach) : reach :=
  forRange 2 (fun cmp S => forRange 10 (F.seed_slot_store op np cmp) S) S

/-- The second branch of `initialize_polarizations` on two non-null chains, on the store: the
blocks of the head nodes are written, and the call recurses while both have a `next`. The
arguments give the nodes the call walks; the chains as the store shows them are in `S`. -/
def fields.initialize_polarizations_store (F : fields) :
    List polarization → List polarization → reach → reach
  | o :: os, n :: ns, S =>
    let S1 := F.seed_node_store o n S
    if os.isEmpty || ns.isEmpty then S1
    else fields.initialize_polarizations_store F os ns S1
  | _, _, S => S

/-- The method `fields::initialize_polarizations(polarization *op, polarization *np)`: the
container after the call and the chains `op` and `np` point to after the call; `none` when the
call dereferences a null argument. In the first branch the call works on the two buffers of
the container, which `set_up_polarizations` builds one after the other. In the second branch
the arguments are any two chains: they may share nodes with each other or be chains of the
container, so the assignments go to the store by address (`store_at`) and the container and
both chains are returned as the store shows them. On chains that share no memory the two
branches do the same (`init_branches_agree`). -/
def fields.initialize_polarizations (F : fields) (op np : List polarization) :
    Option (fields × List polarization × List polarization) :=
  if op.isEmpty && np.isEmpty && !F.olpol.isEmpty && !F.pol.isEmpty then
    let r := F.initialize_polarizations_nodes F.olpol F.pol
    some ({ F with olpol := r.1, pol := r.2 }, op, np)
  else if !F.olpol.isEmpty && !F.pol.isEmpty then
    match op, np with
    | [], _ => none
    | _ :: os, [] => if F.v.loops_run || !os.isEmpty then none else some (F, op, np)
    | _ :: _, _ :: _ =>
      let S := F.initialize_polarizations_store op np
        { olpol := F.olpol, pol := F.pol, op := op, np := np }
      some ({ F with olpol := S.olpol, pol := S.pol }, S.op, S.np)
  else some (F, op, np)

/-- The loop `for (i...) op->P[cc][cmp][i] = funinv*((2-om*om)*np->P[cc][cmp][i]+
(0.5*g-1)*op->P[cc][cmp][i]) + np->pb->s[cc][i]*f[cc][cmp][i]` on the block `b` of `op`; the
same loop serves `P_pml` with `f_pml`. -/
def advance_loop (n : Nat) (g om funinv : ℚ) (npP s : Option dbuf) (fld : List ℚ)
    (b : Option dbuf) : Option dbuf :=
  forRange n (fun i b =>
    wr b i (funinv * ((2 - om * om) * rd npP i + (0.5 * g - 1) * rd b i)
      + rd s i * fld.getD i 0)) b

/-- The body of the loops of `step_polarization_itself` for one `cc` and `cmp`, on the node
`op`. -/
def fields.advance_slot (F : fields) (np : polarization) (g om funinv : ℚ) (cmp cc : Nat)
    (op : polarization) : polarization :=
  if F.v.has_field cc && is_electric cc then
    let p := advance_loop F.v.ntot g om funinv (np.P cc cmp) (np.pb.s cc) (F.f cc cmp)
      (op.P cc cmp)
    let q := advance_loop F.v.ntot g om funinv (np.P_pml cc cmp) (np.pb.s cc) (F.f_pml cc cmp)
      (op.P_pml cc cmp)
    { op with P := tset op.P cc cmp p, P_pml := tset op.P_pml cc cmp q }
  else op

/-- The constants and the `DOCMP` block of `step_polarization_itself` on the heads `op` and
`np`: the node `op` after it. -/
def fields.advance_node (F : fields) (op np : polarization) : polarization :=
  let g := op.pb.gamma
  let om := op.pb.omeganot
  let funinv := 1 / (1 + 0.5 * g)
  forRange 2 (fun cmp op => forRange 10 (F.advance_slot np g om funinv cmp) op) op

/-- The second branch of `step_polarization_itself` on two non-null chains: the chain `op`
after it (the chain `np` is only read). -/
def fields.step_polarization_itself_nodes (F : fields) :
    List polarization → List polarization → List polarization
  | o :: os, n :: ns =>
    let o1 := F.advance_node o n
    if os.isEmpty || ns.isEmpty then o1 :: os
    else o1 :: fields.step_polarization_itself_nodes F os ns
  | op, _ => op

/-- The method `fields::step_polarization_itself(polarization *op, polarization *np)`: the
container after the call and the chains `op` and `np` point to after the call; `none` when the
call dereferences a null argument. -/
def fields.step_polarization_itself (F : fields) (op np : List polarization) :
    Option (fields × List polarization × List polarization) :=
  if op.isEmpty && np.isEmpty && !F.olpol.isEmpty && !F.pol.isEmpty then
    let o1 := F.step_polarization_itself_nodes F.olpol F.pol
    let temp := o1
    some ({ F with olpol := F.pol, pol := temp }, op, np)
  else if !F.olpol.isEmpty && !F.pol.isEmpty then
    match op, np with
    | [], _ => none
    | _ :: os, [] => if F.v.loops_run || !os.isEmpty then none else some (F, op, np)
    | _ :: _, _ :: _ => some (F, F.step_polarization_itself_nodes op np, np)
  else some (F, op, np)

/-- The address a nullable pointer holds (`NULL` is address `0`). -/
def ptr_addr (p : Option dbuf) : Int :=
  match p with
  | some b => b.addr
  | none => 0

/-- The difference `p - q` of two `double *`, counted in elements as C++ counts it (on a flat
address space; the addresses of `dbuf` are already in units of `sizeof(double)`). -/
def ptr_diff (p q : Option dbuf) : Int := ptr_addr p - ptr_addr q

/-- The expression `P[cc][i]` with two subscripts on a table `double *P[10][2]`: the pointer
held in slot `i` of row `cc`, which in the contiguous row-major table is slot `2*cc+i` (of
the twenty slots of the table). -/
def row_slot (P : Nat → Nat → Option dbuf) (cc i : Nat) : Option dbuf :=
  P ((2 * cc + i) / 2) ((2 * cc + i) % 2)

/-- What the reads of one pair of nodes `(op, np)` give past the tables. From slot
`2*cc+i = 20` on, the operands of `np->P[cc][i]-op->P[cc][i]` are read in the memory that
follows the two tables. The layout of the class (`dactyl.h`) and the allocator are not part
of the sources, so what the subtraction gives there is a parameter of the call: `P cmp cc i`
is the value of `np->P[cc][i]-op->P[cc][i]` in round `i` of the loop for `cc` of the part
`cmp`, and `P_pml cmp cc i` that of `np->P_pml[cc][i]-op->P_pml[cc][i]`. The reads themselves
are taken to succeed. -/
structure past_tables where
  P : Nat → Nat → Nat → Int
  P_pml : Nat → Nat → Nat → Int

/-- The expression `np->P[cc][i]-op->P[cc][i]`: both operands carry two subscripts, so they
are pointers and the result is their distance in elements. Inside the tables it is the
distance of the pointers held in slot `2*cc+i`; past the tables it is `past`, what the
subtraction makes of the memory that follows them. -/
def row_diff (npP opP : Nat → Nat → Option dbuf) (past : Int) (cc i : Nat) : Int :=
  if 2 * cc + i < 20 then ptr_diff (row_slot npP cc i) (row_slot opP cc i) else past

/-- The loop `for (i...) f[cc][cmp][i] -= ma->inveps[cc][i]*(np->P[cc][i]-op->P[cc][i])` on
the array `a` of the container; the pointer difference is converted to `double`. The same
loop serves `f_pml` with `P_pml`. -/
def react_loop (n : Nat) (inveps : List ℚ) (npP opP : Nat → Nat → Option dbuf)
    (past : Nat → Int) (cc : Nat) (a : List ℚ) : List ℚ :=
  forRange n (fun i l =>
    l.set i (l.getD i 0 - inveps.getD i 0 * ((row_diff npP opP (past i) cc i : Int) : ℚ))) a

/-- The body of the loops of `step_e_polarization` for one `cc` and `cmp`, on the container. -/
def fields.react_slot (op np : polarization) (past : past_tables) (cmp cc : Nat)
    (F : fields) : fields :=
  if F.v.has_field cc && is_electric cc then
    let l := react_loop F.v.ntot (F.ma.inveps cc) np.P op.P (past.P cmp cc) cc (F.f cc cmp)
    let m := react_loop F.v.ntot (F.ma.inveps cc) np.P_pml op.P_pml (past.P_pml cmp cc) cc
      (F.f_pml cc cmp)
    { F with f := tset F.f cc cmp l, f_pml := tset F.f_pml cc cmp m }
  else F

/-- The `DOCMP` block of `step_e_polarization` on the heads `op` and `np`. -/
def fields.react_node (F : fields) (op np : polarization) (past : past_tables) : fields :=
  forRange 2 (fun cmp st => forRange 10 (fields.react_slot op np past cmp) st) F

/-- The second branch of `step_e_polarization` on two non-null chains: the container after
it (the chains are only read). `past k` is what the reads of the `k`-th pair of nodes give
past the tables. -/
def fields.step_e_polarization_nodes :
    fields → (Nat → past_tables) → List polarization → List polarization → fields
  | F, past, o :: os, n :: ns =>
    let F1 := F.react_node o n (past 0)
    if os.isEmpty || ns.isEmpty then F1
    else fields.step_e_polarization_nodes F1 (fun k => past (k + 1)) os ns
  | F, _, _, _ => F

/-- The method `fields::step_e_polarization(polarization *op, polarization *np)`: the
container after the call and the chains `op` and `np` point to after the call; `none` when the
call dereferences a null argument. `past` is what the call reads past the tables `P` and
`P_pml` of the nodes (see `past_tables`); a grid whose reads stay inside the tables never
consults it. -/
def fields.step_e_polarization (F : fields) (past : Nat → past_tables)
    (op np : List polarization) : Option (fields × List polarization × List polarization) :=
  if op.isEmpty && np.isEmpty && !F.olpol.isEmpty && !F.pol.isEmpty then
    some (fields.step_e_polarization_nodes F past F.olpol F.pol, op, np)
  else if !F.olpol.isEmpty && !F.pol.isEmpty then
    match op, np with
    | [], _ => none
    | _ :: os, [] => if F.v.loops_run || !os.isEmpty then none else some (F, op, np)
    | _ :: _, _ :: _ => some (fields.step_e_polarization_nodes F past op np, op, np)
  else some (F, op, np)

/-- A call of `step_e_polarization` that finds the distance `0` wherever it reads past the
tables. -/
def past_zero : Nat → past_tables := fun _ => ⟨fun _ _ _ => 0, fun _ _ _ => 0⟩

/-- The number of doubles a nullable pointer gives access to (`0` through `NULL`). -/
def blen (p : Option dbuf) : Nat :=
  match p with
  | some b => b.val.length
  | none => 0

/-- The blocks the update loops write are there: for every component the loops visit, `P`
and `P_pml` of the node are non-null blocks of `ntot` doubles, as the constructor makes them. -/
def polarization.allocated (v : volume) (o : polarization) : Prop :=
  ∀ c, c < 10 → v.electric c = true → ∀ cmp, cmp < 2 →
    ((o.P c cmp).isSome = true ∧ blen (o.P c cmp) = v.ntot) ∧
    ((o.P_pml c cmp).isSome = true ∧ blen (o.P_pml c cmp) = v.ntot)

/-- The node `o1` is the object `o` with possibly other numbers in its blocks: it refers to
the same susceptibility term and its twenty `P` and twenty `P_pml` pointers are what they
were (null where they were null, else the same address and length). -/
def polarization.same_object (o1 o : polarization) : Prop :=
  o1.pb = o.pb ∧ ∀ c cmp,
    (ptr_addr (o1.P c cmp) = ptr_addr (o.P c cmp) ∧ blen (o1.P c cmp) = blen (o.P c cmp) ∧
      (o1.P c cmp).isSome = (o.P c cmp).isSome) ∧
    (ptr_addr (o1.P_pml c cmp) = ptr_addr (o.P_pml c cmp) ∧
      blen (o1.P_pml c cmp) = blen (o.P_pml c cmp) ∧
      (o1.P_pml c cmp).isSome = (o.P_pml c cmp).isSome)

instance (v : volume) (o : polarization) : Decidable (o.allocated v) := by
  unfold polarization.allocated; infer_instance

/-- A one-dimensional grid of two points carrying the components `Ex` and `Hy`. -/
def line_volume : volume :=
  { dim := ndim.d1, ntot := 2, nr := 0, nz := 1, has_field := fun c => c == Ex || c == 6,
    loc := fun _ i => ⟨0, i⟩, dr := ⟨0, 0⟩, dz := ⟨0, 1⟩ }

/-- A susceptibility term on `line_volume` with `omeganot = 1`, `gamma = 0` and coupling `1`
at both points. -/
def line_term : polarizability :=
  { omeganot := 1, gamma := 0, v := line_volume, sigma := ⟨100, [1, 1]⟩,
    s := fun c => if c = Ex then some ⟨102, [1, 1]⟩ else none }

/-- A material on `line_volume` with `inveps = 1` at both points and the one term
`line_term`. -/
def line_mat : mat :=
  { v := line_volume, a := 1, inveps := fun _ => [1, 1], pb := [line_term] }

/-- A material on `line_volume` with `inveps = 1` at both points and no susceptibility term
yet. -/
def bare_line_mat : mat :=
  { v := line_volume, a := 1, inveps := fun _ => [1, 1], pb := [] }

/-- A container on `line_mat`: both chains come from `set_up_polarizations`, the field is `1`
at both points and the split field `0`. -/
def line_fields : fields :=
  let a := polarization.set_up_polarizations line_mat ⟨0, fun _ => 7⟩
  let b := polarization.set_up_polarizations line_mat a.2
  { v := line_volume, ma := line_mat, f := fun _ _ => [1, 1], f_pml := fun _ _ => [0, 0],
    olpol := a.1, pol := b.1 }

/-- The first `n` of consecutive sentinel calls `step_polarization_itself(NULL, NULL)`. -/
def fields.advance_times : Nat → fields → Option fields
  | 0, F => some F
  | n + 1, F =>
    match F.step_polarization_itself [] [] with
    | some r => fields.advance_times n r.1
    | none => none

/-- A term without coupling, damping and resonance: `gamma = 0`, `omeganot = 0` and
`s[c][i] = 0` at every point of every component the loops visit. -/
def polarizability.quiet (v : volume) (t : polarizability) : Prop :=
  t.gamma = 0 ∧ t.omeganot = 0 ∧
    ∀ c, c < 10 → v.electric c = true → ∀ i, i < v.ntot → rd (t.s c) i = 0

instance (v : volume) (t : polarizability) : Decidable (t.quiet v) := by
  unfold polarizability.quiet; infer_instance

/-- An allocated node of a quiet term whose amplitudes `P` are the values `V`. -/
def polarization.holds (v : volume) (V : Nat → Nat → Nat → ℚ) (o : polarization) : Prop :=
  o.allocated v ∧ o.pb.quiet v ∧
    ∀ c, c < 10 → v.electric c = true → ∀ cmp, cmp < 2 → ∀ i, i < v.ntot →
      rd (o.P c cmp) i = V c cmp i

/-- The state repeated advances keep: two chains of N > 0 nodes that all hold the values `V`. -/
def fields.holds (v : volume) (V : Nat → Nat → Nat → ℚ) (N : Nat) (F : fields) : Prop :=
  F.v = v ∧ 0 < N ∧ F.olpol.length = N ∧ F.pol.length = N ∧
    (∀ o ∈ F.olpol, o.holds v V) ∧ (∀ n ∈ F.pol, n.holds v V)

/-- A susceptibility term on `line_volume` without coupling, damping and resonance. -/
def still_term : polarizability :=
  { omeganot := 0, gamma := 0, v := line_volume, sigma := ⟨100, [0, 0]⟩,
    s := fun c => if c = Ex then some ⟨102, [0, 0]⟩ else none }

/-- A material on `line_volume` whose chain is `still_term` twice. -/
def still_mat : mat :=
  { v := line_volume, a := 1, inveps := fun _ => [1, 1], pb := [still_term, still_term] }

/-- A container on `still_mat`: both chains come from `set_up_polarizations`, the field is
`(3, 5)` in the first part and `(-2, 1/2)` in the second. -/
def still_fields : fields :=
  let a := polarization.set_up_polarizations still_mat ⟨0, fun _ => 7⟩
  let b := polarization.set_up_polarizations still_mat a.2
  { v := line_volume, ma := still_mat,
    f := fun _ cmp => if cmp = 0 then [3, 5] else [-2, 1 / 2],
    f_pml := fun _ _ => [4, 4], olpol := a.1, pol := b.1 }

/-- The container `line_fields` after the sentinel seeding. -/
def line_fields_seeded : fields :=
  match line_fields.initialize_polarizations [] [] with
  | some r => r.1
  | none => line_fields

/-- The loop `for (int i = lo; i < hi; i++) body`. -/
def forFrom {σ : Type} (lo hi : Nat) (body : Nat → σ → σ) (s : σ) : σ :=
  forRange (hi - lo) (fun j st => body (lo + j) st) s

/-- The assignment `s[c][idx] = x`. -/
def swr (s : Nat → Option dbuf) (c idx : Nat) (x : ℚ) : Nat → Option dbuf :=
  vset s c (wr (s c) idx x)

/-- The body of the first loop of the profile-sampling constructor for one `c`: `s[c]` is a
fresh block when the component is electric and present, and null else. -/
def polarizability.alloc_s (v : volume) (c : Nat) (st : (Nat → Option dbuf) × heap) :
    (Nat → Option dbuf) × heap :=
  if v.has_field c && is_electric c then
    let a := new_double st.2 v.ntot
    (vset st.1 c (some a.1), a.2)
  else (vset st.1 c none, st.2)

/-- The loop `for (i...) sigma[i] = sigscale*sig(v.loc(comp,i))`. -/
def fill_sigma (v : volume) (sig : vec → ℚ) (sigscale : ℚ) (comp : Nat) (b : dbuf) : dbuf :=
  forRange v.ntot (fun i b => b.set i (sigscale * sig (v.loc comp i))) b

/-- The first averaging loop of the cylindrical case, over `1 <= r < nr` and
`1 <= z <= nz`, which reads `sigma`. -/
def cyl_interior (v : volume) (sigma : dbuf) (s : Nat → Option dbuf) : Nat → Option dbuf :=
  forFrom 1 v.nr (fun r s =>
    let ir := r * (v.nz + 1)
    let irm1 := (r - 1) * (v.nz + 1)
    forFrom 1 (v.nz + 1) (fun z s =>
      let s1 := swr s Er (z + ir) (0.5 * (sigma.get (z + ir) + sigma.get (z + ir - 1)))
      let s2 := swr s1 Ep (z + ir) (0.25 * (sigma.get (z + ir) + sigma.get (z + ir - 1) +
        sigma.get (z + irm1) + sigma.get (z + irm1 - 1)))
      swr s2 Ez (z + ir) (0.5 * (sigma.get (z + ir) + sigma.get (z + irm1)))) s) s

/-- The three assignments the two boundary loops make at index `idx` from the position
`here`. -/
def cyl_edge (sig : vec → ℚ) (sigscale : ℚ) (dr dz here : vec) (idx : Nat)
    (s : Nat → Option dbuf) : Nat → Option dbuf :=
  let s1 := swr s Er idx (0.5 * sigscale * (sig (here + dr + dz) + sig (here + dr - dz)))
  let s2 := swr s1 Ep idx (0.25 * sigscale * (sig (here + dr + dz) + sig (here - dr + dz) +
    sig (here + dr - dz) + sig (here - dr - dz)))
  swr s2 Ez idx (0.5 * sigscale * (sig (here + dr + dz) + sig (here - dr + dz)))

/-- The second averaging loop of the cylindrical case, over `0 <= r < nr` at `z = 0`. -/
def cyl_column (v : volume) (sig : vec → ℚ) (sigscale : ℚ) (dr dz : vec)
    (s : Nat → Option dbuf) : Nat → Option dbuf :=
  forRange v.nr (fun r s =>
    let ir := r * (v.nz + 1)
    cyl_edge sig sigscale dr dz (v.loc Ep ir) ir s) s

/-- The third averaging loop of the cylindrical case, over `0 <= z < nz` at `r = 0`. -/
def cyl_row (v : volume) (sig : vec → ℚ) (sigscale : ℚ) (dr dz : vec)
    (s : Nat → Option dbuf) : Nat → Option dbuf :=
  forRange v.nz (fun z s => cyl_edge sig sigscale dr dz (v.loc Ep z) z s) s

/-- The constructor `polarizability::polarizability(const mat *ma, double sig(const vec &),
double om, double ga, double sigscale)`: the term built (its `next` is null) and the free
store left, or the status of `exit`. Failure of an allocation is not modelled. -/
def polarizability.new_sampled (h : heap) (ma : mat) (sig : vec → ℚ) (om ga sigscale : ℚ) :
    Except Nat (polarizability × heap) :=
  let v := ma.v
  let st := forRange 10 (polarizability.alloc_s v) (fun _ => none, h)
  let a := new_double st.2 v.ntot
  let filled : Except Nat dbuf :=
    if v.dim = ndim.dcyl then Except.ok (fill_sigma v sig sigscale Hp a.1)
    else if v.dim = ndim.d1 then Except.ok (fill_sigma v sig sigscale Ex a.1)
    else Except.error 1
  match filled with
  | Except.error e => Except.error e
  | Except.ok sigma =>
    if v.dim = ndim.dcyl then
      let dr := v.dr * (0.5 : ℚ)
      let dz := v.dz * (0.5 : ℚ)
      let s1 := cyl_interior v sigma st.1
      let s2 := cyl_column v sig sigscale dr dz s1
      let s3 := cyl_row v sig sigscale dr dz s2
      Except.ok ({ omeganot := om, gamma := ga, v := v, sigma := sigma, s := s3 }, a.2)
    else if v.dim = ndim.dcyl then
      Except.ok ({ omeganot := om, gamma := ga, v := v, sigma := sigma, s := st.1 }, a.2)
    else Except.error 1

/-- The three coupling arrays of the cylindrical case are blocks of `ntot` doubles that hold
the value `x` in every cell of `W`. -/
def cyl_good (ntot : Nat) (x : ℚ) (W : Nat → Prop) (s : Nat → Option dbuf) : Prop :=
  (blen (s Er) = ntot ∧ blen (s Ep) = ntot ∧ blen (s Ez) = ntot) ∧
    ∀ idx, W idx → rd (s Er) idx = x ∧ rd (s Ep) idx = x ∧ rd (s Ez) idx = x

/-- A cylindrical grid of `nr = 2` by `nz = 3` cells with `(nr+1)*(nz+1) = 12` points,
carrying the six cylindrical components. -/
def cyl_volume : volume :=
  { dim := ndim.dcyl, ntot := 12, nr := 2, nz := 3,
    has_field := fun c => c == Er || c == Ep || c == Ez || c == 7 || c == Hp || c == 9,
    loc := fun _ i => ⟨(i / 4 : Nat), (i % 4 : Nat)⟩, dr := ⟨1, 0⟩, dz := ⟨0, 1⟩ }

/-- A material on `cyl_volume` without susceptibility terms. -/
def cyl_mat : mat := { v := cyl_volume, a := 1, inveps := fun _ => [], pb := [] }

/-- The entry `s[c][i]` of the term a constructor call returned; `none` when it exited. -/
def sampled_s (res : Except Nat (polarizability × heap)) (c i : Nat) : Option ℚ :=
  match res with
  | Except.ok r => some (rd (r.1.s c) i)
  | Except.error _ => none

/-- The container `line_fields` with its old buffer null. -/
def line_fields_no_old : fields := { line_fields with olpol := [] }

/-- Two blocks share no double. -/
def dbuf.apart (a b : dbuf) : Prop :=
  a.addr + (a.val.length : Int) ≤ b.addr ∨ b.addr + (b.val.length : Int) ≤ a.addr

instance (a b : dbuf) : Decidable (a.apart b) := by
  unfold dbuf.apart; infer_instance

/-- The blocks of doubles a node owns: the non-null `P[c][cmp]` and `P_pml[c][cmp]`. -/
def polarization.blocks (o : polarization) : List dbuf :=
  (List.range 10).flatMap (fun c => (List.range 2).flatMap (fun cmp =>
    (o.P c cmp).toList ++ (o.P_pml c cmp).toList))

/-- Two nodes share no double: every block of one lies apart from every block of the other. -/
def polarization.apart (o n : polarization) : Prop :=
  ∀ b ∈ o.blocks, ∀ d ∈ n.blocks, b.apart d

instance (o n : polarization) : Decidable (o.apart n) := by
  unfold polarization.apart; infer_instance

/-- The blocks two nullable pointers lead to share no double (a null pointer leads to
none). -/
def slots_apart (p q : Option dbuf) : Prop :=
  match p, q with
  | some b, some d => b.apart d
  | _, _ => True

instance (p q : Option dbuf) : Decidable (slots_apart p q) := by
  unfold slots_apart
  cases p <;> cases q <;> infer_instance

/-- The block in slot `P[c][cmp]` of a node shares no double with the block in any other slot
of its table `P`. -/
def polarization.own_slot (o : polarization) (c cmp : Nat) : Prop :=
  ∀ c1, c1 < 10 → ∀ cmp1, cmp1 < 2 → (c, cmp) ≠ (c1, cmp1) →
    slots_apart (o.P c cmp) (o.P c1 cmp1)

instance (o : polarization) (c cmp : Nat) : Decidable (o.own_slot c cmp) := by
  unfold polarization.own_slot; infer_instance

/-- The blocks in two different slots of the table `P` of a node share no double. -/
def polarization.own (o : polarization) : Prop :=
  ∀ c, c < 10 → ∀ cmp, cmp < 2 → o.own_slot c cmp

instance (o : polarization) : Decidable o.own := by
  unfold polarization.own; infer_instance

/-- The block in slot `P[c][cmp]` of a node shares no double with a block of its table
`P_pml`. -/
def polarization.own_pml_slot (o : polarization) (c cmp : Nat) : Prop :=
  ∀ c1, c1 < 10 → ∀ cmp1, cmp1 < 2 → slots_apart (o.P c cmp) (o.P_pml c1 cmp1)

instance (o : polarization) (c cmp : Nat) : Decidable (o.own_pml_slot c cmp) := by
  unfold polarization.own_pml_slot; infer_instance

/-- In a node no block of the table `P` shares a double with a block of the table `P_pml`. -/
def polarization.own_pml (o : polarization) : Prop :=
  ∀ c, c < 10 → ∀ cmp, cmp < 2 → o.own_pml_slot c cmp

instance (o : polarization) : Decidable o.own_pml := by
  unfold polarization.own_pml; infer_instance

/-- Two chains that share no memory: their nodes are so many different objects, each with
blocks of its own. No two nodes of `op`, no two nodes of `np` and no node of `op` and node of
`np` share a double, and in each node the blocks of different slots of `P` share none. -/
def chains_apart (op np : List polarization) : Prop :=
  op.Pairwise polarization.apart ∧ np.Pairwise polarization.apart ∧
    (∀ o ∈ op, ∀ n ∈ np, o.apart n) ∧ (∀ o ∈ op, o.own) ∧ (∀ n ∈ np, n.own)

instance (op np : List polarization) : Decidable (chains_apart op np) := by
  unfold chains_apart; infer_instance

/-- A chain of two nodes built by the constructor of `polarization` on two terms
`line_term`, in blocks at the addresses `100` to `115`. -/
def pair_chain : List polarization :=
  (polarization.new_polarization ⟨100, fun _ => 7⟩ line_term [line_term]).1

/-- A chain of one node built by the constructor on `line_term`, in blocks at the addresses
`200` to `207`. -/
def single_chain : List polarization :=
  (polarization.new_polarization ⟨200, fun _ => 7⟩ line_term []).1

/-- A list of stores `(address, value)`, done one after the other, on a block. -/
def pokes (ws : List (Int × ℚ)) (b : dbuf) : dbuf := ws.foldl (fun b w => poke w.1 w.2 b) b

/-- A list of stores, done one after the other, on a node. -/
def polarization.pokes (ws : List (Int × ℚ)) (o : polarization) : polarization :=
  ws.foldl (fun o w => o.poke w.1 w.2) o

/-- A list of stores, done one after the other, on the chains within reach. -/
def reach.pokes (ws : List (Int × ℚ)) (S : reach) : reach :=
  ws.foldl (fun S w => S.poke w.1 w.2) S

/-- The store the assignment `p[i] = x` does: none through `NULL` or outside the block. -/
def store_cells (p : Option dbuf) (i : Nat) (x : ℚ) : List (Int × ℚ) :=
  match p with
  | some b => if i < b.val.length then [(b.addr + (i : Int), x)] else []
  | none => []

/-- The stores of the `DOCMP` block of `initialize_polarizations` for the heads `op` and `np`,
in the order of the loops. -/
def fields.seed_cells (F : fields) (op np : polarization) : List (Int × ℚ) :=
  (List.range 2).flatMap (fun cmp => (List.range 10).flatMap (fun c =>
    if F.v.has_field c && is_electric c then
      (List.range F.v.ntot).flatMap (fun i =>
        store_cells (op.P c cmp) i ((F.f c cmp).getD i 0) ++
          store_cells (np.P c cmp) i ((F.f c cmp).getD i 0))
    else []))

/-- The stores a call of `initialize_polarizations` on the chains `op` and `np` does: `w` is
the store of the field value `f[c][cmp][i]` into the double `i` of the block `P[c][cmp]` of a
node of `op` or of `np` that has a node of equal rank in the other chain, for a component the
loops visit. -/
def fields.stores (F : fields) (op np : List polarization) (w : Int × ℚ) : Prop :=
  ∃ (k : Nat) (o n : polarization) (cmp c i : Nat) (b : dbuf),
    op[k]? = some o ∧ np[k]? = some n ∧ cmp < 2 ∧ c < 10 ∧ F.v.electric c = true ∧
      i < F.v.ntot ∧ (o.P c cmp = some b ∨ n.P c cmp = some b) ∧ i < b.val.length ∧
      w = (b.addr + (i : Int), (F.f c cmp).getD i 0)

/-- A one-dimensional grid of twenty-one points carrying the components `Ex` and `Hy`: the
loops for `Ex` run to `i = 20`, so `P[Ex][20]` is read in slot twenty, past the table. -/
def long_volume : volume :=
  { dim := ndim.d1, ntot := 21, nr := 0, nz := 20, has_field := fun c => c == Ex || c == 6,
    loc := fun _ i => ⟨0, i⟩, dr := ⟨0, 0⟩, dz := ⟨0, 1⟩ }

/-- A susceptibility term on `long_volume` with `omeganot = 1`, `gamma = 0` and coupling `1`
at every point. -/
def long_term : polarizability :=
  { omeganot := 1, gamma := 0, v := long_volume, sigma := ⟨1000, List.replicate 21 1⟩,
    s := fun c => if c = Ex then some ⟨1100, List.replicate 21 1⟩ else none }

/-- A material on `long_volume` with `inveps = 1` at every point and the two terms
`long_term`, `long_term`. -/
def long_mat : mat :=
  { v := long_volume, a := 1, inveps := fun _ => List.replicate 21 1,
    pb := [long_term, long_term] }

/-- A container on `long_mat`: both chains come from `set_up_polarizations`, the field is `1`
at every point and the split field `0`. -/
def long_fields : fields :=
  let a := polarization.set_up_polarizations long_mat ⟨0, fun _ => 7⟩
  let b := polarization.set_up_polarizations long_mat a.2
  { v := long_volume, ma := long_mat, f := fun _ _ => List.replicate 21 1,
    f_pml := fun _ _ => List.replicate 21 0, olpol := a.1, pol := b.1 }

/-- A reaction that finds the distance `3 + k` past the table `P` and `5` past `P_pml`, at
the `k`-th pair of nodes. -/
def long_past : Nat → past_tables := fun k => ⟨fun _ _ _ => 3 + (k : Int), fun _ _ _ => 5⟩

/-- The dual-buffer predicate: the old and the new chain are both null or both non-null, have
equal length, and corresponding nodes refer to the same susceptibility term. -/
def fields.dual (F : fields) : Prop :=
  (F.olpol = [] ↔ F.pol = []) ∧ F.olpol.length = F.pol.length ∧
    ∀ (k : Nat) (o n : polarization), F.olpol[k]? = some o → F.pol[k]? = some n → o.pb = n.pb

/-- The three sentinel calls of the update engine; a reaction comes with what it reads past
the tables (see `past_tables`). -/
inductive sentinel_call where
  | seed
  | advance
  | react (past : Nat → past_tables)

/-- One sentinel call on the container: `initialize_polarizations(NULL, NULL)`,
`step_polarization_itself(NULL, NULL)` or `step_e_polarization(NULL, NULL)`. -/
def fields.call (F : fields) (c : sentinel_call) : Option fields :=
  match c with
  | sentinel_call.seed => (F.initialize_polarizations [] []).map (fun r => r.1)
  | sentinel_call.advance => (F.step_polarization_itself [] []).map (fun r => r.1)
  | sentinel_call.react past => (F.step_e_polarization past [] []).map (fun r => r.1)

/-- A finite sequence of sentinel calls, one after the other. -/
def fields.calls : List sentinel_call → fields → Option fields
  | [], F => some F
  | c :: cs, F =>
    match F.call c with
    | some F1 => fields.calls cs F1
    | none => none

/-- Every pointer `step_e_polarization` reads with two subscripts lies inside the table:
`2*cc + i < 20` for every component the loops visit and every `i < ntot`. -/
def volume.in_table (v : volume) : Prop :=
  ∀ cc, cc < 10 → v.electric cc = true → 2 * cc + v.ntot ≤ 20

instance (v : volume) : Decidable v.in_table := by
  unfold volume.in_table; infer_instance

/-- The container `F1` has the chains, the grid and the material of `F`. -/
def fields.same_chains (F F1 : fields) : Prop :=
  F1.olpol = F.olpol ∧ F1.pol = F.pol ∧ F1.v = F.v ∧ F1.ma = F.ma

/-- What the constructor of `polarization` leaves in a slot `P[c][cmp]` or `P_pml[c][cmp]`:
a block of `ntot` doubles, all `0`, when the component is electric and present in the grid,
and the null pointer else. -/
def zeroed_slot (v : volume) (c : Nat) (p : Option dbuf) : Prop :=
  (v.electric c = true → ∃ b : dbuf, p = some b ∧ b.val = List.replicate v.ntot 0) ∧
  (v.electric c = false → p = none)

/-- The loop `for (int i=0;i<n;i++) dst[i] = src[i]` on the block `dst`. -/
def copy_block (n : Nat) (src : Option dbuf) (dst : dbuf) : dbuf :=
  forRange n (fun i b => b.set i (rd src i)) dst

/-- The body of the loop over `c` of the copy constructor: `s[c]` is a fresh block filled
from `pb->s[c]` when the component is electric and present, and null else. -/
def polarizability.copy_s (pb : polarizability) (c : Nat) (st : (Nat → Option dbuf) × heap) :
    (Nat → Option dbuf) × heap :=
  if pb.v.has_field c && is_electric c then
    let a := new_double st.2 pb.v.ntot
    (vset st.1 c (some (copy_block pb.v.ntot (pb.s c) a.1)), a.2)
  else (vset st.1 c none, st.2)

/-- The copy constructor `polarizability::polarizability(const polarizability *pb)`, as
called in `new polarizability(pb)`, on the chain `pb :: rest`: the chain of copies built, and
the free store left. -/
def polarizability.new_copy : heap → polarizability → List polarizability →
    List polarizability × heap
  | h, pb, rest =>
    let a := new_double h pb.v.ntot
    let sigma := copy_block pb.v.ntot (some pb.sigma) a.1
    let st := forRange 10 (polarizability.copy_s pb) (fun _ => none, a.2)
    let node : polarizability :=
      { omeganot := pb.omeganot, gamma := pb.gamma, v := pb.v, sigma := sigma, s := st.1 }
    match rest with
    | [] => ([node], st.2)
    | nx :: rest1 =>
      let r := polarizability.new_copy st.2 nx rest1
      (node :: r.1, r.2)

/-- The invariant of a susceptibility term: `sigma` has `ntot` entries, and `s[c]` is a block
of `ntot` entries exactly for the components that are electric and present in the grid, and
null for the others. -/
def polarizability.wf (t : polarizability) : Prop :=
  t.sigma.val.length = t.v.ntot ∧
    ∀ c, c < 10 →
      (t.v.electric c = true → (t.s c).isSome = true ∧ blen (t.s c) = t.v.ntot) ∧
      (t.v.electric c = false → t.s c = none)

instance (t : polarizability) : Decidable t.wf := by
  unfold polarizability.wf; infer_instance

/-- The blocks of doubles a term owns: `sigma` and the non-null `s[c]`. -/
def polarizability.blocks (t : polarizability) : List dbuf :=
  t.sigma :: (List.range 10).filterMap t.s

/-- The node the copy constructor builds from `pb` on the free store `h`. -/
def polarizability.copy_node (h : heap) (pb : polarizability) : polarizability :=
  { omeganot := pb.omeganot, gamma := pb.gamma, v := pb.v,
    sigma := copy_block pb.v.ntot (some pb.sigma) (new_double h pb.v.ntot).1,
    s := (forRange 10 (polarizability.copy_s pb) (fun _ => none, (new_double h pb.v.ntot).2)).1 }

/-- The free store after the copy constructor has built the node of `pb`. -/
def polarizability.copy_heap (h : heap) (pb : polarizability) : heap :=
  (forRange 10 (polarizability.copy_s pb) (fun _ => none, (new_double h pb.v.ntot).2)).2

/-- The blocks of doubles the terms of a chain own. -/
def chain_blocks : List polarizability → List dbuf
  | [] => []
  | t :: ts => t.blocks ++ chain_blocks ts

/-- The method `mat::add_polarizability(double sigma(const vec &), double omega,
double gamma, double delta_epsilon)`: the material with the new term in front of its chain
and the free store left, or the status of `exit`. The constants `pi` and `c` of the absent
headers are parameters. -/
def mat.add_polarizability (ma : mat) (h : heap) (pi c : ℚ) (sigma : vec → ℚ)
    (omega gamma delta_epsilon : ℚ) : Except Nat (mat × heap) :=
  let freq_conversion := 2 * pi * c / ma.a
  let sigma_scale := freq_conversion * freq_conversion * omega * omega * delta_epsilon
  match polarizability.new_sampled h ma sigma (freq_conversion * omega)
      (freq_conversion * gamma) sigma_scale with
  | Except.error e => Except.error e
  | Except.ok (npb, h1) => Except.ok ({ ma with pb := npb :: ma.pb }, h1)

/-- The three coupling arrays of the cylindrical case are blocks of `ntot` doubles. -/
def cyl_blocks (ntot : Nat) (s : Nat → Option dbuf) : Prop :=
  blen (s Er) = ntot ∧ blen (s Ep) = ntot ∧ blen (s Ez) = ntot

/-- The three coupling arrays are blocks of `ntot` doubles and hold `a`, `b` and `c` in
cell `idx` of `s[Er]`, `s[Ep]` and `s[Ez]`. -/
def cyl_cell (ntot idx : Nat) (a b c : ℚ) (s : Nat → Option dbuf) : Prop :=
  cyl_blocks ntot s ∧ rd (s Er) idx = a ∧ rd (s Ep) idx = b ∧ rd (s Ez) idx = c

/-- The subscripts at which the interior loop of the cylindrical case reads `sigma`, in the
order of the source: two for `s[Er]`, four for `s[Ep]`, two for `s[Ez]` in every round. -/
def cyl_reads (v : volume) : List Int :=
  forFrom 1 v.nr (fun r acc =>
    let ir : Int := (r : Int) * ((v.nz : Int) + 1)
    let irm1 : Int := ((r : Int) - 1) * ((v.nz : Int) + 1)
    forFrom 1 (v.nz + 1) (fun z acc =>
      acc ++ [(z : Int) + ir, (z : Int) + ir - 1,
        (z : Int) + ir, (z : Int) + ir - 1, (z : Int) + irm1, (z : Int) + irm1 - 1,
        (z : Int) + ir, (z : Int) + irm1]) acc) []

/-- The assignments of the three loops of the cylindrical case, in the order of the source,
each as the component and the subscript of the array written: `s[Er][..]`, `s[Ep][..]` and
`s[Ez][..]` at `z + ir` in the interior loop, at `ir` in the loop over `r`, and at `z` in the
loop over `z`. -/
def cyl_writes (v : volume) : List (Nat × Int) :=
  let w1 := forFrom 1 v.nr (fun r acc =>
    let ir : Int := (r : Int) * ((v.nz : Int) + 1)
    forFrom 1 (v.nz + 1) (fun z acc =>
      acc ++ [(Er, (z : Int) + ir), (Ep, (z : Int) + ir), (Ez, (z : Int) + ir)]) acc) []
  let w2 := forRange v.nr (fun r acc =>
    let ir : Int := (r : Int) * ((v.nz : Int) + 1)
    acc ++ [(Er, ir), (Ep, ir), (Ez, ir)]) w1
  forRange v.nz (fun z acc => acc ++ [(Er, (z : Int)), (Ep, (z : Int)), (Ez, (z : Int))]) w2

/-- A cylindrical grid without a row (`nr = 0`) and without a point (`ntot = 0`), with
`nz = 1`. -/
def flat_volume : volume :=
  { dim := ndim.dcyl, ntot := 0, nr := 0, nz := 1,
    has_field := fun c => c == Er || c == Ep || c == Ez || c == 7 || c == Hp || c == 9,
    loc := fun _ _ => ⟨0, 0⟩, dr := ⟨1, 0⟩, dz := ⟨0, 1⟩ }

/-- The cell `idx` of `s[Er]`, `s[Ep]` and `s[Ez]` holds `a`, `b` and `c`. -/
def cyl_keep (idx : Nat) (a b c : ℚ) (s : Nat → Option dbuf) : Prop :=
  rd (s Er) idx = a ∧ rd (s Ep) idx = b ∧ rd (s Ez) idx = c

/-! ## Properties: the chain `set_up_polarizations` builds -/

theorem polarization_pb_chain (rest : List polarizability) :
    ∀ (h : heap) (the_pb : polarizability),
      (polarization.new_polarization h the_pb rest).1.map polarization.pb = the_pb :: rest := by
  induction rest with
  | nil => intro h the_pb; simp [polarization.new_polarization]
  | cons nx rest1 ih =>
    intro h the_pb
    rw [polarization.new_polarization]
    simp only [List.map_cons, ih]

theorem set_up_pb_chain (ma : mat) (h : heap) :
    (polarization.set_up_polarizations ma h).1.map polarization.pb = ma.pb := by
  unfold polarization.set_up_polarizations
  cases hpb : ma.pb with
  | nil => simp
  | cons p rest => simpa using polarization_pb_chain rest h p

/-- C1: for a material whose susceptibility chain has N terms, `set_up_polarizations` returns
a chain of exactly N nodes (the null chain when N = 0), and the k-th node's `pb` is the k-th
term of the material's chain (there is no k-th node when there is no k-th term). -/
theorem C1_set_up_chain (ma : mat) (h : heap) :
    (polarization.set_up_polarizations ma h).1.length = ma.pb.length ∧
    (ma.pb.length = 0 ↔ (polarization.set_up_polarizations ma h).1 = []) ∧
    ∀ k : Nat, ((polarization.set_up_polarizations ma h).1)[k]?.map polarization.pb
      = ma.pb[k]? := by
  have hmap := set_up_pb_chain ma h
  have hlen : (polarization.set_up_polarizations ma h).1.length = ma.pb.length := by
    rw [← hmap, List.length_map]
  refine ⟨hlen, ?_, ?_⟩
  · rw [← hlen]; exact List.length_eq_zero
  · intro k
    rw [← hmap]; simp

/-! ## Loops -/

theorem forRange_zero {σ : Type} (body : Nat → σ → σ) (s : σ) : forRange 0 body s = s := rfl

theorem forRange_succ {σ : Type} (n : Nat) (body : Nat → σ → σ) (s : σ) :
    forRange (n + 1) body s = body n (forRange n body s) := rfl

theorem forRange_two {σ : Type} (body : Nat → σ → σ) (s : σ) :
    forRange 2 body s = body 1 (body 0 s) := rfl

/-- A loop over a pair whose body treats the two halves separately is a pair of loops. -/
theorem forRange_pair {α β : Type} (A : Nat → α → α) (B : Nat → β → β) (n : Nat) (s : α × β) :
    forRange n (fun i st => (A i st.1, B i st.2)) s = (forRange n A s.1, forRange n B s.2) := by
  induction n with
  | zero => rfl
  | succ n ih => simp only [forRange_succ, ih]

theorem blen_wr (p : Option dbuf) (i : Nat) (x : ℚ) : blen (wr p i x) = blen p := by
  cases p <;> simp [wr, blen, dbuf.set]

theorem ptr_addr_wr (p : Option dbuf) (i : Nat) (x : ℚ) : ptr_addr (wr p i x) = ptr_addr p := by
  cases p <;> simp [wr, ptr_addr, dbuf.set]

theorem isSome_wr (p : Option dbuf) (i : Nat) (x : ℚ) : (wr p i x).isSome = p.isSome := by
  cases p <;> simp [wr]

theorem rd_wr (p : Option dbuf) (i j : Nat) (x : ℚ) :
    rd (wr p i x) j = if j = i ∧ i < blen p then x else rd p j := by
  cases p with
  | none => simp [wr, rd, blen]
  | some b =>
    simp only [wr, rd, blen, dbuf.get, dbuf.set, List.getD_eq_getElem?_getD]
    by_cases hji : j = i
    · subst hji
      by_cases hlt : j < b.val.length
      · simp [hlt]
      · have hle : b.val.length ≤ j := by omega
        simp [hlt, List.getElem?_eq_none, hle]
    · have hij : ¬ i = j := fun h => hji h.symm
      simp [hji, hij, List.getElem?_set]

/-- A loop `for (i...) p[i] = g(i, p[i])` keeps the block where it is and as long as it is. -/
theorem pointwise_loop_frame (g : Nat → ℚ → ℚ) (p : Option dbuf) (n : Nat) :
    blen (forRange n (fun i b => wr b i (g i (rd b i))) p) = blen p ∧
    ptr_addr (forRange n (fun i b => wr b i (g i (rd b i))) p) = ptr_addr p ∧
    (forRange n (fun i b => wr b i (g i (rd b i))) p).isSome = p.isSome := by
  induction n with
  | zero => exact ⟨rfl, rfl, rfl⟩
  | succ n ih =>
    simp only [forRange_succ, blen_wr, ptr_addr_wr, isSome_wr]
    exact ih

/-- A loop `for (i...) p[i] = g(i, p[i])` leaves in cell `j` the value `g(j, p[j])` of the
old contents when `j` is below the bound and inside the block, and the old contents else. -/
theorem pointwise_loop_rd (g : Nat → ℚ → ℚ) (p : Option dbuf) (n j : Nat) :
    rd (forRange n (fun i b => wr b i (g i (rd b i))) p) j =
      if j < n ∧ j < blen p then g j (rd p j) else rd p j := by
  induction n with
  | zero => simp [forRange_zero]
  | succ n ih =>
    rw [forRange_succ, rd_wr, (pointwise_loop_frame g p n).1]
    by_cases hjn : j = n
    · subst hjn
      rw [ih]
      by_cases hlt : j < blen p
      · simp [hlt]
      · simp [hlt]
    · rw [ih]
      by_cases hlt : j < n
      · have : j < n + 1 := by omega
        simp [hjn, hlt, this]
      · have : ¬ j < n + 1 := by omega
        simp [hjn, hlt, this]

/-! ## The advance of one node -/

/-- The closed form of the node after the first `n` rounds of the loop over `cc` of
`step_polarization_itself`, for one `cmp`. -/
theorem advance_cc_loop (F : fields) (np : polarization) (g om funinv : ℚ) (cmp n : Nat)
    (op : polarization) :
    forRange n (F.advance_slot np g om funinv cmp) op =
      { P := fun c m => if c < n ∧ m = cmp ∧ F.v.electric c = true then
          advance_loop F.v.ntot g om funinv (np.P c m) (np.pb.s c) (F.f c m) (op.P c m)
          else op.P c m,
        P_pml := fun c m => if c < n ∧ m = cmp ∧ F.v.electric c = true then
          advance_loop F.v.ntot g om funinv (np.P_pml c m) (np.pb.s c) (F.f_pml c m)
            (op.P_pml c m)
          else op.P_pml c m,
        pb := op.pb } := by
  induction n with
  | zero => simp [forRange_zero]
  | succ n ih =>
    rw [forRange_succ, ih]
    unfold fields.advance_slot
    by_cases he : (F.v.has_field n && is_electric n) = true
    · have he1 : F.v.electric n = true := he
      rw [if_pos he]
      simp only [polarization.mk.injEq, and_true]
      constructor
      · funext c m
        simp only [tset]
        by_cases hc : c = n
        · subst hc
          by_cases hm : m = cmp
          · subst hm; simp [he1]
          · simp [hm]
        · have h1 : (c < n + 1) = (c < n) := by
            apply propext; constructor <;> intro h <;> omega
          simp [hc, h1]
      · funext c m
        simp only [tset]
        by_cases hc : c = n
        · subst hc
          by_cases hm : m = cmp
          · subst hm; simp [he1]
          · simp [hm]
        · have h1 : (c < n + 1) = (c < n) := by
            apply propext; constructor <;> intro h <;> omega
          simp [hc, h1]
    · have he1 : ¬ F.v.electric n = true := he
      rw [if_neg he]
      simp only [polarization.mk.injEq, and_true]
      constructor
      · funext c m
        by_cases hc : c = n
        · subst hc; simp [he1]
        · have h1 : (c < n + 1) = (c < n) := by
            apply propext; constructor <;> intro h <;> omega
          simp [h1]
      · funext c m
        by_cases hc : c = n
        · subst hc; simp [he1]
        · have h1 : (c < n + 1) = (c < n) := by
            apply propext; constructor <;> intro h <;> omega
          simp [h1]

/-- The closed form of `advance_node`: every block of a component the loops visit is
replaced by the result of its loop over `i`; nothing else changes. -/
theorem advance_node_eq (F : fields) (op np : polarization) :
    F.advance_node op np =
      { P := fun c m => if c < 10 ∧ m < 2 ∧ F.v.electric c = true then
          advance_loop F.v.ntot op.pb.gamma op.pb.omeganot (1 / (1 + 0.5 * op.pb.gamma))
            (np.P c m) (np.pb.s c) (F.f c m) (op.P c m)
          else op.P c m,
        P_pml := fun c m => if c < 10 ∧ m < 2 ∧ F.v.electric c = true then
          advance_loop F.v.ntot op.pb.gamma op.pb.omeganot (1 / (1 + 0.5 * op.pb.gamma))
            (np.P_pml c m) (np.pb.s c) (F.f_pml c m) (op.P_pml c m)
          else op.P_pml c m,
        pb := op.pb } := by
  unfold fields.advance_node
  simp only [advance_cc_loop, forRange_two, polarization.mk.injEq, and_true]
  constructor
  · funext c m
    by_cases hm : m < 2
    · have h01 : m = 0 ∨ m = 1 := by omega
      rcases h01 with h0 | h1
      · subst h0; by_cases hc : c < 10 <;> by_cases he : F.v.electric c = true <;> simp [hc, he]
      · subst h1; by_cases hc : c < 10 <;> by_cases he : F.v.electric c = true <;> simp [hc, he]
    · have h0 : ¬ m = 0 := by omega
      have h1 : ¬ m = 1 := by omega
      simp [hm, h0, h1]
  · funext c m
    by_cases hm : m < 2
    · have h01 : m = 0 ∨ m = 1 := by omega
      rcases h01 with h0 | h1
      · subst h0; by_cases hc : c < 10 <;> by_cases he : F.v.electric c = true <;> simp [hc, he]
      · subst h1; by_cases hc : c < 10 <;> by_cases he : F.v.electric c = true <;> simp [hc, he]
    · have h0 : ¬ m = 0 := by omega
      have h1 : ¬ m = 1 := by omega
      simp [hm, h0, h1]

/-! ## The seeding of one pair of nodes -/

/-- The closed form of the pair of nodes after the first `n` rounds of the loop over `c` of
`initialize_polarizations`, for one `cmp`. -/
theorem seed_c_loop (F : fields) (cmp n : Nat) (st : polarization × polarization) :
    forRange n (F.seed_slot cmp) st =
      ({ P := fun c m => if c < n ∧ m = cmp ∧ F.v.electric c = true then
            (seed_loop F.v.ntot (F.f c m) (st.1.P c m, st.2.P c m)).1 else st.1.P c m,
         P_pml := st.1.P_pml, pb := st.1.pb },
       { P := fun c m => if c < n ∧ m = cmp ∧ F.v.electric c = true then
            (seed_loop F.v.ntot (F.f c m) (st.1.P c m, st.2.P c m)).2 else st.2.P c m,
         P_pml := st.2.P_pml, pb := st.2.pb }) := by
  induction n with
  | zero => simp [forRange_zero]
  | succ n ih =>
    rw [forRange_succ, ih]
    unfold fields.seed_slot
    by_cases he : (F.v.has_field n && is_electric n) = true
    · have he1 : F.v.electric n = true := he
      rw [if_pos he]
      simp only [Prod.mk.injEq, polarization.mk.injEq, and_true]
      constructor
      · funext c m
        simp only [tset]
        by_cases hc : c = n
        · subst hc
          by_cases hm : m = cmp
          · subst hm; simp [he1]
          · simp [hm]
        · have h1 : (c < n + 1) = (c < n) := by
            apply propext; constructor <;> intro h <;> omega
          simp [hc, h1]
      · funext c m
        simp only [tset]
        by_cases hc : c = n
        · subst hc
          by_cases hm : m = cmp
          · subst hm; simp [he1]
          · simp [hm]
        · have h1 : (c < n + 1) = (c < n) := by
            apply propext; constructor <;> intro h <;> omega
          simp [hc, h1]
    · have he1 : ¬ F.v.electric n = true := he
      rw [if_neg he]
      simp only [Prod.mk.injEq, polarization.mk.injEq, and_true]
      constructor
      · funext c m
        by_cases hc : c = n
        · subst hc; simp [he1]
        · have h1 : (c < n + 1) = (c < n) := by
            apply propext; constructor <;> intro h <;> omega
          simp [h1]
      · funext c m
        by_cases hc : c = n
        · subst hc; simp [he1]
        · have h1 : (c < n + 1) = (c < n) := by
            apply propext; constructor <;> intro h <;> omega
          simp [h1]

/-- The closed form of `seed_node`: in both nodes every block `P[c][cmp]` of a component the
loops visit is replaced by the result of its loop over `i`; nothing else changes. -/
theorem seed_node_eq (F : fields) (op np : polarization) :
    F.seed_node op np =
      ({ P := fun c m => if c < 10 ∧ m < 2 ∧ F.v.electric c = true then
            (seed_loop F.v.ntot (F.f c m) (op.P c m, np.P c m)).1 else op.P c m,
         P_pml := op.P_pml, pb := op.pb },
       { P := fun c m => if c < 10 ∧ m < 2 ∧ F.v.electric c = true then
            (seed_loop F.v.ntot (F.f c m) (op.P c m, np.P c m)).2 else np.P c m,
         P_pml := np.P_pml, pb := np.pb }) := by
  unfold fields.seed_node
  simp only [seed_c_loop, forRange_two, Prod.mk.injEq, polarization.mk.injEq, and_true]
  constructor
  · funext c m
    by_cases hm : m < 2
    · have h01 : m = 0 ∨ m = 1 := by omega
      rcases h01 with h0 | h1
      · subst h0; by_cases hc : c < 10 <;> by_cases he : F.v.electric c = true <;> simp [hc, he]
      · subst h1; by_cases hc : c < 10 <;> by_cases he : F.v.electric c = true <;> simp [hc, he]
    · have h0 : ¬ m = 0 := by omega
      have h1 : ¬ m = 1 := by omega
      simp [hm, h0, h1]
  · funext c m
    by_cases hm : m < 2
    · have h01 : m = 0 ∨ m = 1 := by omega
      rcases h01 with h0 | h1
      · subst h0; by_cases hc : c < 10 <;> by_cases he : F.v.electric c = true <;> simp [hc, he]
      · subst h1; by_cases hc : c < 10 <;> by_cases he : F.v.electric c = true <;> simp [hc, he]
    · have h0 : ¬ m = 0 := by omega
      have h1 : ¬ m = 1 := by omega
      simp [hm, h0, h1]

/-- The two halves of the seeding loop are two pointwise loops. -/
theorem seed_loop_eq (n : Nat) (src : List ℚ) (st : Option dbuf × Option dbuf) :
    seed_loop n src st =
      (forRange n (fun i b => wr b i ((fun j (_ : ℚ) => src.getD j 0) i (rd b i))) st.1,
       forRange n (fun i b => wr b i ((fun j (_ : ℚ) => src.getD j 0) i (rd b i))) st.2) := by
  unfold seed_loop
  exact forRange_pair (fun i b => wr b i (src.getD i 0)) (fun i b => wr b i (src.getD i 0)) n st

/-- What the seeding loop leaves in the block of `op`. -/
theorem seed_loop_rd_fst (n : Nat) (src : List ℚ) (st : Option dbuf × Option dbuf) (j : Nat) :
    rd (seed_loop n src st).1 j = if j < n ∧ j < blen st.1 then src.getD j 0 else rd st.1 j := by
  rw [seed_loop_eq]
  exact pointwise_loop_rd (fun j (_ : ℚ) => src.getD j 0) st.1 n j

/-- What the seeding loop leaves in the block of `np`. -/
theorem seed_loop_rd_snd (n : Nat) (src : List ℚ) (st : Option dbuf × Option dbuf) (j : Nat) :
    rd (seed_loop n src st).2 j = if j < n ∧ j < blen st.2 then src.getD j 0 else rd st.2 j := by
  rw [seed_loop_eq]
  exact pointwise_loop_rd (fun j (_ : ℚ) => src.getD j 0) st.2 n j

/-- The seeding loop keeps both blocks where they are and as long as they are. -/
theorem seed_loop_frame (n : Nat) (src : List ℚ) (st : Option dbuf × Option dbuf) :
    (ptr_addr (seed_loop n src st).1 = ptr_addr st.1 ∧ blen (seed_loop n src st).1 = blen st.1 ∧
      (seed_loop n src st).1.isSome = st.1.isSome) ∧
    (ptr_addr (seed_loop n src st).2 = ptr_addr st.2 ∧ blen (seed_loop n src st).2 = blen st.2 ∧
      (seed_loop n src st).2.isSome = st.2.isSome) := by
  rw [seed_loop_eq]
  have h1 := pointwise_loop_frame (fun j (_ : ℚ) => src.getD j 0) st.1 n
  have h2 := pointwise_loop_frame (fun j (_ : ℚ) => src.getD j 0) st.2 n
  exact ⟨⟨h1.2.1, h1.1, h1.2.2⟩, ⟨h2.2.1, h2.1, h2.2.2⟩⟩

/-- What the advance loop leaves in the block of `op`. -/
theorem advance_loop_rd (n : Nat) (g om funinv : ℚ) (npP s : Option dbuf) (fld : List ℚ)
    (b : Option dbuf) (j : Nat) :
    rd (advance_loop n g om funinv npP s fld b) j =
      if j < n ∧ j < blen b then
        funinv * ((2 - om * om) * rd npP j + (0.5 * g - 1) * rd b j) + rd s j * fld.getD j 0
      else rd b j :=
  pointwise_loop_rd (fun i x =>
    funinv * ((2 - om * om) * rd npP i + (0.5 * g - 1) * x) + rd s i * fld.getD i 0) b n j

/-- The advance loop keeps the block where it is and as long as it is. -/
theorem advance_loop_frame (n : Nat) (g om funinv : ℚ) (npP s : Option dbuf) (fld : List ℚ)
    (b : Option dbuf) :
    blen (advance_loop n g om funinv npP s fld b) = blen b ∧
    ptr_addr (advance_loop n g om funinv npP s fld b) = ptr_addr b ∧
    (advance_loop n g om funinv npP s fld b).isSome = b.isSome :=
  pointwise_loop_frame (fun i x =>
    funinv * ((2 - om * om) * rd npP i + (0.5 * g - 1) * x) + rd s i * fld.getD i 0) b n

/-! ## Chains -/

theorem step_nodes_length (F : fields) (op : List polarization) :
    ∀ np : List polarization, (F.step_polarization_itself_nodes op np).length = op.length := by
  induction op with
  | nil => intro np; simp [fields.step_polarization_itself_nodes]
  | cons o os ih =>
    intro np
    cases np with
    | nil => simp [fields.step_polarization_itself_nodes]
    | cons n ns =>
      rw [fields.step_polarization_itself_nodes]
      by_cases hc : (os.isEmpty || ns.isEmpty) = true
      · simp [hc]
      · simp [hc, ih]

/-- The advance visits the nodes in lockstep: where both chains have a k-th node, the k-th
node of the result is the advanced k-th node of `op`. -/
theorem step_nodes_getElem (F : fields) (op : List polarization) :
    ∀ (np : List polarization) (k : Nat) (o n : polarization),
      op[k]? = some o → np[k]? = some n →
      (F.step_polarization_itself_nodes op np)[k]? = some (F.advance_node o n) := by
  induction op with
  | nil => intro np k o n ho; simp at ho
  | cons o0 os ih =>
    intro np k o n ho hn
    cases np with
    | nil => simp at hn
    | cons n0 ns =>
      rw [fields.step_polarization_itself_nodes]
      cases k with
      | zero =>
        simp only [List.getElem?_cons_zero, Option.some.injEq] at ho hn
        subst ho; subst hn
        by_cases hc : (os.isEmpty || ns.isEmpty) = true <;> simp [hc]
      | succ k =>
        simp only [List.getElem?_cons_succ] at ho hn
        have hos : os.isEmpty = false := by
          cases os with
          | nil => simp at ho
          | cons _ _ => rfl
        have hns : ns.isEmpty = false := by
          cases ns with
          | nil => simp at hn
          | cons _ _ => rfl
        simp only [hos, hns, Bool.or_self, Bool.false_eq_true, if_false,
          List.getElem?_cons_succ]
        exact ih ns k o n ho hn

theorem init_nodes_length (F : fields) (op : List polarization) :
    ∀ np : List polarization,
      (F.initialize_polarizations_nodes op np).1.length = op.length ∧
      (F.initialize_polarizations_nodes op np).2.length = np.length := by
  induction op with
  | nil => intro np; simp [fields.initialize_polarizations_nodes]
  | cons o os ih =>
    intro np
    cases np with
    | nil => simp [fields.initialize_polarizations_nodes]
    | cons n ns =>
      rw [fields.initialize_polarizations_nodes]
      by_cases hc : (os.isEmpty || ns.isEmpty) = true
      · simp [hc]
      · simp [hc, ih]

/-- The seeding visits the nodes in lockstep: where both chains have a k-th node, the k-th
nodes of the results are the seeded k-th nodes. -/
theorem init_nodes_getElem (F : fields) (op : List polarization) :
    ∀ (np : List polarization) (k : Nat) (o n : polarization),
      op[k]? = some o → np[k]? = some n →
      (F.initialize_polarizations_nodes op np).1[k]? = some (F.seed_node o n).1 ∧
      (F.initialize_polarizations_nodes op np).2[k]? = some (F.seed_node o n).2 := by
  induction op with
  | nil => intro np k o n ho; simp at ho
  | cons o0 os ih =>
    intro np k o n ho hn
    cases np with
    | nil => simp at hn
    | cons n0 ns =>
      rw [fields.initialize_polarizations_nodes]
      cases k with
      | zero =>
        simp only [List.getElem?_cons_zero, Option.some.injEq] at ho hn
        subst ho; subst hn
        by_cases hc : (os.isEmpty || ns.isEmpty) = true <;> simp [hc]
      | succ k =>
        simp only [List.getElem?_cons_succ] at ho hn
        have hos : os.isEmpty = false := by
          cases os with
          | nil => simp at ho
          | cons _ _ => rfl
        have hns : ns.isEmpty = false := by
          cases ns with
          | nil => simp at hn
          | cons _ _ => rfl
        simp only [hos, hns, Bool.or_self, Bool.false_eq_true, if_false,
          List.getElem?_cons_succ]
        exact ih ns k o n ho hn

/-- The sentinel call of `step_polarization_itself` on a container with both chains non-null
returns, with the chains exchanged. -/
theorem step_sentinel_eq (F : fields) (ho : F.olpol.isEmpty = false)
    (hp : F.pol.isEmpty = false) :
    F.step_polarization_itself [] [] =
      some ({ F with olpol := F.pol,
                     pol := F.step_polarization_itself_nodes F.olpol F.pol }, [], []) := by
  simp [fields.step_polarization_itself, ho, hp]

/-- The sentinel call of `initialize_polarizations` on a container with both chains non-null
returns, with both chains seeded. -/
theorem init_sentinel_eq (F : fields) (ho : F.olpol.isEmpty = false)
    (hp : F.pol.isEmpty = false) :
    F.initialize_polarizations [] [] =
      some ({ F with olpol := (F.initialize_polarizations_nodes F.olpol F.pol).1,
                     pol := (F.initialize_polarizations_nodes F.olpol F.pol).2 }, [], []) := by
  simp [fields.initialize_polarizations, ho, hp]

theorem isEmpty_false_of_length {α : Type} (l : List α) (N : Nat) (hN : 0 < N)
    (h : l.length = N) : l.isEmpty = false := by
  cases l with
  | nil => simp at h; omega
  | cons _ _ => rfl

theorem same_object_refl (o : polarization) : o.same_object o :=
  ⟨rfl, fun _ _ => ⟨⟨rfl, rfl, rfl⟩, ⟨rfl, rfl, rfl⟩⟩⟩

theorem advance_node_same_object (F : fields) (o n : polarization) :
    (F.advance_node o n).same_object o := by
  rw [advance_node_eq]
  refine ⟨rfl, fun c cmp => ?_⟩
  by_cases h : c < 10 ∧ cmp < 2 ∧ F.v.electric c = true
  · simp only [h, and_self, if_true]
    have h1 := advance_loop_frame F.v.ntot o.pb.gamma o.pb.omeganot (1 / (1 + 0.5 * o.pb.gamma))
      (n.P c cmp) (n.pb.s c) (F.f c cmp) (o.P c cmp)
    have h2 := advance_loop_frame F.v.ntot o.pb.gamma o.pb.omeganot (1 / (1 + 0.5 * o.pb.gamma))
      (n.P_pml c cmp) (n.pb.s c) (F.f_pml c cmp) (o.P_pml c cmp)
    exact ⟨⟨h1.2.1, h1.1, h1.2.2⟩, ⟨h2.2.1, h2.1, h2.2.2⟩⟩
  · simp [h]

/-- What the advance leaves in an allocated node: at every point of every block the loops
visit, the value of the update formula over the contents before the call. -/
theorem advance_node_rd (F : fields) (o n : polarization) (ho : o.allocated F.v)
    (c : Nat) (hc : c < 10) (he : F.v.electric c = true) (cmp : Nat) (hcmp : cmp < 2)
    (i : Nat) (hi : i < F.v.ntot) :
    rd ((F.advance_node o n).P c cmp) i =
      1 / (1 + 0.5 * o.pb.gamma) *
        ((2 - o.pb.omeganot * o.pb.omeganot) * rd (n.P c cmp) i
          + (0.5 * o.pb.gamma - 1) * rd (o.P c cmp) i)
        + rd (n.pb.s c) i * (F.f c cmp).getD i 0 ∧
    rd ((F.advance_node o n).P_pml c cmp) i =
      1 / (1 + 0.5 * o.pb.gamma) *
        ((2 - o.pb.omeganot * o.pb.omeganot) * rd (n.P_pml c cmp) i
          + (0.5 * o.pb.gamma - 1) * rd (o.P_pml c cmp) i)
        + rd (n.pb.s c) i * (F.f_pml c cmp).getD i 0 := by
  have hal := ho c hc he cmp hcmp
  rw [advance_node_eq]
  simp only [hc, hcmp, he, and_self, if_true]
  rw [advance_loop_rd, advance_loop_rd]
  have h1 : i < blen (o.P c cmp) := by rw [hal.1.2]; exact hi
  have h2 : i < blen (o.P_pml c cmp) := by rw [hal.2.2]; exact hi
  simp [hi, h1, h2]

/-- A node that is the same object as an allocated node is allocated. -/
theorem allocated_of_same_object (v : volume) (o1 o : polarization) (h : o1.same_object o)
    (ho : o.allocated v) : o1.allocated v := by
  intro c hc he cmp hcmp
  have h1 := h.2 c cmp
  have h2 := ho c hc he cmp hcmp
  exact ⟨⟨by rw [h1.1.2.2]; exact h2.1.1, by rw [h1.1.2.1]; exact h2.1.2⟩,
    ⟨by rw [h1.2.2.2]; exact h2.2.1, by rw [h1.2.2.1]; exact h2.2.2⟩⟩

theorem seed_node_same_object (F : fields) (o n : polarization) :
    (F.seed_node o n).1.same_object o ∧ (F.seed_node o n).2.same_object n := by
  rw [seed_node_eq]
  constructor
  · refine ⟨rfl, fun c cmp => ?_⟩
    by_cases h : c < 10 ∧ cmp < 2 ∧ F.v.electric c = true
    · have hfr := (seed_loop_frame F.v.ntot (F.f c cmp) (o.P c cmp, n.P c cmp)).1
      simp [h, hfr]
    · simp [h]
  · refine ⟨rfl, fun c cmp => ?_⟩
    by_cases h : c < 10 ∧ cmp < 2 ∧ F.v.electric c = true
    · have hfr := (seed_loop_frame F.v.ntot (F.f c cmp) (o.P c cmp, n.P c cmp)).2
      simp [h, hfr]
    · simp [h]

/-! ## The sentinel advance and the sentinel seeding -/

/-- C2: on a container whose old and new chains are non-null and of equal length N (and whose
old chain has its blocks allocated), the sentinel call `step_polarization_itself(NULL, NULL)`
returns, and for every term k < N, every present electric component c, each part cmp and
every grid point i, the block that was `P[c][cmp]` of the k-th old node before the call (it
keeps its address, and is the k-th node of the new chain after the call) holds
`funinv*((2 - om^2)*new.P[c][cmp][i] + (0.5*g - 1)*old.P[c][cmp][i]) + s[c][i]*f[c][cmp][i]`
computed from the values before the call, with `funinv = 1/(1 + 0.5*g)`, `g` and `om` read
through `op->pb` and `s` through `np->pb`; likewise `P_pml` with `f_pml`. -/
theorem C2_advance_formula (F : fields) (N : Nat) (hN : 0 < N)
    (hol : F.olpol.length = N) (hpl : F.pol.length = N)
    (hw : ∀ o ∈ F.olpol, o.allocated F.v) :
    ∃ F1, F.step_polarization_itself [] [] = some (F1, [], []) ∧
      ∀ (k : Nat) (o n : polarization), F.olpol[k]? = some o → F.pol[k]? = some n →
        ∃ o1 : polarization, F1.pol[k]? = some o1 ∧
          ∀ c, c < 10 → F.v.electric c = true → ∀ cmp, cmp < 2 →
            ptr_addr (o1.P c cmp) = ptr_addr (o.P c cmp) ∧
            ptr_addr (o1.P_pml c cmp) = ptr_addr (o.P_pml c cmp) ∧
            ∀ i, i < F.v.ntot →
              rd (o1.P c cmp) i =
                1 / (1 + 0.5 * o.pb.gamma) *
                  ((2 - o.pb.omeganot * o.pb.omeganot) * rd (n.P c cmp) i
                    + (0.5 * o.pb.gamma - 1) * rd (o.P c cmp) i)
                  + rd (n.pb.s c) i * (F.f c cmp).getD i 0 ∧
              rd (o1.P_pml c cmp) i =
                1 / (1 + 0.5 * o.pb.gamma) *
                  ((2 - o.pb.omeganot * o.pb.omeganot) * rd (n.P_pml c cmp) i
                    + (0.5 * o.pb.gamma - 1) * rd (o.P_pml c cmp) i)
                  + rd (n.pb.s c) i * (F.f_pml c cmp).getD i 0 := by
  have ho := isEmpty_false_of_length F.olpol N hN hol
  have hp := isEmpty_false_of_length F.pol N hN hpl
  refine ⟨_, step_sentinel_eq F ho hp, ?_⟩
  intro k o n hko hkn
  refine ⟨F.advance_node o n, step_nodes_getElem F F.olpol F.pol k o n hko hkn, ?_⟩
  intro c hc he cmp hcmp
  have hmem : o ∈ F.olpol := List.getElem?_mem hko
  have hobj := (advance_node_same_object F o n).2 c cmp
  exact ⟨hobj.1.1, hobj.2.1, fun i hi => advance_node_rd F o n (hw o hmem) c hc he cmp hcmp i hi⟩

theorem C2_advance_formula_witness :
    (0 < 1 ∧ line_fields.olpol.length = 1 ∧ line_fields.pol.length = 1 ∧
      ∀ o ∈ line_fields.olpol, o.allocated line_fields.v) ∧
    ∃ F1, line_fields.step_polarization_itself [] [] = some (F1, [], []) ∧
      ∀ (k : Nat) (o n : polarization),
        line_fields.olpol[k]? = some o → line_fields.pol[k]? = some n →
        ∃ o1 : polarization, F1.pol[k]? = some o1 ∧
          ∀ c, c < 10 → line_fields.v.electric c = true → ∀ cmp, cmp < 2 →
            ptr_addr (o1.P c cmp) = ptr_addr (o.P c cmp) ∧
            ptr_addr (o1.P_pml c cmp) = ptr_addr (o.P_pml c cmp) ∧
            ∀ i, i < line_fields.v.ntot →
              rd (o1.P c cmp) i =
                1 / (1 + 0.5 * o.pb.gamma) *
                  ((2 - o.pb.omeganot * o.pb.omeganot) * rd (n.P c cmp) i
                    + (0.5 * o.pb.gamma - 1) * rd (o.P c cmp) i)
                  + rd (n.pb.s c) i * (line_fields.f c cmp).getD i 0 ∧
              rd (o1.P_pml c cmp) i =
                1 / (1 + 0.5 * o.pb.gamma) *
                  ((2 - o.pb.omeganot * o.pb.omeganot) * rd (n.P_pml c cmp) i
                    + (0.5 * o.pb.gamma - 1) * rd (o.P_pml c cmp) i)
                  + rd (n.pb.s c) i * (line_fields.f_pml c cmp).getD i 0 :=
  ⟨⟨by decide, by decide, by decide, by decide⟩,
   C2_advance_formula line_fields 1 (by decide) (by decide) (by decide) (by decide)⟩

/-- Every node of the chain the advance returns: the k-th node of `op`, advanced against the
k-th node of `np` when there is one, and as it was when `np` has ended. -/
theorem step_nodes_getElem_all (F : fields) (op : List polarization) :
    ∀ (np : List polarization) (k : Nat),
      (F.step_polarization_itself_nodes op np)[k]? =
        (op[k]?).map (fun o => match np[k]? with
          | some n => F.advance_node o n
          | none => o) := by
  induction op with
  | nil => intro np k; simp [fields.step_polarization_itself_nodes]
  | cons o0 os ih =>
    intro np k
    cases np with
    | nil => simp [fields.step_polarization_itself_nodes]
    | cons n0 ns =>
      rw [fields.step_polarization_itself_nodes]
      cases k with
      | zero => by_cases hc : (os.isEmpty || ns.isEmpty) = true <;> simp [hc]
      | succ k =>
        cases os with
        | nil => simp
        | cons o1 os1 =>
          cases ns with
          | nil => simp
          | cons n1 ns1 =>
            simp only [List.isEmpty_cons, Bool.or_self, Bool.false_eq_true, if_false,
              List.getElem?_cons_succ]
            exact ih (n1 :: ns1) k

/-- C3: on a container with both chains non-null, the sentinel call
`step_polarization_itself(NULL, NULL)` returns; afterwards the old chain is the new chain of
before the call, unchanged in every value; the new chain is the old chain of before the call
(node by node the same object, referring to the same term, its blocks at the same addresses),
holding what the advance wrote; and the field arrays `f` and `f_pml`, the grid, the material
and the terms the nodes refer to are unchanged. -/
theorem C3_advance_frame (F : fields) (ho : F.olpol ≠ []) (hp : F.pol ≠ []) :
    ∃ F1, F.step_polarization_itself [] [] = some (F1, [], []) ∧
      F1.olpol = F.pol ∧
      F1.pol = F.step_polarization_itself_nodes F.olpol F.pol ∧
      F1.pol.length = F.olpol.length ∧
      (∀ (k : Nat) (o : polarization), F.olpol[k]? = some o →
        ∃ o1 : polarization, F1.pol[k]? = some o1 ∧ o1.same_object o) ∧
      F1.f = F.f ∧ F1.f_pml = F.f_pml ∧ F1.v = F.v ∧ F1.ma = F.ma ∧
      F1.olpol.map polarization.pb = F.pol.map polarization.pb ∧
      F1.pol.map polarization.pb = F.olpol.map polarization.pb := by
  have ho1 : F.olpol.isEmpty = false := by
    cases h : F.olpol with
    | nil => exact absurd h ho
    | cons _ _ => rfl
  have hp1 : F.pol.isEmpty = false := by
    cases h : F.pol with
    | nil => exact absurd h hp
    | cons _ _ => rfl
  have hobj : ∀ (k : Nat) (o : polarization), F.olpol[k]? = some o →
      ∃ o1 : polarization, (F.step_polarization_itself_nodes F.olpol F.pol)[k]? = some o1 ∧
        o1.same_object o := by
    intro k o hko
    rw [step_nodes_getElem_all, hko]
    cases hn : F.pol[k]? with
    | none => exact ⟨o, by simp, same_object_refl o⟩
    | some n => exact ⟨F.advance_node o n, by simp, advance_node_same_object F o n⟩
  refine ⟨_, step_sentinel_eq F ho1 hp1, rfl, rfl, step_nodes_length F F.olpol F.pol, hobj,
    rfl, rfl, rfl, rfl, rfl, ?_⟩
  apply List.ext_getElem?
  intro k
  simp only [List.getElem?_map]
  cases hko : F.olpol[k]? with
  | none =>
    have : (F.step_polarization_itself_nodes F.olpol F.pol)[k]? = none := by
      rw [step_nodes_getElem_all, hko]; rfl
    rw [this]
  | some o =>
    obtain ⟨o1, h1, h2⟩ := hobj k o hko
    rw [h1]
    simp [h2.1]

theorem C3_advance_frame_witness :
    (line_fields.olpol ≠ [] ∧ line_fields.pol ≠ []) ∧
    ∃ F1, line_fields.step_polarization_itself [] [] = some (F1, [], []) ∧
      F1.olpol = line_fields.pol ∧
      F1.pol = line_fields.step_polarization_itself_nodes line_fields.olpol line_fields.pol ∧
      F1.pol.length = line_fields.olpol.length ∧
      (∀ (k : Nat) (o : polarization), line_fields.olpol[k]? = some o →
        ∃ o1 : polarization, F1.pol[k]? = some o1 ∧ o1.same_object o) ∧
      F1.f = line_fields.f ∧ F1.f_pml = line_fields.f_pml ∧ F1.v = line_fields.v ∧
      F1.ma = line_fields.ma ∧
      F1.olpol.map polarization.pb = line_fields.pol.map polarization.pb ∧
      F1.pol.map polarization.pb = line_fields.olpol.map polarization.pb :=
  ⟨⟨List.ne_nil_of_length_pos (by decide), List.ne_nil_of_length_pos (by decide)⟩,
   C3_advance_frame line_fields (List.ne_nil_of_length_pos (by decide))
     (List.ne_nil_of_length_pos (by decide))⟩

/-- What seeding leaves in a pair of allocated nodes: at every point of every block the
loops visit, the field value. -/
theorem seed_node_rd (F : fields) (o n : polarization) (ho : o.allocated F.v)
    (hn : n.allocated F.v) (c : Nat) (hc : c < 10) (he : F.v.electric c = true) (cmp : Nat)
    (hcmp : cmp < 2) (i : Nat) (hi : i < F.v.ntot) :
    rd ((F.seed_node o n).1.P c cmp) i = (F.f c cmp).getD i 0 ∧
    rd ((F.seed_node o n).2.P c cmp) i = (F.f c cmp).getD i 0 := by
  rw [seed_node_eq]
  simp only [hc, hcmp, he, and_self, if_true]
  rw [seed_loop_rd_fst, seed_loop_rd_snd]
  have h1 : i < blen (o.P c cmp) := by rw [(ho c hc he cmp hcmp).1.2]; exact hi
  have h2 : i < blen (n.P c cmp) := by rw [(hn c hc he cmp hcmp).1.2]; exact hi
  simp [hi, h1, h2]

/-- C10: on a container whose old and new chains are non-null and of equal length N (with
their blocks allocated), the sentinel call `initialize_polarizations(NULL, NULL)` returns,
leaves the field `f` as it was, and for every term k < N, every present electric component
c, each part cmp and every grid point i, both `old.P[c][cmp][i]` and `new.P[c][cmp][i]` of
term k equal the field value `f[c][cmp][i]`. -/
theorem C10_seeding (F : fields) (N : Nat) (hN : 0 < N)
    (hol : F.olpol.length = N) (hpl : F.pol.length = N)
    (hwo : ∀ o ∈ F.olpol, o.allocated F.v) (hwn : ∀ n ∈ F.pol, n.allocated F.v) :
    ∃ F1, F.initialize_polarizations [] [] = some (F1, [], []) ∧
      F1.f = F.f ∧ F1.olpol.length = N ∧ F1.pol.length = N ∧
      ∀ k, k < N → ∃ o1 n1 : polarization, F1.olpol[k]? = some o1 ∧ F1.pol[k]? = some n1 ∧
        ∀ c, c < 10 → F.v.electric c = true → ∀ cmp, cmp < 2 → ∀ i, i < F.v.ntot →
          rd (o1.P c cmp) i = (F1.f c cmp).getD i 0 ∧
          rd (n1.P c cmp) i = (F1.f c cmp).getD i 0 := by
  have ho := isEmpty_false_of_length F.olpol N hN hol
  have hp := isEmpty_false_of_length F.pol N hN hpl
  have hlen := init_nodes_length F F.olpol F.pol
  refine ⟨_, init_sentinel_eq F ho hp, rfl, by rw [← hol]; exact hlen.1,
    by rw [← hpl]; exact hlen.2, ?_⟩
  intro k hk
  have hk1 : k < F.olpol.length := by omega
  have hk2 : k < F.pol.length := by omega
  have hko : F.olpol[k]? = some F.olpol[k] := List.getElem?_eq_getElem hk1
  have hkn : F.pol[k]? = some F.pol[k] := List.getElem?_eq_getElem hk2
  have hget := init_nodes_getElem F F.olpol F.pol k _ _ hko hkn
  refine ⟨_, _, hget.1, hget.2, ?_⟩
  intro c hc he cmp hcmp i hi
  exact seed_node_rd F _ _ (hwo _ (List.getElem_mem hk1)) (hwn _ (List.getElem_mem hk2))
    c hc he cmp hcmp i hi

theorem C10_seeding_witness :
    (0 < 1 ∧ line_fields.olpol.length = 1 ∧ line_fields.pol.length = 1 ∧
      (∀ o ∈ line_fields.olpol, o.allocated line_fields.v) ∧
      (∀ n ∈ line_fields.pol, n.allocated line_fields.v)) ∧
    ∃ F1, line_fields.initialize_polarizations [] [] = some (F1, [], []) ∧
      F1.f = line_fields.f ∧ F1.olpol.length = 1 ∧ F1.pol.length = 1 ∧
      ∀ k, k < 1 → ∃ o1 n1 : polarization, F1.olpol[k]? = some o1 ∧ F1.pol[k]? = some n1 ∧
        ∀ c, c < 10 → line_fields.v.electric c = true → ∀ cmp, cmp < 2 →
          ∀ i, i < line_fields.v.ntot →
            rd (o1.P c cmp) i = (F1.f c cmp).getD i 0 ∧
            rd (n1.P c cmp) i = (F1.f c cmp).getD i 0 :=
  ⟨⟨by decide, by decide, by decide, by decide, by decide⟩,
   C10_seeding line_fields 1 (by decide) (by decide) (by decide) (by decide) (by decide)⟩

/-- C4 (as amended): in the end-to-end scenario, a single-term material with `omeganot = 1`,
`gamma = 0` and coupling `s[c][i] = 1` at every point, whose two buffers are seeded by
`initialize_polarizations` from a field that is `1` everywhere, one sentinel call of
`step_polarization_itself` returns and leaves the new oscillator amplitude `P = 1` at every
point (the update is `funinv*((2-1)*1 + (0-1)*1) + 1*1` with `funinv = 1`), the other buffer
still holding the seed `1`. -/
theorem C4_scenario_advance (F : fields) (o n : polarization) (t : polarizability)
    (hol : F.olpol = [o]) (hpl : F.pol = [n]) (hto : o.pb = t) (htn : n.pb = t)
    (hwo : o.allocated F.v) (hwn : n.allocated F.v)
    (hom : t.omeganot = 1) (hg : t.gamma = 0)
    (hs : ∀ c, c < 10 → F.v.electric c = true → ∀ i, i < F.v.ntot → rd (t.s c) i = 1)
    (hf : ∀ c, c < 10 → F.v.electric c = true → ∀ cmp, cmp < 2 → ∀ i, i < F.v.ntot →
      (F.f c cmp).getD i 0 = 1) :
    ∃ (F1 F2 : fields) (o2 n2 : polarization),
      F.initialize_polarizations [] [] = some (F1, [], []) ∧
      F1.step_polarization_itself [] [] = some (F2, [], []) ∧
      F2.olpol = [o2] ∧ F2.pol = [n2] ∧
      ∀ c, c < 10 → F.v.electric c = true → ∀ cmp, cmp < 2 → ∀ i, i < F.v.ntot →
        rd (n2.P c cmp) i = 1 ∧ rd (o2.P c cmp) i = 1 := by
  have hinit := init_sentinel_eq F (by rw [hol]; rfl) (by rw [hpl]; rfl)
  have h1 : F.initialize_polarizations_nodes F.olpol F.pol
      = ([(F.seed_node o n).1], [(F.seed_node o n).2]) := by
    rw [hol, hpl]; simp [fields.initialize_polarizations_nodes]
  rw [h1] at hinit
  have hstep := step_sentinel_eq
    { F with olpol := [(F.seed_node o n).1], pol := [(F.seed_node o n).2] } rfl rfl
  have hso := seed_node_same_object F o n
  have hnodes : fields.step_polarization_itself_nodes
      { F with olpol := [(F.seed_node o n).1], pol := [(F.seed_node o n).2] }
      [(F.seed_node o n).1] [(F.seed_node o n).2]
      = [fields.advance_node
          { F with olpol := [(F.seed_node o n).1], pol := [(F.seed_node o n).2] }
          (F.seed_node o n).1 (F.seed_node o n).2] := by
    simp [fields.step_polarization_itself_nodes]
  refine ⟨{ F with olpol := [(F.seed_node o n).1], pol := [(F.seed_node o n).2] },
    { F with olpol := [(F.seed_node o n).2],
             pol := [fields.advance_node
               { F with olpol := [(F.seed_node o n).1], pol := [(F.seed_node o n).2] }
               (F.seed_node o n).1 (F.seed_node o n).2] },
    (F.seed_node o n).2,
    fields.advance_node
      { F with olpol := [(F.seed_node o n).1], pol := [(F.seed_node o n).2] }
      (F.seed_node o n).1 (F.seed_node o n).2,
    hinit, ?_, rfl, rfl, ?_⟩
  · rw [hstep, hnodes]
  · intro c hc he cmp hcmp i hi
    have hseed := seed_node_rd F o n hwo hwn c hc he cmp hcmp i hi
    have hadv := (advance_node_rd
      { F with olpol := [(F.seed_node o n).1], pol := [(F.seed_node o n).2] }
      (F.seed_node o n).1 (F.seed_node o n).2
      (allocated_of_same_object F.v _ o hso.1 hwo) c hc he cmp hcmp i hi).1
    refine ⟨?_, by rw [hseed.2]; exact hf c hc he cmp hcmp i hi⟩
    rw [hadv, hso.1.1, hso.2.1, hto, htn, hom, hg, hseed.1, hseed.2, hf c hc he cmp hcmp i hi,
      hs c hc he i hi]
    norm_num

theorem C4_scenario_advance_witness :
    ∃ (F1 F2 : fields) (o2 n2 : polarization),
      line_fields.initialize_polarizations [] [] = some (F1, [], []) ∧
      F1.step_polarization_itself [] [] = some (F2, [], []) ∧
      F2.olpol = [o2] ∧ F2.pol = [n2] ∧
      ∀ c, c < 10 → line_fields.v.electric c = true → ∀ cmp, cmp < 2 →
        ∀ i, i < line_fields.v.ntot → rd (n2.P c cmp) i = 1 ∧ rd (o2.P c cmp) i = 1 :=
  C4_scenario_advance line_fields
    (line_fields.olpol.get ⟨0, by decide⟩) (line_fields.pol.get ⟨0, by decide⟩)
    line_term rfl rfl rfl rfl (by decide) (by decide) rfl rfl (by decide!) (by decide!)

/-- C4 (counterexample): on the one-term container `line_fields` (`omeganot = 1`,
`gamma = 0`, coupling `1`, field `1` and `inveps = 1` at both points), after the sentinel
seeding and one sentinel advance the new amplitude is `1`, not `2`, at both points; and the
sentinel reaction that follows leaves the field at `9`, not at `0` (its reads stay inside the
tables, so nothing depends on `past_zero`: `react_inside_tables`). -/
theorem C4_scenario_counterexample :
    ((line_fields.initialize_polarizations [] []).bind
        (fun r => r.1.step_polarization_itself [] [])).map
      (fun r => r.1.pol.map (fun n => (rd (n.P Ex 0) 0, rd (n.P Ex 0) 1))) = some [(1, 1)] ∧
    ((line_fields.initialize_polarizations [] []).bind
        (fun r => r.1.step_polarization_itself [] [])).map
      (fun r => r.1.pol.map (fun n => (rd (n.P Ex 0) 0, rd (n.P Ex 0) 1))) ≠ some [(2, 2)] ∧
    (((line_fields.initialize_polarizations [] []).bind
        (fun r => r.1.step_polarization_itself [] [])).bind
        (fun r => r.1.step_e_polarization past_zero [] [])).map
      (fun r => r.1.f Ex 0) = some [9, 9] := by
  decide!

/-! ## Repeated advances without coupling -/

theorem advance_node_holds (F : fields) (V : Nat → Nat → Nat → ℚ) (o n : polarization)
    (ho : o.holds F.v V) (hn : n.holds F.v V) : (F.advance_node o n).holds F.v V := by
  have hso := advance_node_same_object F o n
  refine ⟨allocated_of_same_object F.v _ o hso ho.1, by rw [hso.1]; exact ho.2.1, ?_⟩
  intro c hc he cmp hcmp i hi
  rw [(advance_node_rd F o n ho.1 c hc he cmp hcmp i hi).1, ho.2.1.1, ho.2.1.2.1,
    hn.2.1.2.2 c hc he i hi, ho.2.2 c hc he cmp hcmp i hi, hn.2.2 c hc he cmp hcmp i hi]
  ring

theorem step_nodes_holds (F : fields) (V : Nat → Nat → Nat → ℚ) (op np : List polarization)
    (ho : ∀ o ∈ op, o.holds F.v V) (hn : ∀ n ∈ np, n.holds F.v V) :
    ∀ x ∈ F.step_polarization_itself_nodes op np, x.holds F.v V := by
  intro x hx
  obtain ⟨k, hk⟩ := List.mem_iff_getElem?.mp hx
  rw [step_nodes_getElem_all] at hk
  cases hko : op[k]? with
  | none => rw [hko] at hk; simp at hk
  | some o =>
    rw [hko] at hk
    have hom : o ∈ op := List.getElem?_mem hko
    cases hkn : np[k]? with
    | none =>
      rw [hkn] at hk
      simp only [Option.map_some', Option.some.injEq] at hk
      rw [← hk]; exact ho o hom
    | some n =>
      rw [hkn] at hk
      simp only [Option.map_some', Option.some.injEq] at hk
      rw [← hk]; exact advance_node_holds F V o n (ho o hom) (hn n (List.getElem?_mem hkn))

theorem step_holds (v : volume) (V : Nat → Nat → Nat → ℚ) (N : Nat) (F : fields)
    (h : F.holds v V N) :
    ∃ F1, F.step_polarization_itself [] [] = some (F1, [], []) ∧ F1.holds v V N := by
  obtain ⟨hv, hN, hol, hpl, ho, hn⟩ := h
  subst hv
  have ho1 := isEmpty_false_of_length F.olpol N hN hol
  have hp1 := isEmpty_false_of_length F.pol N hN hpl
  refine ⟨_, step_sentinel_eq F ho1 hp1, rfl, hN, hpl, ?_, hn, ?_⟩
  · rw [← hol]; exact step_nodes_length F F.olpol F.pol
  · exact step_nodes_holds F V F.olpol F.pol ho hn

theorem advance_times_holds (v : volume) (V : Nat → Nat → Nat → ℚ) (N : Nat) (n : Nat) :
    ∀ F : fields, F.holds v V N → ∃ F2, F.advance_times n = some F2 ∧ F2.holds v V N := by
  induction n with
  | zero => intro F h; exact ⟨F, rfl, h⟩
  | succ n ih =>
    intro F h
    obtain ⟨F1, h1, h2⟩ := step_holds v V N F h
    obtain ⟨F2, h3, h4⟩ := ih F1 h2
    refine ⟨F2, ?_, h4⟩
    rw [fields.advance_times, h1]
    exact h3

/-- Seeding two chains of equal length whose nodes are allocated and refer to quiet terms
gives a container whose nodes all hold the field values. -/
theorem init_holds (F : fields) (N : Nat) (hN : 0 < N)
    (hol : F.olpol.length = N) (hpl : F.pol.length = N)
    (hwo : ∀ o ∈ F.olpol, o.allocated F.v ∧ o.pb.quiet F.v)
    (hwn : ∀ n ∈ F.pol, n.allocated F.v ∧ n.pb.quiet F.v) :
    ∃ F1, F.initialize_polarizations [] [] = some (F1, [], []) ∧
      F1.holds F.v (fun c cmp i => (F.f c cmp).getD i 0) N := by
  have ho := isEmpty_false_of_length F.olpol N hN hol
  have hp := isEmpty_false_of_length F.pol N hN hpl
  have hlen := init_nodes_length F F.olpol F.pol
  have key : ∀ (k : Nat) (x y : polarization),
      (F.initialize_polarizations_nodes F.olpol F.pol).1[k]? = some x →
      (F.initialize_polarizations_nodes F.olpol F.pol).2[k]? = some y →
      x.holds F.v (fun c cmp i => (F.f c cmp).getD i 0) ∧
      y.holds F.v (fun c cmp i => (F.f c cmp).getD i 0) := by
    intro k x y hx hy
    have hk1 : k < F.olpol.length := by
      have := (List.getElem?_eq_some.mp hx).1; omega
    have hk2 : k < F.pol.length := by omega
    have hget := init_nodes_getElem F F.olpol F.pol k _ _
      (List.getElem?_eq_getElem hk1) (List.getElem?_eq_getElem hk2)
    rw [hget.1] at hx; rw [hget.2] at hy
    simp only [Option.some.injEq] at hx hy
    have h1 := hwo _ (List.getElem_mem hk1)
    have h2 := hwn _ (List.getElem_mem hk2)
    have hso := seed_node_same_object F F.olpol[k] F.pol[k]
    rw [← hx, ← hy]
    refine ⟨⟨allocated_of_same_object F.v _ _ hso.1 h1.1, by rw [hso.1.1]; exact h1.2, ?_⟩,
      ⟨allocated_of_same_object F.v _ _ hso.2 h2.1, by rw [hso.2.1]; exact h2.2, ?_⟩⟩
    · intro c hc he cmp hcmp i hi
      exact (seed_node_rd F _ _ h1.1 h2.1 c hc he cmp hcmp i hi).1
    · intro c hc he cmp hcmp i hi
      exact (seed_node_rd F _ _ h1.1 h2.1 c hc he cmp hcmp i hi).2
  refine ⟨_, init_sentinel_eq F ho hp, rfl, hN, by rw [← hol]; exact hlen.1,
    by rw [← hpl]; exact hlen.2, ?_, ?_⟩
  · intro x hx
    obtain ⟨k, hk⟩ := List.mem_iff_getElem?.mp hx
    have hk1 : k < (F.initialize_polarizations_nodes F.olpol F.pol).2.length := by
      have := (List.getElem?_eq_some.mp hk).1
      change k < (F.initialize_polarizations_nodes F.olpol F.pol).1.length at this
      omega
    exact (key k x _ hk (List.getElem?_eq_getElem hk1)).1
  · intro y hy
    obtain ⟨k, hk⟩ := List.mem_iff_getElem?.mp hy
    have hk1 : k < (F.initialize_polarizations_nodes F.olpol F.pol).1.length := by
      have := (List.getElem?_eq_some.mp hk).1
      change k < (F.initialize_polarizations_nodes F.olpol F.pol).2.length at this
      omega
    exact (key k _ y (List.getElem?_eq_getElem hk1) hk).2

/-- C7: for chains of equal length N whose terms have coupling `s[c][i] = 0` everywhere,
`gamma = 0` and `omeganot = 0`, seeded by the sentinel `initialize_polarizations`, any number
n of consecutive sentinel calls of `step_polarization_itself` returns, and afterwards every
amplitude `P[c][cmp][i]` of every node of the old and of the new buffer equals the value it
was seeded with (the field value). -/
theorem C7_zero_coupling_stability (F : fields) (N : Nat) (hN : 0 < N)
    (hol : F.olpol.length = N) (hpl : F.pol.length = N)
    (hwo : ∀ o ∈ F.olpol, o.allocated F.v ∧ o.pb.quiet F.v)
    (hwn : ∀ n ∈ F.pol, n.allocated F.v ∧ n.pb.quiet F.v) (n : Nat) :
    ∃ F1 F2 : fields, F.initialize_polarizations [] [] = some (F1, [], []) ∧
      F1.advance_times n = some F2 ∧
      ∀ k, k < N → ∃ o1 n1 o2 n2 : polarization,
        F1.olpol[k]? = some o1 ∧ F1.pol[k]? = some n1 ∧
        F2.olpol[k]? = some o2 ∧ F2.pol[k]? = some n2 ∧
        ∀ c, c < 10 → F.v.electric c = true → ∀ cmp, cmp < 2 → ∀ i, i < F.v.ntot →
          rd (o2.P c cmp) i = rd (o1.P c cmp) i ∧ rd (n2.P c cmp) i = rd (n1.P c cmp) i ∧
          rd (o1.P c cmp) i = (F.f c cmp).getD i 0 ∧
          rd (n1.P c cmp) i = (F.f c cmp).getD i 0 := by
  obtain ⟨F1, h1, hF1⟩ := init_holds F N hN hol hpl hwo hwn
  obtain ⟨F2, h2, hF2⟩ := advance_times_holds F.v _ N n F1 hF1
  refine ⟨F1, F2, h1, h2, ?_⟩
  intro k hk
  have a1 : k < F1.olpol.length := by rw [hF1.2.2.1]; exact hk
  have a2 : k < F1.pol.length := by rw [hF1.2.2.2.1]; exact hk
  have a3 : k < F2.olpol.length := by rw [hF2.2.2.1]; exact hk
  have a4 : k < F2.pol.length := by rw [hF2.2.2.2.1]; exact hk
  refine ⟨F1.olpol[k], F1.pol[k], F2.olpol[k], F2.pol[k], List.getElem?_eq_getElem a1,
    List.getElem?_eq_getElem a2, List.getElem?_eq_getElem a3, List.getElem?_eq_getElem a4, ?_⟩
  intro c hc he cmp hcmp i hi
  have b1 := (hF1.2.2.2.2.1 _ (List.getElem_mem a1)).2.2 c hc he cmp hcmp i hi
  have b2 := (hF1.2.2.2.2.2 _ (List.getElem_mem a2)).2.2 c hc he cmp hcmp i hi
  have b3 := (hF2.2.2.2.2.1 _ (List.getElem_mem a3)).2.2 c hc he cmp hcmp i hi
  have b4 := (hF2.2.2.2.2.2 _ (List.getElem_mem a4)).2.2 c hc he cmp hcmp i hi
  exact ⟨by rw [b3, b1], by rw [b4, b2], b1, b2⟩

theorem C7_zero_coupling_stability_witness :
    (0 < 2 ∧ still_fields.olpol.length = 2 ∧ still_fields.pol.length = 2 ∧
      (∀ o ∈ still_fields.olpol, o.allocated still_fields.v ∧ o.pb.quiet still_fields.v) ∧
      (∀ n ∈ still_fields.pol, n.allocated still_fields.v ∧ n.pb.quiet still_fields.v)) ∧
    ∃ F1 F2 : fields, still_fields.initialize_polarizations [] [] = some (F1, [], []) ∧
      F1.advance_times 3 = some F2 ∧
      ∀ k, k < 2 → ∃ o1 n1 o2 n2 : polarization,
        F1.olpol[k]? = some o1 ∧ F1.pol[k]? = some n1 ∧
        F2.olpol[k]? = some o2 ∧ F2.pol[k]? = some n2 ∧
        ∀ c, c < 10 → still_fields.v.electric c = true → ∀ cmp, cmp < 2 →
          ∀ i, i < still_fields.v.ntot →
            rd (o2.P c cmp) i = rd (o1.P c cmp) i ∧ rd (n2.P c cmp) i = rd (n1.P c cmp) i ∧
            rd (o1.P c cmp) i = (still_fields.f c cmp).getD i 0 ∧
            rd (n1.P c cmp) i = (still_fields.f c cmp).getD i 0 :=
  ⟨⟨by decide, by decide, by decide, by decide!, by decide!⟩,
   C7_zero_coupling_stability still_fields 2 (by decide) (by decide) (by decide)
     (by decide!) (by decide!) 3⟩

/-! ## The reaction on the field -/

/-- C5 (the code at a failing input): on `line_fields`, whose buffers are fresh from the
constructor, every amplitude of the old and of the new buffer is `0`, the field is `1` and
`inveps` is `1` at both points, so the claimed result of the reaction is the field unchanged,
`1 - 1*(0 - 0) = 1`. The sentinel call `step_e_polarization(NULL, NULL)` returns with the
field at `-7`: it subtracted `inveps` times the distance of the two blocks, `8 - 0` and
`12 - 4` doubles, because `np->P[cc][i]-op->P[cc][i]` subtracts pointers. The split field
goes the same way, from `0` to `-8`. On this grid the reads stay inside the tables, so nothing
depends on `past_zero` (`react_inside_tables`). -/
theorem C5_reaction_subtracts_addresses :
    (∀ o ∈ line_fields.olpol, ∀ n ∈ line_fields.pol, ∀ c, c < 10 → ∀ cmp, cmp < 2 →
      ∀ i, i < 2 → rd (o.P c cmp) i = 0 ∧ rd (n.P c cmp) i = 0 ∧
        rd (o.P_pml c cmp) i = 0 ∧ rd (n.P_pml c cmp) i = 0) ∧
    line_fields.olpol.map (fun o => (ptr_addr (o.P Ex 0), ptr_addr (o.P Ex 1))) = [(0, 4)] ∧
    line_fields.pol.map (fun n => (ptr_addr (n.P Ex 0), ptr_addr (n.P Ex 1))) = [(8, 12)] ∧
    (line_fields.f Ex 0, line_fields.f Ex 1, line_fields.ma.inveps Ex) = ([1, 1], [1, 1], [1, 1]) ∧
    (line_fields.step_e_polarization past_zero [] []).map
      (fun r => (r.1.f Ex 0, r.1.f Ex 1, r.1.f_pml Ex 0, r.1.f_pml Ex 1))
      = some ([-7, -7], [-7, -7], [-8, -8], [-8, -8]) := by
  refine ⟨?_, ?_, ?_, ?_, ?_⟩ <;> decide!

/-- C6 (the code at a failing input): on the seeded container `line_fields_seeded` the old
and the new buffer hold equal amplitudes at every component, part and point (`1` where the
component is present), the field is `1` and `inveps` is `1`; the call
`step_e_polarization(olpol, pol)` returns with the field changed to `-7`. On this grid the
reads stay inside the tables, so nothing depends on `past_zero` (`react_inside_tables`). -/
theorem C6_reaction_changes_field :
    (∀ o ∈ line_fields_seeded.olpol, ∀ n ∈ line_fields_seeded.pol, ∀ c, c < 10 →
      ∀ cmp, cmp < 2 → ∀ i, i < 2 → rd (n.P c cmp) i = rd (o.P c cmp) i) ∧
    line_fields_seeded.olpol.map (fun o => (rd (o.P Ex 0) 0, rd (o.P Ex 0) 1)) = [(1, 1)] ∧
    (line_fields_seeded.f Ex 0, line_fields_seeded.f Ex 1) = ([1, 1], [1, 1]) ∧
    (line_fields_seeded.step_e_polarization past_zero line_fields_seeded.olpol
        line_fields_seeded.pol).map (fun r => (r.1.f Ex 0, r.1.f Ex 1))
      = some ([-7, -7], [-7, -7]) := by
  refine ⟨?_, ?_, ?_, ?_⟩ <;> decide!

/-! ## The profile-sampling constructor -/

/-- A loop whose round `i` adds the cells `A i` to the cells a property `G` speaks of adds,
in all, the cells of every round. -/
theorem forRange_accum {σ : Type} (G : (Nat → Prop) → σ → Prop)
    (hanti : ∀ (W W1 : Nat → Prop) (st : σ), (∀ x, W1 x → W x) → G W st → G W1 st)
    (A : Nat → Nat → Prop) (body : Nat → σ → σ) (n : Nat)
    (hbody : ∀ i (W : Nat → Prop) (st : σ), i < n → G W st →
      G (fun x => W x ∨ A i x) (body i st))
    (W0 : Nat → Prop) (s : σ) (h0 : G W0 s) :
    G (fun x => W0 x ∨ ∃ i, i < n ∧ A i x) (forRange n body s) := by
  induction n with
  | zero =>
    refine hanti W0 _ s ?_ h0
    intro x hx
    rcases hx with hx | ⟨i, hi, _⟩
    · exact hx
    · omega
  | succ n ih =>
    have h1 := ih (fun i W st hi hG => hbody i W st (by omega) hG)
    have h2 := hbody n _ _ (by omega) h1
    rw [forRange_succ]
    refine hanti _ _ _ ?_ h2
    intro x hx
    rcases hx with hx | ⟨i, hi, hA⟩
    · exact Or.inl (Or.inl hx)
    · by_cases hin : i = n
      · subst hin; exact Or.inr hA
      · exact Or.inl (Or.inr ⟨i, by omega, hA⟩)

/-- The same for a loop that starts at `lo`. -/
theorem forFrom_accum {σ : Type} (G : (Nat → Prop) → σ → Prop)
    (hanti : ∀ (W W1 : Nat → Prop) (st : σ), (∀ x, W1 x → W x) → G W st → G W1 st)
    (A : Nat → Nat → Prop) (body : Nat → σ → σ) (lo hi : Nat)
    (hbody : ∀ i (W : Nat → Prop) (st : σ), lo ≤ i → i < hi → G W st →
      G (fun x => W x ∨ A i x) (body i st))
    (W0 : Nat → Prop) (s : σ) (h0 : G W0 s) :
    G (fun x => W0 x ∨ ∃ i, lo ≤ i ∧ i < hi ∧ A i x) (forFrom lo hi body s) := by
  unfold forFrom
  have h := forRange_accum G hanti (fun j x => A (lo + j) x) (fun j st => body (lo + j) st)
    (hi - lo) (fun j W st hj hG => hbody (lo + j) W st (by omega) (by omega) hG) W0 s h0
  refine hanti _ _ _ ?_ h
  intro x hx
  rcases hx with hx | ⟨i, h1, h2, hA⟩
  · exact Or.inl hx
  · refine Or.inr ⟨i - lo, by omega, ?_⟩
    have : lo + (i - lo) = i := by omega
    show A (lo + (i - lo)) x
    rw [this]; exact hA

theorem cyl_good_anti (ntot : Nat) (x : ℚ) (W W1 : Nat → Prop) (s : Nat → Option dbuf)
    (h : ∀ i, W1 i → W i) (hg : cyl_good ntot x W s) : cyl_good ntot x W1 s :=
  ⟨hg.1, fun idx hi => hg.2 idx (h idx hi)⟩

/-- Writing `x` at an index inside the blocks into all three coupling arrays adds that cell. -/
theorem cyl_good_write (ntot : Nat) (x : ℚ) (W : Nat → Prop) (s : Nat → Option dbuf)
    (j : Nat) (hj : j < ntot) (hg : cyl_good ntot x W s) :
    cyl_good ntot x (fun idx => W idx ∨ idx = j) (swr (swr (swr s Er j x) Ep j x) Ez j x) := by
  obtain ⟨⟨h1, h2, h3⟩, hv⟩ := hg
  have e1 : swr (swr (swr s Er j x) Ep j x) Ez j x Er = wr (s Er) j x := by
    simp [swr, vset, Er, Ep, Ez]
  have e2 : swr (swr (swr s Er j x) Ep j x) Ez j x Ep = wr (s Ep) j x := by
    simp [swr, vset, Er, Ep, Ez]
  have e3 : swr (swr (swr s Er j x) Ep j x) Ez j x Ez = wr (s Ez) j x := by
    simp [swr, vset, Er, Ep, Ez]
  refine ⟨?_, ?_⟩
  · rw [e1, e2, e3, blen_wr, blen_wr, blen_wr]; exact ⟨h1, h2, h3⟩
  · intro idx hidx
    rw [e1, e2, e3, rd_wr, rd_wr, rd_wr, h1, h2, h3]
    by_cases hij : idx = j
    · simp [hij, hj]
    · rcases hidx with hW | hW
      · simp [hij, hv idx hW]
      · exact absurd hW hij

theorem alloc_s_pos (v : volume) (c : Nat) (st : (Nat → Option dbuf) × heap)
    (he : v.electric c = true) :
    polarizability.alloc_s v c st =
      (vset st.1 c (some (new_double st.2 v.ntot).1), (new_double st.2 v.ntot).2) := by
  have he1 : (v.has_field c && is_electric c) = true := he
  simp [polarizability.alloc_s, he1]

theorem alloc_s_neg (v : volume) (c : Nat) (st : (Nat → Option dbuf) × heap)
    (he : v.electric c = false) :
    polarizability.alloc_s v c st = (vset st.1 c none, st.2) := by
  have he1 : (v.has_field c && is_electric c) = false := he
  simp [polarizability.alloc_s, he1]

/-- After the first `n` rounds of the allocation loop, `s[c]` for `c < n` is a block of
`ntot` doubles when the component is electric and present, and null else. -/
theorem alloc_s_loop (v : volume) (st0 : (Nat → Option dbuf) × heap) (n : Nat) :
    ∀ c, c < n →
      (v.electric c = true → ((forRange n (polarizability.alloc_s v) st0).1 c).isSome = true ∧
        blen ((forRange n (polarizability.alloc_s v) st0).1 c) = v.ntot) ∧
      (v.electric c = false → (forRange n (polarizability.alloc_s v) st0).1 c = none) := by
  induction n with
  | zero => intro c hc; omega
  | succ n ih =>
    intro c hc
    rw [forRange_succ]
    by_cases he : v.electric n = true
    · rw [alloc_s_pos v n _ he]
      by_cases hcn : c = n
      · subst hcn
        simp [vset, he, new_double, blen]
      · have := ih c (by omega)
        simpa [vset, hcn] using this
    · have he1 : v.electric n = false := by simpa using he
      rw [alloc_s_neg v n _ he1]
      by_cases hcn : c = n
      · subst hcn
        simp [vset, he1]
      · have := ih c (by omega)
        simpa [vset, hcn] using this

/-- A loop `for (i...) p[i] = g(i)` on a block is the same loop through the pointer to it. -/
theorem set_loop_some (g : Nat → ℚ) (b : dbuf) (n : Nat) :
    some (forRange n (fun i b => b.set i (g i)) b) =
      forRange n (fun i p => wr p i ((fun j (_ : ℚ) => g j) i (rd p i))) (some b) := by
  induction n with
  | zero => rfl
  | succ n ih => rw [forRange_succ, forRange_succ, ← ih]; rfl

/-- A loop `for (i...) p[i] = g(i)` on a block leaves `g(j)` in every cell `j` below the
bound and inside the block, and keeps the block where it is and as long as it is. -/
theorem set_loop_get (g : Nat → ℚ) (b : dbuf) (n : Nat) :
    (forRange n (fun i b => b.set i (g i)) b).addr = b.addr ∧
    (forRange n (fun i b => b.set i (g i)) b).val.length = b.val.length ∧
    ∀ j, j < n → j < b.val.length → (forRange n (fun i b => b.set i (g i)) b).get j = g j := by
  have h1 := pointwise_loop_frame (fun j (_ : ℚ) => g j) (some b) n
  rw [← set_loop_some] at h1
  refine ⟨h1.2.1, h1.1, ?_⟩
  intro j hjn hjl
  have h2 := pointwise_loop_rd (fun j (_ : ℚ) => g j) (some b) n j
  rw [← set_loop_some] at h2
  have hjl1 : j < blen (some b) := hjl
  simpa [rd, hjn, hjl1] using h2

theorem fill_sigma_get (v : volume) (sig : vec → ℚ) (sigscale : ℚ) (comp : Nat) (b : dbuf)
    (hb : b.val.length = v.ntot) (i : Nat) (hi : i < v.ntot) :
    (fill_sigma v sig sigscale comp b).get i = sigscale * sig (v.loc comp i) :=
  (set_loop_get (fun i => sigscale * sig (v.loc comp i)) b v.ntot).2.2 i hi (by rw [hb]; exact hi)

theorem new_double_length (h : heap) (n : Nat) : (new_double h n).1.val.length = n := by
  simp [new_double]

/-- One round of the interior loop, when `sigma` holds `x` everywhere: the cell
`z + r*(nz+1)` of the three arrays gets the value `x`. -/
theorem cyl_interior_body (v : volume) (sigma : dbuf) (x : ℚ)
    (hsig : ∀ i, i < v.ntot → sigma.get i = x) (hn : v.nr * (v.nz + 1) ≤ v.ntot)
    (r z : Nat) (hr1 : 1 ≤ r) (hr : r < v.nr) (hz1 : 1 ≤ z) (hz : z < v.nz + 1)
    (W : Nat → Prop) (s : Nat → Option dbuf) (hg : cyl_good v.ntot x W s) :
    cyl_good v.ntot x (fun idx => W idx ∨ idx = z + r * (v.nz + 1))
      (swr (swr (swr s Er (z + r * (v.nz + 1))
          (0.5 * (sigma.get (z + r * (v.nz + 1)) + sigma.get (z + r * (v.nz + 1) - 1))))
        Ep (z + r * (v.nz + 1))
          (0.25 * (sigma.get (z + r * (v.nz + 1)) + sigma.get (z + r * (v.nz + 1) - 1) +
            sigma.get (z + (r - 1) * (v.nz + 1)) + sigma.get (z + (r - 1) * (v.nz + 1) - 1))))
        Ez (z + r * (v.nz + 1))
          (0.5 * (sigma.get (z + r * (v.nz + 1)) + sigma.get (z + (r - 1) * (v.nz + 1))))) := by
  have hrow : (r + 1) * (v.nz + 1) ≤ v.nr * (v.nz + 1) := Nat.mul_le_mul_right _ hr
  have hprev : (r - 1) * (v.nz + 1) ≤ r * (v.nz + 1) := Nat.mul_le_mul_right _ (by omega)
  have hexp : (r + 1) * (v.nz + 1) = r * (v.nz + 1) + (v.nz + 1) := by ring
  have b1 : z + r * (v.nz + 1) < v.ntot := by omega
  have b2 : z + r * (v.nz + 1) - 1 < v.ntot := by omega
  have b3 : z + (r - 1) * (v.nz + 1) < v.ntot := by omega
  have b4 : z + (r - 1) * (v.nz + 1) - 1 < v.ntot := by omega
  rw [hsig _ b1, hsig _ b2, hsig _ b3, hsig _ b4]
  have e1 : (0.5 : ℚ) * (x + x) = x := by norm_num; ring
  have e2 : (0.25 : ℚ) * (x + x + x + x) = x := by norm_num; ring
  rw [e1, e2]
  exact cyl_good_write v.ntot x W s _ b1 hg

/-- The assignments of a boundary round, when the profile is the constant `k`: the cell
`idx` of the three arrays gets the value `sigscale * k`. -/
theorem cyl_edge_good (ntot : Nat) (k sigscale : ℚ) (dr dz here : vec) (idx : Nat)
    (hidx : idx < ntot) (W : Nat → Prop) (s : Nat → Option dbuf)
    (hg : cyl_good ntot (sigscale * k) W s) :
    cyl_good ntot (sigscale * k) (fun i => W i ∨ i = idx)
      (cyl_edge (fun _ => k) sigscale dr dz here idx s) := by
  unfold cyl_edge
  have e1 : (0.5 : ℚ) * sigscale * (k + k) = sigscale * k := by norm_num; ring
  have e2 : (0.25 : ℚ) * sigscale * (k + k + k + k) = sigscale * k := by norm_num; ring
  simp only [e1, e2]
  exact cyl_good_write ntot (sigscale * k) W s idx hidx hg

/-- The interior loop, when `sigma` holds `x` everywhere, leaves `x` in every cell
`z + r*(nz+1)` with `1 <= r < nr` and `1 <= z <= nz`. -/
theorem cyl_interior_good (v : volume) (sigma : dbuf) (x : ℚ)
    (hsig : ∀ i, i < v.ntot → sigma.get i = x) (hn : v.nr * (v.nz + 1) ≤ v.ntot)
    (W0 : Nat → Prop) (s : Nat → Option dbuf) (hg : cyl_good v.ntot x W0 s) :
    cyl_good v.ntot x
      (fun idx => W0 idx ∨ ∃ r, 1 ≤ r ∧ r < v.nr ∧
        ∃ z, 1 ≤ z ∧ z < v.nz + 1 ∧ idx = z + r * (v.nz + 1))
      (cyl_interior v sigma s) := by
  unfold cyl_interior
  exact forFrom_accum (cyl_good v.ntot x) (cyl_good_anti v.ntot x)
    (fun r idx => ∃ z, 1 ≤ z ∧ z < v.nz + 1 ∧ idx = z + r * (v.nz + 1)) _ 1 v.nr
    (fun r W st hr1 hr hW =>
      forFrom_accum (cyl_good v.ntot x) (cyl_good_anti v.ntot x)
        (fun z idx => idx = z + r * (v.nz + 1)) _ 1 (v.nz + 1)
        (fun z W1 st1 hz1 hz hW1 =>
          cyl_interior_body v sigma x hsig hn r z hr1 hr hz1 hz W1 st1 hW1)
        W st hW)
    W0 s hg

/-- The loop over the column `z = 0`, when the profile is the constant `k`, leaves
`sigscale * k` in every cell `r*(nz+1)` with `r < nr`. -/
theorem cyl_column_good (v : volume) (k sigscale : ℚ) (dr dz : vec)
    (hn : v.nr * (v.nz + 1) ≤ v.ntot)
    (W0 : Nat → Prop) (s : Nat → Option dbuf) (hg : cyl_good v.ntot (sigscale * k) W0 s) :
    cyl_good v.ntot (sigscale * k)
      (fun idx => W0 idx ∨ ∃ r, r < v.nr ∧ idx = r * (v.nz + 1))
      (cyl_column v (fun _ => k) sigscale dr dz s) := by
  unfold cyl_column
  refine forRange_accum (cyl_good v.ntot (sigscale * k)) (cyl_good_anti v.ntot (sigscale * k))
    (fun r idx => idx = r * (v.nz + 1)) _ v.nr ?_ W0 s hg
  intro r W st hr hW
  have hrow : (r + 1) * (v.nz + 1) ≤ v.nr * (v.nz + 1) := Nat.mul_le_mul_right _ hr
  have hexp : (r + 1) * (v.nz + 1) = r * (v.nz + 1) + (v.nz + 1) := by ring
  exact cyl_edge_good v.ntot k sigscale dr dz _ (r * (v.nz + 1)) (by omega) W st hW

/-- The loop over the row `r = 0`, when the profile is the constant `k` and the grid has a
row, leaves `sigscale * k` in every cell `z < nz`. -/
theorem cyl_row_good (v : volume) (k sigscale : ℚ) (dr dz : vec)
    (hn : v.nr * (v.nz + 1) ≤ v.ntot) (hnr : 1 ≤ v.nr)
    (W0 : Nat → Prop) (s : Nat → Option dbuf) (hg : cyl_good v.ntot (sigscale * k) W0 s) :
    cyl_good v.ntot (sigscale * k) (fun idx => W0 idx ∨ ∃ z, z < v.nz ∧ idx = z)
      (cyl_row v (fun _ => k) sigscale dr dz s) := by
  unfold cyl_row
  refine forRange_accum (cyl_good v.ntot (sigscale * k)) (cyl_good_anti v.ntot (sigscale * k))
    (fun z idx => idx = z) _ v.nz ?_ W0 s hg
  intro z W st hz hW
  have hrow : 1 * (v.nz + 1) ≤ v.nr * (v.nz + 1) := Nat.mul_le_mul_right _ hnr
  exact cyl_edge_good v.ntot k sigscale dr dz _ z (by omega) W st hW

/-- On a cylindrical grid the constructor returns: the term it builds. -/
theorem new_sampled_dcyl (h : heap) (ma : mat) (sig : vec → ℚ) (om ga sigscale : ℚ)
    (hdim : ma.v.dim = ndim.dcyl) :
    polarizability.new_sampled h ma sig om ga sigscale =
      Except.ok
        ({ omeganot := om, gamma := ga, v := ma.v,
           sigma := fill_sigma ma.v sig sigscale Hp
             (new_double (forRange 10 (polarizability.alloc_s ma.v) (fun _ => none, h)).2
               ma.v.ntot).1,
           s := cyl_row ma.v sig sigscale (ma.v.dr * (0.5 : ℚ)) (ma.v.dz * (0.5 : ℚ))
             (cyl_column ma.v sig sigscale (ma.v.dr * (0.5 : ℚ)) (ma.v.dz * (0.5 : ℚ))
               (cyl_interior ma.v
                 (fill_sigma ma.v sig sigscale Hp
                   (new_double (forRange 10 (polarizability.alloc_s ma.v) (fun _ => none, h)).2
                     ma.v.ntot).1)
                 (forRange 10 (polarizability.alloc_s ma.v) (fun _ => none, h)).1)) },
         (new_double (forRange 10 (polarizability.alloc_s ma.v) (fun _ => none, h)).2
           ma.v.ntot).2) := by
  simp [polarizability.new_sampled, hdim]

/-- On a grid that is not cylindrical the constructor exits with status 1. -/
theorem new_sampled_exits (h : heap) (ma : mat) (sig : vec → ℚ) (om ga sigscale : ℚ)
    (hdim : ma.v.dim ≠ ndim.dcyl) :
    polarizability.new_sampled h ma sig om ga sigscale = Except.error 1 := by
  unfold polarizability.new_sampled
  by_cases h1 : ma.v.dim = ndim.d1
  · simp [hdim, h1]
  · simp [hdim, h1]

/-- C8 (as amended): on a cylindrical grid that carries `Er`, `Ep` and `Ez` and has at least
`nr*(nz+1)` points, when the profile function returns the constant `k` everywhere the
profile-sampling constructor returns a term in which the entry of `s[Er]`, of `s[Ep]` and of
`s[Ez]` at every index `r*(nz+1) + z` with `0 <= r < nr` and `0 <= z <= nz`, other than the
index `nz` (`r = 0`, `z = nz`), equals `sigscale * k`. -/
theorem C8_constant_profile (h : heap) (ma : mat) (k om ga sigscale : ℚ)
    (hdim : ma.v.dim = ndim.dcyl) (hEr : ma.v.has_field Er = true)
    (hEp : ma.v.has_field Ep = true) (hEz : ma.v.has_field Ez = true)
    (hn : ma.v.nr * (ma.v.nz + 1) ≤ ma.v.ntot) :
    ∃ (pb : polarizability) (h1 : heap),
      polarizability.new_sampled h ma (fun _ => k) om ga sigscale = Except.ok (pb, h1) ∧
      ∀ r z, r < ma.v.nr → z ≤ ma.v.nz → ¬ (r = 0 ∧ z = ma.v.nz) →
        rd (pb.s Er) (r * (ma.v.nz + 1) + z) = sigscale * k ∧
        rd (pb.s Ep) (r * (ma.v.nz + 1) + z) = sigscale * k ∧
        rd (pb.s Ez) (r * (ma.v.nz + 1) + z) = sigscale * k := by
  refine ⟨_, _, new_sampled_dcyl h ma (fun _ => k) om ga sigscale hdim, ?_⟩
  intro r z hr hz hne
  have hnr : 1 ≤ ma.v.nr := by omega
  have hal := alloc_s_loop ma.v (fun _ => none, h) 10
  have g0 : cyl_good ma.v.ntot (sigscale * k) (fun _ => False)
      (forRange 10 (polarizability.alloc_s ma.v) (fun _ => none, h)).1 := by
    refine ⟨⟨?_, ?_, ?_⟩, fun idx hf => absurd hf id⟩
    · exact ((hal Er (by decide)).1 (by simp [volume.electric, hEr, is_electric])).2
    · exact ((hal Ep (by decide)).1 (by simp [volume.electric, hEp, is_electric])).2
    · exact ((hal Ez (by decide)).1 (by simp [volume.electric, hEz, is_electric])).2
  have hsig : ∀ i, i < ma.v.ntot →
      (fill_sigma ma.v (fun _ => k) sigscale Hp
        (new_double (forRange 10 (polarizability.alloc_s ma.v) (fun _ => none, h)).2
          ma.v.ntot).1).get i = sigscale * k :=
    fun i hi => fill_sigma_get ma.v (fun _ => k) sigscale Hp _ (new_double_length _ _) i hi
  have g1 := cyl_interior_good ma.v _ (sigscale * k) hsig hn _ _ g0
  have g2 := cyl_column_good ma.v k sigscale (ma.v.dr * (0.5 : ℚ)) (ma.v.dz * (0.5 : ℚ)) hn
    _ _ g1
  have g3 := cyl_row_good ma.v k sigscale (ma.v.dr * (0.5 : ℚ)) (ma.v.dz * (0.5 : ℚ)) hn hnr
    _ _ g2
  apply g3.2
  by_cases hz0 : z = 0
  · subst hz0
    exact Or.inl (Or.inr ⟨r, hr, by omega⟩)
  · by_cases hr0 : r = 0
    · subst hr0
      exact Or.inr ⟨z, by omega, by omega⟩
    · exact Or.inl (Or.inl (Or.inr ⟨r, by omega, hr, z, by omega, by omega, by omega⟩))

theorem C8_constant_profile_witness :
    ∃ (pb : polarizability) (h1 : heap),
      polarizability.new_sampled ⟨0, fun _ => 77⟩ cyl_mat (fun _ => 3) 1 0 2
        = Except.ok (pb, h1) ∧
      ∀ r z, r < cyl_mat.v.nr → z ≤ cyl_mat.v.nz → ¬ (r = 0 ∧ z = cyl_mat.v.nz) →
        rd (pb.s Er) (r * (cyl_mat.v.nz + 1) + z) = 2 * 3 ∧
        rd (pb.s Ep) (r * (cyl_mat.v.nz + 1) + z) = 2 * 3 ∧
        rd (pb.s Ez) (r * (cyl_mat.v.nz + 1) + z) = 2 * 3 :=
  C8_constant_profile ⟨0, fun _ => 77⟩ cyl_mat 3 1 0 2 rfl rfl rfl rfl (by decide)

/-- C8 (counterexample): on `cyl_volume` with the constant profile `k = 3`: with scale factor
`sigscale = 2` the entry `0` of `s[Er]`, `s[Ep]` and `s[Ez]` is `6`, not `3`; and with
`sigscale = 1` the entries at index `nz = 3` and at index `8 = nr*(nz+1)` are not `3` either:
no loop assigns them, they hold what the fresh block held (here `77`). -/
theorem C8_constant_profile_counterexample :
    (sampled_s (polarizability.new_sampled ⟨0, fun _ => 77⟩ cyl_mat (fun _ => 3) 1 0 2) Er 0
        = some 6 ∧
      sampled_s (polarizability.new_sampled ⟨0, fun _ => 77⟩ cyl_mat (fun _ => 3) 1 0 2) Ep 0
        = some 6 ∧
      sampled_s (polarizability.new_sampled ⟨0, fun _ => 77⟩ cyl_mat (fun _ => 3) 1 0 2) Ez 0
        = some 6) ∧
    (sampled_s (polarizability.new_sampled ⟨0, fun _ => 77⟩ cyl_mat (fun _ => 3) 1 0 1) Er 3
        = some 77 ∧
      sampled_s (polarizability.new_sampled ⟨0, fun _ => 77⟩ cyl_mat (fun _ => 3) 1 0 1) Er 8
        = some 77) ∧
    (6 : ℚ) ≠ 3 ∧ (77 : ℚ) ≠ 3 := by
  refine ⟨⟨?_, ?_, ?_⟩, ⟨?_, ?_⟩, ?_, ?_⟩ <;> decide!

/-- C9 (the code on a failing input): on every one-dimensional geometry (`dim = d1`) the
profile-sampling constructor exits with status 1 instead of returning a term: the second
chain of tests asks for `dcyl` twice, so `d1` falls through to `exit(1)`. -/
theorem C9_line_geometry_exits (h : heap) (ma : mat) (sig : vec → ℚ) (om ga sigscale : ℚ)
    (hdim : ma.v.dim = ndim.d1) :
    polarizability.new_sampled h ma sig om ga sigscale = Except.error 1 := by
  apply new_sampled_exits
  rw [hdim]
  decide

theorem C9_line_geometry_exits_witness :
    line_mat.v.dim = ndim.d1 ∧
    polarizability.new_sampled ⟨0, fun _ => 7⟩ line_mat (fun _ => 1) 1 0 1 = Except.error 1 :=
  ⟨rfl, C9_line_geometry_exits ⟨0, fun _ => 7⟩ line_mat (fun _ => 1) 1 0 1 rfl⟩

/-! ## Calls on a container without oscillators, and calls with explicit chains -/

/-- C19: when the container's old buffer or its new buffer is null, each of
`initialize_polarizations`, `step_polarization_itself` and `step_e_polarization`, called with
any pair of arguments (null or not), returns without dereferencing an argument and changes
nothing: the container (field arrays `f` and `f_pml`, both buffer pointers, grid, material)
and the chains the arguments point to are what they were. -/
theorem C19_null_buffer_noop (F : fields) (past : Nat → past_tables)
    (op np : List polarization) (h : F.olpol = [] ∨ F.pol = []) :
    F.initialize_polarizations op np = some (F, op, np) ∧
    F.step_polarization_itself op np = some (F, op, np) ∧
    F.step_e_polarization past op np = some (F, op, np) := by
  have hb : (!F.olpol.isEmpty && !F.pol.isEmpty) = false := by
    rcases h with h | h <;> simp [h]
  have hb1 : ∀ b : Bool, (b && !F.olpol.isEmpty && !F.pol.isEmpty) = false := by
    intro b
    rw [Bool.and_assoc, hb, Bool.and_false]
  have hc1 : ¬ (op.isEmpty && np.isEmpty && !F.olpol.isEmpty && !F.pol.isEmpty) = true := by
    rw [hb1]; exact Bool.false_ne_true
  have hc2 : ¬ (!F.olpol.isEmpty && !F.pol.isEmpty) = true := by
    rw [hb]; exact Bool.false_ne_true
  refine ⟨?_, ?_, ?_⟩
  · unfold fields.initialize_polarizations
    rw [if_neg hc1, if_neg hc2]
  · unfold fields.step_polarization_itself
    rw [if_neg hc1, if_neg hc2]
  · unfold fields.step_e_polarization
    rw [if_neg hc1, if_neg hc2]

theorem C19_null_buffer_noop_witness :
    (line_fields_no_old.olpol = [] ∨ line_fields_no_old.pol = []) ∧
    line_fields_no_old.initialize_polarizations line_fields.olpol line_fields.pol
      = some (line_fields_no_old, line_fields.olpol, line_fields.pol) ∧
    line_fields_no_old.step_polarization_itself line_fields.olpol line_fields.pol
      = some (line_fields_no_old, line_fields.olpol, line_fields.pol) ∧
    line_fields_no_old.step_e_polarization past_zero line_fields.olpol line_fields.pol
      = some (line_fields_no_old, line_fields.olpol, line_fields.pol) :=
  ⟨Or.inl rfl, C19_null_buffer_noop line_fields_no_old past_zero line_fields.olpol
    line_fields.pol (Or.inl rfl)⟩

/-- Every node of the two chains the seeding returns: the k-th nodes, seeded when both
chains have a k-th node, and as they were when the other chain has ended. -/
theorem init_nodes_getElem_all (F : fields) (op : List polarization) :
    ∀ (np : List polarization) (k : Nat),
      (F.initialize_polarizations_nodes op np).1[k]? =
        (op[k]?).map (fun o => match np[k]? with
          | some n => (F.seed_node o n).1
          | none => o) ∧
      (F.initialize_polarizations_nodes op np).2[k]? =
        (np[k]?).map (fun n => match op[k]? with
          | some o => (F.seed_node o n).2
          | none => n) := by
  induction op with
  | nil => intro np k; cases h : np[k]? <;> simp [fields.initialize_polarizations_nodes, h]
  | cons o0 os ih =>
    intro np k
    cases np with
    | nil => cases h : (o0 :: os)[k]? <;> simp [fields.initialize_polarizations_nodes, h]
    | cons n0 ns =>
      rw [fields.initialize_polarizations_nodes]
      cases k with
      | zero => by_cases hc : (os.isEmpty || ns.isEmpty) = true <;> simp [hc]
      | succ k =>
        cases os with
        | nil => cases h : ns[k]? <;> simp [h]
        | cons o1 os1 =>
          cases ns with
          | nil => simp
          | cons n1 ns1 =>
            simp only [List.isEmpty_cons, Bool.or_self, Bool.false_eq_true, if_false,
              List.getElem?_cons_succ]
            exact ih (n1 :: ns1) k

/-- Overwriting the double at the address of an element of a block changes that element. -/
theorem poke_self (b : dbuf) (i : Nat) (hi : i < b.val.length) (x : ℚ) :
    (poke (b.addr + (i : Int)) x b).get i = x := by
  have hc : b.addr ≤ b.addr + (i : Int) ∧ b.addr + (i : Int) < b.addr + (b.val.length : Int) := by
    constructor <;> omega
  have hidx : (b.addr + (i : Int) - b.addr).toNat = i := by
    have : b.addr + (i : Int) - b.addr = (i : Int) := by omega
    rw [this]; exact Int.toNat_ofNat i
  unfold poke
  rw [if_pos hc, hidx]
  simp [dbuf.get, dbuf.set, List.getD_eq_getElem?_getD, hi]

/-- Overwriting a double at an address at or above the end of a block leaves the block. -/
theorem poke_above (b : dbuf) (a : Int) (ha : b.addr + (b.val.length : Int) ≤ a) (x : ℚ) :
    poke a x b = b := by
  unfold poke
  rw [if_neg]
  intro hc
  omega

theorem poke_addr (a : Int) (x : ℚ) (b : dbuf) : (poke a x b).addr = b.addr := by
  unfold poke
  split <;> rfl

theorem poke_length (a : Int) (x : ℚ) (b : dbuf) :
    (poke a x b).val.length = b.val.length := by
  unfold poke
  split
  · simp [dbuf.set]
  · rfl

/-- A store outside a block leaves the block. -/
theorem poke_miss (a : Int) (x : ℚ) (b : dbuf)
    (h : a < b.addr ∨ b.addr + (b.val.length : Int) ≤ a) : poke a x b = b := by
  unfold poke
  rw [if_neg]
  omega

/-- A store at another address leaves the entry `i` of a block. -/
theorem poke_get_ne (a : Int) (x : ℚ) (b : dbuf) (i : Nat) (h : a ≠ b.addr + (i : Int)) :
    (poke a x b).get i = b.get i := by
  unfold poke
  split
  · rename_i hin
    have hne : (a - b.addr).toNat ≠ i := by omega
    simp [dbuf.get, dbuf.set, List.getD_eq_getElem?_getD, List.getElem?_set_ne hne]
  · rfl

theorem pokes_nil (b : dbuf) : pokes [] b = b := rfl

theorem pokes_cons (w : Int × ℚ) (ws : List (Int × ℚ)) (b : dbuf) :
    pokes (w :: ws) b = pokes ws (poke w.1 w.2 b) := rfl

theorem pokes_addr (ws : List (Int × ℚ)) : ∀ b : dbuf, (pokes ws b).addr = b.addr := by
  induction ws with
  | nil => intro b; rfl
  | cons w ws ih => intro b; rw [pokes_cons, ih, poke_addr]

theorem pokes_length (ws : List (Int × ℚ)) :
    ∀ b : dbuf, (pokes ws b).val.length = b.val.length := by
  induction ws with
  | nil => intro b; rfl
  | cons w ws ih => intro b; rw [pokes_cons, ih, poke_length]

/-- Stores that all fall outside a block leave the block. -/
theorem pokes_miss (ws : List (Int × ℚ)) :
    ∀ b : dbuf, (∀ w ∈ ws, w.1 < b.addr ∨ b.addr + (b.val.length : Int) ≤ w.1) →
      pokes ws b = b := by
  induction ws with
  | nil => intro b _; rfl
  | cons w ws ih =>
    intro b h
    rw [pokes_cons, poke_miss _ _ _ (h w (List.mem_cons_self _ _))]
    exact ih b (fun w1 h1 => h w1 (List.mem_cons_of_mem _ h1))

/-- When every store at the address of the entry `i` of a block stores `x`, and there is
one, the entry holds `x` after the stores. -/
theorem pokes_get (x : ℚ) (i : Nat) (ws : List (Int × ℚ)) :
    ∀ b : dbuf, i < b.val.length →
      (∀ w ∈ ws, w.1 = b.addr + (i : Int) → w.2 = x) →
      ((∃ w ∈ ws, w.1 = b.addr + (i : Int)) ∨ b.get i = x) →
      (pokes ws b).get i = x := by
  induction ws with
  | nil =>
    intro b _ _ h
    rcases h with ⟨w, hw, _⟩ | h
    · cases hw
    · exact h
  | cons w ws ih =>
    intro b hi hall hex
    rw [pokes_cons]
    have hi1 : i < (poke w.1 w.2 b).val.length := by rw [poke_length]; exact hi
    apply ih _ hi1
    · intro w1 h1 ha
      rw [poke_addr] at ha
      exact hall w1 (List.mem_cons_of_mem _ h1) ha
    · rw [poke_addr]
      by_cases hw : w.1 = b.addr + (i : Int)
      · right
        rw [hw, ← hall w (List.mem_cons_self _ _) hw]
        exact poke_self b i hi _
      · rcases hex with ⟨w1, h1, ha⟩ | h
        · rcases List.mem_cons.mp h1 with h2 | h2
          · exact absurd (h2 ▸ ha) hw
          · exact Or.inl ⟨w1, h2, ha⟩
        · right
          rw [poke_get_ne _ _ _ _ hw]
          exact h

theorem node_pokes_cons (w : Int × ℚ) (ws : List (Int × ℚ)) (o : polarization) :
    o.pokes (w :: ws) = (o.poke w.1 w.2).pokes ws := rfl

theorem reach_pokes_cons (w : Int × ℚ) (ws : List (Int × ℚ)) (S : reach) :
    S.pokes (w :: ws) = (S.poke w.1 w.2).pokes ws := rfl

theorem reach_pokes_append (ws vs : List (Int × ℚ)) (S : reach) :
    S.pokes (ws ++ vs) = (S.pokes ws).pokes vs := by
  unfold reach.pokes
  rw [List.foldl_append]

/-- The slots of a node after a list of stores: the blocks of the twenty slots after the
stores, and the term referred to. -/
theorem node_pokes_spec (ws : List (Int × ℚ)) :
    ∀ o : polarization, (o.pokes ws).pb = o.pb ∧ ∀ c cmp,
      (o.pokes ws).P c cmp =
        (if c < 10 ∧ cmp < 2 then (o.P c cmp).map (pokes ws) else o.P c cmp) ∧
      (o.pokes ws).P_pml c cmp =
        (if c < 10 ∧ cmp < 2 then (o.P_pml c cmp).map (pokes ws) else o.P_pml c cmp) := by
  induction ws with
  | nil =>
    intro o
    refine ⟨rfl, fun c cmp => ?_⟩
    have e1 : (o.pokes []).P c cmp = o.P c cmp := rfl
    have e2 : (o.pokes []).P_pml c cmp = o.P_pml c cmp := rfl
    rw [e1, e2]
    constructor
    · split
      · cases o.P c cmp <;> rfl
      · rfl
    · split
      · cases o.P_pml c cmp <;> rfl
      · rfl
  | cons w ws ih =>
    intro o
    rw [node_pokes_cons]
    obtain ⟨hpb, hs⟩ := ih (o.poke w.1 w.2)
    refine ⟨hpb, fun c cmp => ?_⟩
    rw [(hs c cmp).1, (hs c cmp).2]
    by_cases hc : c < 10 ∧ cmp < 2
    · simp only [polarization.poke, poke_slot, if_pos hc]
      constructor
      · cases o.P c cmp <;> rfl
      · cases o.P_pml c cmp <;> rfl
    · simp [polarization.poke, hc]

/-- The chains within reach after a list of stores: every node after the stores. -/
theorem reach_pokes_spec (ws : List (Int × ℚ)) :
    ∀ S : reach, (S.pokes ws).olpol = S.olpol.map (polarization.pokes ws) ∧
      (S.pokes ws).pol = S.pol.map (polarization.pokes ws) ∧
      (S.pokes ws).op = S.op.map (polarization.pokes ws) ∧
      (S.pokes ws).np = S.np.map (polarization.pokes ws) := by
  induction ws with
  | nil =>
    intro S
    have e : ∀ l : List polarization, l.map (polarization.pokes []) = l := by
      intro l
      have : polarization.pokes [] = id := rfl
      rw [this, List.map_id]
    rw [e, e, e, e]
    exact ⟨rfl, rfl, rfl, rfl⟩
  | cons w ws ih =>
    intro S
    rw [reach_pokes_cons]
    obtain ⟨h1, h2, h3, h4⟩ := ih (S.poke w.1 w.2)
    rw [h1, h2, h3, h4]
    refine ⟨?_, ?_, ?_, ?_⟩
    all_goals simp only [reach.poke, List.map_map]
    all_goals rfl

/-- A loop whose rounds are lists of stores is the list of the stores of its rounds. -/
theorem forRange_pokes (g : Nat → List (Int × ℚ)) (body : Nat → reach → reach)
    (h : ∀ i S, body i S = S.pokes (g i)) (n : Nat) (S : reach) :
    forRange n body S = S.pokes ((List.range n).flatMap g) := by
  induction n with
  | zero => rfl
  | succ n ih =>
    rw [forRange_succ, ih, h, List.range_succ, List.flatMap_append, reach_pokes_append]
    simp

theorem store_at_pokes (p : Option dbuf) (i : Nat) (x : ℚ) (S : reach) :
    store_at p i x S = S.pokes (store_cells p i x) := by
  unfold store_at store_cells
  cases p with
  | none => rfl
  | some b =>
    by_cases hi : i < b.val.length
    · simp only [if_pos hi]; rfl
    · simp only [if_neg hi]; rfl

/-- The `DOCMP` block on the store does the stores `seed_cells` lists. -/
theorem seed_node_store_eq (F : fields) (op np : polarization) (S : reach) :
    F.seed_node_store op np S = S.pokes (F.seed_cells op np) := by
  unfold fields.seed_node_store fields.seed_cells
  apply forRange_pokes
  intro cmp S1
  apply forRange_pokes
  intro c S2
  unfold fields.seed_slot_store
  by_cases hc : (F.v.has_field c && is_electric c) = true
  · rw [if_pos hc, if_pos hc]
    unfold seed_loop_store
    apply forRange_pokes
    intro i S3
    rw [store_at_pokes, store_at_pokes, reach_pokes_append]
  · rw [if_neg hc, if_neg hc]
    rfl

theorem init_store_nil_left (F : fields) (np : List polarization) (S : reach) :
    F.initialize_polarizations_store [] np S = S := by
  cases np <;> rfl

theorem init_store_nil_right (F : fields) (op : List polarization) (S : reach) :
    F.initialize_polarizations_store op [] S = S := by
  cases op <;> rfl

theorem init_store_cons (F : fields) (o n : polarization) (os ns : List polarization)
    (S : reach) :
    F.initialize_polarizations_store (o :: os) (n :: ns) S =
      if os.isEmpty || ns.isEmpty then F.seed_node_store o n S
      else F.initialize_polarizations_store os ns (F.seed_node_store o n S) := rfl

/-- The recursion on the store does the stores of the pairs of nodes it visits, one pair
after the other: the pairs of nodes of equal rank. -/
theorem init_store_eq (F : fields) (op : List polarization) :
    ∀ (np : List polarization) (S : reach),
      F.initialize_polarizations_store op np S =
        S.pokes ((op.zip np).flatMap (fun p => F.seed_cells p.1 p.2)) := by
  induction op with
  | nil => intro np S; rw [init_store_nil_left]; rfl
  | cons o os ih =>
    intro np S
    cases np with
    | nil => rw [init_store_nil_right]; rfl
    | cons n ns =>
      rw [init_store_cons, seed_node_store_eq]
      simp only [List.zip_cons_cons, List.flatMap_cons, reach_pokes_append]
      by_cases hc : (os.isEmpty || ns.isEmpty) = true
      · rw [if_pos hc]
        have hz : os.zip ns = [] := by
          cases os with
          | nil => rfl
          | cons _ _ =>
            cases ns with
            | nil => rfl
            | cons _ _ => simp at hc
        rw [hz]
        rfl
      · rw [if_neg hc]
        exact ih ns _

theorem seed_cells_mem (F : fields) (o n : polarization) (w : Int × ℚ)
    (h : w ∈ F.seed_cells o n) :
    ∃ (cmp c i : Nat) (b : dbuf), cmp < 2 ∧ c < 10 ∧ F.v.electric c = true ∧ i < F.v.ntot ∧
      (o.P c cmp = some b ∨ n.P c cmp = some b) ∧ i < b.val.length ∧
      w = (b.addr + (i : Int), (F.f c cmp).getD i 0) := by
  unfold fields.seed_cells at h
  rw [List.mem_flatMap] at h
  obtain ⟨cmp, hcmp, h⟩ := h
  rw [List.mem_flatMap] at h
  obtain ⟨c, hc, h⟩ := h
  by_cases he : (F.v.has_field c && is_electric c) = true
  · rw [if_pos he, List.mem_flatMap] at h
    obtain ⟨i, hi, h⟩ := h
    rw [List.mem_range] at hcmp hc hi
    rcases List.mem_append.mp h with h1 | h1
    · cases hp : o.P c cmp with
      | none => rw [hp] at h1; simp [store_cells] at h1
      | some b =>
        rw [hp] at h1
        by_cases hb : i < b.val.length
        · simp only [store_cells, if_pos hb, List.mem_singleton] at h1
          exact ⟨cmp, c, i, b, hcmp, hc, he, hi, Or.inl hp, hb, h1⟩
        · simp [store_cells, hb] at h1
    · cases hp : n.P c cmp with
      | none => rw [hp] at h1; simp [store_cells] at h1
      | some b =>
        rw [hp] at h1
        by_cases hb : i < b.val.length
        · simp only [store_cells, if_pos hb, List.mem_singleton] at h1
          exact ⟨cmp, c, i, b, hcmp, hc, he, hi, Or.inr hp, hb, h1⟩
        · simp [store_cells, hb] at h1
  · rw [if_neg he] at h
    cases h

theorem seed_cells_of (F : fields) (o n : polarization) (cmp c i : Nat) (b : dbuf)
    (hcmp : cmp < 2) (hc : c < 10) (he : F.v.electric c = true) (hi : i < F.v.ntot)
    (hp : o.P c cmp = some b ∨ n.P c cmp = some b) (hb : i < b.val.length) :
    (b.addr + (i : Int), (F.f c cmp).getD i 0) ∈ F.seed_cells o n := by
  unfold fields.seed_cells
  rw [List.mem_flatMap]
  refine ⟨cmp, List.mem_range.mpr hcmp, ?_⟩
  rw [List.mem_flatMap]
  refine ⟨c, List.mem_range.mpr hc, ?_⟩
  have he1 : (F.v.has_field c && is_electric c) = true := he
  rw [if_pos he1, List.mem_flatMap]
  refine ⟨i, List.mem_range.mpr hi, ?_⟩
  rw [List.mem_append]
  rcases hp with hp | hp
  · left; rw [hp]; simp [store_cells, hb]
  · right; rw [hp]; simp [store_cells, hb]

/-- Every store of the recursion is a store of a pair of nodes of equal rank. -/
theorem chain_cells_mem (F : fields) (op np : List polarization) (w : Int × ℚ)
    (h : w ∈ (op.zip np).flatMap (fun p => F.seed_cells p.1 p.2)) :
    ∃ (k : Nat) (o n : polarization), op[k]? = some o ∧ np[k]? = some n ∧
      w ∈ F.seed_cells o n := by
  rw [List.mem_flatMap] at h
  obtain ⟨p, hp, hw⟩ := h
  obtain ⟨k, hk⟩ := List.mem_iff_getElem?.mp hp
  rw [List.getElem?_zip_eq_some] at hk
  exact ⟨k, p.1, p.2, hk.1, hk.2, hw⟩

theorem chain_cells_of (F : fields) (op np : List polarization) (k : Nat)
    (o n : polarization) (ho : op[k]? = some o) (hn : np[k]? = some n) (w : Int × ℚ)
    (hw : w ∈ F.seed_cells o n) :
    w ∈ (op.zip np).flatMap (fun p => F.seed_cells p.1 p.2) := by
  rw [List.mem_flatMap]
  refine ⟨(o, n), ?_, hw⟩
  apply List.mem_iff_getElem?.mpr
  exact ⟨k, List.getElem?_zip_eq_some.mpr ⟨ho, hn⟩⟩

theorem mem_node_blocks (o : polarization) (b : dbuf) :
    b ∈ o.blocks ↔ ∃ c cmp, c < 10 ∧ cmp < 2 ∧ (o.P c cmp = some b ∨ o.P_pml c cmp = some b) := by
  unfold polarization.blocks
  simp only [List.mem_flatMap, List.mem_range, List.mem_append, Option.mem_toList,
    Option.mem_def]
  constructor
  · rintro ⟨c, hc, cmp, hcmp, h⟩
    exact ⟨c, cmp, hc, hcmp, h⟩
  · rintro ⟨c, cmp, hc, hcmp, h⟩
    exact ⟨c, hc, cmp, hcmp, h⟩

theorem dbuf_apart_symm (a b : dbuf) (h : a.apart b) : b.apart a := Or.symm h

/-- A double of a block lies outside every block apart from it. -/
theorem apart_miss (b d : dbuf) (h : b.apart d) (i : Nat) (hi : i < d.val.length) :
    d.addr + (i : Int) < b.addr ∨ b.addr + (b.val.length : Int) ≤ d.addr + (i : Int) := by
  unfold dbuf.apart at h
  omega

theorem node_apart_symm (o n : polarization) (h : o.apart n) : n.apart o :=
  fun d hd b hb => dbuf_apart_symm _ _ (h b hb d hd)

/-- Two nodes of different rank in a chain whose nodes lie apart one from another. -/
theorem pairwise_apart_get (l : List polarization) (h : l.Pairwise polarization.apart)
    (j k : Nat) (o n : polarization) (hj : l[j]? = some o) (hk : l[k]? = some n)
    (hne : j ≠ k) : o.apart n := by
  rw [List.pairwise_iff_getElem] at h
  obtain ⟨hj1, hj2⟩ := List.getElem?_eq_some.mp hj
  obtain ⟨hk1, hk2⟩ := List.getElem?_eq_some.mp hk
  rcases Nat.lt_or_gt_of_ne hne with hlt | hgt
  · have := h j k hj1 hk1 hlt
    rw [hj2, hk2] at this
    exact this
  · have := h k j hk1 hj1 hgt
    rw [hj2, hk2] at this
    exact node_apart_symm _ _ this

theorem polarization_ext (a b : polarization) (h1 : a.P = b.P) (h2 : a.P_pml = b.P_pml)
    (h3 : a.pb = b.pb) : a = b := by
  cases a; cases b; simp_all

/-- Stores that fall outside every block of a node leave the node. -/
theorem node_pokes_miss (ws : List (Int × ℚ)) (o : polarization)
    (h : ∀ w ∈ ws, ∀ b ∈ o.blocks, w.1 < b.addr ∨ b.addr + (b.val.length : Int) ≤ w.1) :
    o.pokes ws = o := by
  obtain ⟨hpb, hs⟩ := node_pokes_spec ws o
  apply polarization_ext _ _ _ _ hpb
  · funext c cmp
    rw [(hs c cmp).1]
    by_cases hc : c < 10 ∧ cmp < 2
    · rw [if_pos hc]
      cases hp : o.P c cmp with
      | none => rfl
      | some b =>
        have hb : b ∈ o.blocks := (mem_node_blocks o b).mpr ⟨c, cmp, hc.1, hc.2, Or.inl hp⟩
        simp only [Option.map_some']
        rw [pokes_miss ws b (fun w hw => h w hw b hb)]
    · rw [if_neg hc]
  · funext c cmp
    rw [(hs c cmp).2]
    by_cases hc : c < 10 ∧ cmp < 2
    · rw [if_pos hc]
      cases hp : o.P_pml c cmp with
      | none => rfl
      | some b =>
        have hb : b ∈ o.blocks := (mem_node_blocks o b).mpr ⟨c, cmp, hc.1, hc.2, Or.inr hp⟩
        simp only [Option.map_some']
        rw [pokes_miss ws b (fun w hw => h w hw b hb)]
    · rw [if_neg hc]

/-- A node after a list of stores is the same object: same term, same pointers. -/
theorem node_pokes_same_object (ws : List (Int × ℚ)) (o : polarization) :
    (o.pokes ws).same_object o := by
  obtain ⟨hpb, hs⟩ := node_pokes_spec ws o
  refine ⟨hpb, fun c cmp => ?_⟩
  rw [(hs c cmp).1, (hs c cmp).2]
  by_cases hc : c < 10 ∧ cmp < 2
  · rw [if_pos hc, if_pos hc]
    constructor
    · cases o.P c cmp with
      | none => exact ⟨rfl, rfl, rfl⟩
      | some b => exact ⟨pokes_addr ws b, pokes_length ws b, rfl⟩
    · cases o.P_pml c cmp with
      | none => exact ⟨rfl, rfl, rfl⟩
      | some b => exact ⟨pokes_addr ws b, pokes_length ws b, rfl⟩
  · rw [if_neg hc, if_neg hc]
    exact ⟨⟨rfl, rfl, rfl⟩, ⟨rfl, rfl, rfl⟩⟩

theorem stores_iff (F : fields) (op np : List polarization) (w : Int × ℚ) :
    w ∈ (op.zip np).flatMap (fun p => F.seed_cells p.1 p.2) ↔ F.stores op np w := by
  constructor
  · intro h
    obtain ⟨k, o, n, ho, hn, hw⟩ := chain_cells_mem F op np w h
    obtain ⟨cmp, c, i, b, h1, h2, h3, h4, h5, h6, h7⟩ := seed_cells_mem F o n w hw
    exact ⟨k, o, n, cmp, c, i, b, ho, hn, h1, h2, h3, h4, h5, h6, h7⟩
  · rintro ⟨k, o, n, cmp, c, i, b, ho, hn, h1, h2, h3, h4, h5, h6, h7⟩
    rw [h7]
    exact chain_cells_of F op np k o n ho hn _ (seed_cells_of F o n cmp c i b h1 h2 h3 h4 h5 h6)

theorem stores_symm (F : fields) (op np : List polarization) (w : Int × ℚ)
    (h : F.stores op np w) : F.stores np op w := by
  obtain ⟨k, o, n, cmp, c, i, b, ho, hn, h1, h2, h3, h4, h5, h6, h7⟩ := h
  exact ⟨k, n, o, cmp, c, i, b, hn, ho, h1, h2, h3, h4, h5.symm, h6, h7⟩

theorem chains_apart_symm (op np : List polarization) (h : chains_apart op np) :
    chains_apart np op :=
  ⟨h.2.1, h.1, fun n hn o ho => node_apart_symm _ _ (h.2.2.1 o ho n hn), h.2.2.2.2, h.2.2.2.1⟩

/-- A store of the call whose address falls inside the block `b` in a slot of `P` of a node
of `op`, when the chains share no memory: the loops visit the component of the slot and the
store goes to `b` itself, through its own slot. -/
theorem store_hits_own (F : fields) (op np : List polarization) (hsep : chains_apart op np)
    (k : Nat) (o : polarization) (ho : op[k]? = some o) (c cmp : Nat) (hc : c < 10)
    (hcmp : cmp < 2) (b : dbuf) (hb : o.P c cmp = some b) (w : Int × ℚ)
    (hw : F.stores op np w) (hin : b.addr ≤ w.1 ∧ w.1 < b.addr + (b.val.length : Int)) :
    F.v.electric c = true ∧
    ∃ i, i < F.v.ntot ∧ i < b.val.length ∧ w = (b.addr + (i : Int), (F.f c cmp).getD i 0) := by
  obtain ⟨k1, o1, n1, cmp1, c1, i1, d, ho1, hn1, h1, h2, h3, h4, h5, h6, h7⟩ := hw
  have hbo : b ∈ o.blocks := (mem_node_blocks o b).mpr ⟨c, cmp, hc, hcmp, Or.inl hb⟩
  have hw1 : w.1 = d.addr + (i1 : Int) := by rw [h7]
  have clash : ¬ b.apart d := by
    intro hap
    have := apart_miss b d hap i1 h6
    omega
  rcases h5 with h5 | h5
  · -- the store goes through a node of `op`
    have hdo : d ∈ o1.blocks := (mem_node_blocks o1 d).mpr ⟨c1, cmp1, h2, h1, Or.inl h5⟩
    by_cases hk : k = k1
    · subst hk
      rw [ho] at ho1
      simp only [Option.some.injEq] at ho1
      subst ho1
      by_cases hs : (c, cmp) = (c1, cmp1)
      · simp only [Prod.mk.injEq] at hs
        obtain ⟨hs1, hs2⟩ := hs
        subst hs1
        subst hs2
        rw [hb] at h5
        simp only [Option.some.injEq] at h5
        subst h5
        exact ⟨h3, i1, h4, h6, h7⟩
      · have hown := hsep.2.2.2.1 o (List.getElem?_mem ho) c hc cmp hcmp c1 h2 cmp1 h1 hs
        rw [hb, h5] at hown
        exact absurd hown clash
    · exact absurd (pairwise_apart_get op hsep.1 k k1 o o1 ho ho1 hk b hbo d hdo) clash
  · -- the store goes through a node of `np`
    have hdn : d ∈ n1.blocks := (mem_node_blocks n1 d).mpr ⟨c1, cmp1, h2, h1, Or.inl h5⟩
    exact absurd (hsep.2.2.1 o (List.getElem?_mem ho) n1 (List.getElem?_mem hn1) b hbo d hdn)
      clash

/-- After the stores, a node of `op` that has a node of equal rank in `np` holds the field
value in every double of the blocks the loops visit, when the chains share no memory. -/
theorem seeded_values (F : fields) (op np : List polarization) (ws : List (Int × ℚ))
    (hws : ∀ w, w ∈ ws ↔ F.stores op np w) (hsep : chains_apart op np)
    (k : Nat) (o n : polarization) (ho : op[k]? = some o) (hn : np[k]? = some n)
    (hal : o.allocated F.v) :
    ∀ c, c < 10 → F.v.electric c = true → ∀ cmp, cmp < 2 → ∀ i, i < F.v.ntot →
      rd ((o.pokes ws).P c cmp) i = (F.f c cmp).getD i 0 := by
  intro c hc he cmp hcmp i hi
  rw [((node_pokes_spec ws o).2 c cmp).1, if_pos ⟨hc, hcmp⟩]
  have ha := (hal c hc he cmp hcmp).1
  cases hb : o.P c cmp with
  | none => rw [hb] at ha; simp at ha
  | some b =>
    rw [hb] at ha
    have hlen : b.val.length = F.v.ntot := ha.2
    simp only [Option.map_some', rd]
    apply pokes_get
    · rw [hlen]; exact hi
    · intro w hw haddr
      obtain ⟨_, i1, _, _, h7⟩ := store_hits_own F op np hsep k o ho c cmp hc hcmp b hb w
        ((hws w).mp hw) (by rw [haddr]; omega)
      have hi1 : i1 = i := by
        have : w.1 = b.addr + (i1 : Int) := by rw [h7]
        omega
      rw [h7, hi1]
    · left
      refine ⟨(b.addr + (i : Int), (F.f c cmp).getD i 0), (hws _).mpr ?_, rfl⟩
      exact ⟨k, o, n, cmp, c, i, b, ho, hn, hcmp, hc, he, hi, Or.inl hb, by rw [hlen]; exact hi,
        rfl⟩

/-- After the stores, a node of `op` past the end of `np` is what it was, when the chains
share no memory. -/
theorem later_unchanged (F : fields) (op np : List polarization) (ws : List (Int × ℚ))
    (hws : ∀ w, w ∈ ws ↔ F.stores op np w) (hsep : chains_apart op np)
    (k : Nat) (o : polarization) (ho : op[k]? = some o) (hk : np.length ≤ k) :
    o.pokes ws = o := by
  apply node_pokes_miss
  intro w hw b hb
  obtain ⟨k1, o1, n1, cmp1, c1, i1, d, ho1, hn1, h1, h2, h3, h4, h5, h6, h7⟩ := (hws w).mp hw
  have hk1 : k1 < np.length := (List.getElem?_eq_some.mp hn1).1
  have hw1 : w.1 = d.addr + (i1 : Int) := by rw [h7]
  rw [hw1]
  apply apart_miss b d _ i1 h6
  rcases h5 with h5 | h5
  · have hdo : d ∈ o1.blocks := (mem_node_blocks o1 d).mpr ⟨c1, cmp1, h2, h1, Or.inl h5⟩
    exact pairwise_apart_get op hsep.1 k k1 o o1 ho ho1 (by omega) b hb d hdo
  · have hdn : d ∈ n1.blocks := (mem_node_blocks n1 d).mpr ⟨c1, cmp1, h2, h1, Or.inl h5⟩
    exact hsep.2.2.1 o (List.getElem?_mem ho) n1 (List.getElem?_mem hn1) b hb d hdn

/-- The call with explicit non-null chains on a container whose buffers are non-null: the
chains and the container as the store shows them after the stores of the recursion. -/
theorem init_explicit_eq (F : fields) (op np : List polarization)
    (hop : op ≠ []) (hnp : np ≠ []) (hol : F.olpol ≠ []) (hpl : F.pol ≠ []) :
    F.initialize_polarizations op np =
      some ({ F with
          olpol := F.olpol.map (polarization.pokes
            ((op.zip np).flatMap (fun p => F.seed_cells p.1 p.2))),
          pol := F.pol.map (polarization.pokes
            ((op.zip np).flatMap (fun p => F.seed_cells p.1 p.2))) },
        op.map (polarization.pokes ((op.zip np).flatMap (fun p => F.seed_cells p.1 p.2))),
        np.map (polarization.pokes ((op.zip np).flatMap (fun p => F.seed_cells p.1 p.2)))) := by
  have hs := reach_pokes_spec ((op.zip np).flatMap (fun p => F.seed_cells p.1 p.2))
    { olpol := F.olpol, pol := F.pol, op := op, np := np }
  cases op with
  | nil => exact absurd rfl hop
  | cons o os =>
    cases np with
    | nil => exact absurd rfl hnp
    | cons n ns =>
      cases h1 : F.olpol with
      | nil => exact absurd h1 hol
      | cons a as =>
        cases h2 : F.pol with
        | nil => exact absurd h2 hpl
        | cons b bs =>
          rw [h1, h2] at hs
          simp only [fields.initialize_polarizations, h1, h2, List.isEmpty_cons,
            Bool.false_and, Bool.not_false, Bool.and_self, Bool.false_eq_true, if_false,
            if_true, init_store_eq, hs.1, hs.2.1, hs.2.2.1, hs.2.2.2]

theorem isEmpty_false_of_ne_nil {α : Type} (l : List α) (h : l ≠ []) : l.isEmpty = false := by
  cases l with
  | nil => exact absurd rfl h
  | cons _ _ => rfl

/-- Two nullable pointers with the same address, length and contents are the same. -/
theorem slot_ext (p q : Option dbuf) (h1 : p.isSome = q.isSome)
    (h2 : ptr_addr p = ptr_addr q) (h3 : blen p = blen q)
    (h4 : ∀ i, i < blen p → rd p i = rd q i) : p = q := by
  cases p with
  | none =>
    cases q with
    | none => rfl
    | some b => simp at h1
  | some a =>
    cases q with
    | none => simp at h1
    | some b =>
      simp only [ptr_addr, blen, rd, dbuf.get] at h2 h3 h4
      cases a with
      | mk aa av =>
        cases b with
        | mk ba bv =>
          simp only at h2 h3 h4
          subst h2
          have hv : av = bv := by
            apply List.ext_getElem h3
            intro i hi1 hi2
            have := h4 i hi1
            rw [List.getD_eq_getElem _ _ hi1, List.getD_eq_getElem _ _ hi2] at this
            exact this
          rw [hv]

/-- A store of the call falls into no block of the table `P_pml` of a node of `op`, when the
chains share no memory and in that node `P` and `P_pml` share none. -/
theorem store_misses_pml (F : fields) (op np : List polarization) (hsep : chains_apart op np)
    (k : Nat) (o : polarization) (ho : op[k]? = some o) (hpml : o.own_pml) (c cmp : Nat)
    (hc : c < 10) (hcmp : cmp < 2) (b : dbuf) (hb : o.P_pml c cmp = some b) (w : Int × ℚ)
    (hw : F.stores op np w) : w.1 < b.addr ∨ b.addr + (b.val.length : Int) ≤ w.1 := by
  obtain ⟨k1, o1, n1, cmp1, c1, i1, d, ho1, hn1, h1, h2, h3, h4, h5, h6, h7⟩ := hw
  have hbo : b ∈ o.blocks := (mem_node_blocks o b).mpr ⟨c, cmp, hc, hcmp, Or.inr hb⟩
  have hw1 : w.1 = d.addr + (i1 : Int) := by rw [h7]
  rw [hw1]
  apply apart_miss b d _ i1 h6
  rcases h5 with h5 | h5
  · have hdo : d ∈ o1.blocks := (mem_node_blocks o1 d).mpr ⟨c1, cmp1, h2, h1, Or.inl h5⟩
    by_cases hk : k = k1
    · subst hk
      rw [ho] at ho1
      simp only [Option.some.injEq] at ho1
      subst ho1
      have hown := hpml c1 h2 cmp1 h1 c hc cmp hcmp
      rw [h5, hb] at hown
      exact dbuf_apart_symm _ _ hown
    · exact pairwise_apart_get op hsep.1 k k1 o o1 ho ho1 hk b hbo d hdo
  · have hdn : d ∈ n1.blocks := (mem_node_blocks n1 d).mpr ⟨c1, cmp1, h2, h1, Or.inl h5⟩
    exact hsep.2.2.1 o (List.getElem?_mem ho) n1 (List.getElem?_mem hn1) b hbo d hdn

/-- The block in a slot of `P` of a node of `op` that has a node of equal rank in `np`,
after the stores of the call: what the loop `for (i...) p[i] = f[c][cmp][i]` leaves in it when
the loops visit the component, and the block as it was else. -/
theorem seeded_slot (F : fields) (op np : List polarization) (ws : List (Int × ℚ))
    (hws : ∀ w, w ∈ ws ↔ F.stores op np w) (hsep : chains_apart op np)
    (k : Nat) (o n : polarization) (ho : op[k]? = some o) (hn : np[k]? = some n)
    (c cmp : Nat) (hc : c < 10) (hcmp : cmp < 2) :
    (o.P c cmp).map (pokes ws) =
      if F.v.electric c = true then
        forRange F.v.ntot (fun i b => wr b i ((F.f c cmp).getD i 0)) (o.P c cmp)
      else o.P c cmp := by
  cases hb : o.P c cmp with
  | none =>
    have hnone := (pointwise_loop_frame (fun j (_ : ℚ) => (F.f c cmp).getD j 0) none
      F.v.ntot).2.2
    split
    · cases hr : forRange F.v.ntot (fun i b => wr b i ((F.f c cmp).getD i 0)) none with
      | none => rfl
      | some d => rw [hr] at hnone; simp at hnone
    · rfl
  | some b =>
    by_cases he : F.v.electric c = true
    · rw [if_pos he]
      have hfr := pointwise_loop_frame (fun j (_ : ℚ) => (F.f c cmp).getD j 0) (some b) F.v.ntot
      have hrd := pointwise_loop_rd (fun j (_ : ℚ) => (F.f c cmp).getD j 0) (some b) F.v.ntot
      apply slot_ext
      · rw [hfr.2.2]; rfl
      · rw [hfr.2.1]; exact pokes_addr ws b
      · rw [hfr.1]; exact pokes_length ws b
      · intro i hi
        have hi1 : i < b.val.length := by
          have : blen (Option.map (pokes ws) (some b)) = b.val.length := pokes_length ws b
          rw [this] at hi
          exact hi
        rw [hrd i]
        simp only [Option.map_some', rd, blen]
        by_cases hin : i < F.v.ntot
        · rw [if_pos ⟨hin, hi1⟩]
          apply pokes_get _ _ _ _ hi1
          · intro w hw haddr
            obtain ⟨_, i1, _, _, h7⟩ := store_hits_own F op np hsep k o ho c cmp hc hcmp b hb w
              ((hws w).mp hw) (by rw [haddr]; omega)
            have hi2 : i1 = i := by
              have : w.1 = b.addr + (i1 : Int) := by rw [h7]
              omega
            rw [h7, hi2]
          · left
            refine ⟨(b.addr + (i : Int), (F.f c cmp).getD i 0), (hws _).mpr ?_, rfl⟩
            exact ⟨k, o, n, cmp, c, i, b, ho, hn, hcmp, hc, he, hin, Or.inl hb, hi1, rfl⟩
        · have hne : ¬ (i < F.v.ntot ∧ i < b.val.length) := fun h => hin h.1
          rw [if_neg hne]
          apply pokes_get _ _ _ _ hi1
          · intro w hw haddr
            obtain ⟨_, i1, h8, _, h7⟩ := store_hits_own F op np hsep k o ho c cmp hc hcmp b hb w
              ((hws w).mp hw) (by rw [haddr]; omega)
            have hi2 : i1 = i := by
              have : w.1 = b.addr + (i1 : Int) := by rw [h7]
              omega
            rw [hi2] at h8
            exact absurd h8 hin
          · right; rfl
    · rw [if_neg he]
      simp only [Option.map_some', Option.some.injEq]
      apply pokes_miss
      intro w hw
      by_contra hcon
      have hin : b.addr ≤ w.1 ∧ w.1 < b.addr + (b.val.length : Int) := by omega
      exact he (store_hits_own F op np hsep k o ho c cmp hc hcmp b hb w ((hws w).mp hw) hin).1

/-- A node of `op` that has a node of equal rank in `np`, after the stores of the call: every
block `P[c][cmp]` of a component the loops visit is what its loop over `i` leaves in it;
nothing else changes. -/
theorem seeded_node (F : fields) (op np : List polarization) (ws : List (Int × ℚ))
    (hws : ∀ w, w ∈ ws ↔ F.stores op np w) (hsep : chains_apart op np)
    (k : Nat) (o n : polarization) (ho : op[k]? = some o) (hn : np[k]? = some n)
    (hpml : o.own_pml) :
    o.pokes ws =
      { P := fun c m => if c < 10 ∧ m < 2 ∧ F.v.electric c = true then
            forRange F.v.ntot (fun i b => wr b i ((F.f c m).getD i 0)) (o.P c m)
          else o.P c m,
        P_pml := o.P_pml, pb := o.pb } := by
  obtain ⟨hpb, hs⟩ := node_pokes_spec ws o
  refine polarization_ext _ _ ?_ ?_ hpb
  · funext c m
    dsimp only
    rw [(hs c m).1]
    by_cases hc : c < 10 ∧ m < 2
    · rw [if_pos hc, seeded_slot F op np ws hws hsep k o n ho hn c m hc.1 hc.2]
      by_cases he : F.v.electric c = true
      · rw [if_pos he, if_pos ⟨hc.1, hc.2, he⟩]
      · rw [if_neg he, if_neg (fun h => he h.2.2)]
    · rw [if_neg hc, if_neg (fun h => hc ⟨h.1, h.2.1⟩)]
  · funext c m
    dsimp only
    rw [(hs c m).2]
    by_cases hc : c < 10 ∧ m < 2
    · rw [if_pos hc]
      cases hb : o.P_pml c m with
      | none => rfl
      | some b =>
        simp only [Option.map_some', Option.some.injEq]
        exact pokes_miss ws b (fun w hw =>
          store_misses_pml F op np hsep k o ho hpml c m hc.1 hc.2 b hb w ((hws w).mp hw))
    · rw [if_neg hc]

/-- The two nodes `seed_node` returns, block by block. -/
theorem seed_node_blocks (F : fields) (o n : polarization) :
    F.seed_node o n =
      ({ P := fun c m => if c < 10 ∧ m < 2 ∧ F.v.electric c = true then
            forRange F.v.ntot (fun i b => wr b i ((F.f c m).getD i 0)) (o.P c m)
          else o.P c m,
         P_pml := o.P_pml, pb := o.pb },
       { P := fun c m => if c < 10 ∧ m < 2 ∧ F.v.electric c = true then
            forRange F.v.ntot (fun i b => wr b i ((F.f c m).getD i 0)) (n.P c m)
          else n.P c m,
         P_pml := n.P_pml, pb := n.pb }) := by
  rw [seed_node_eq]
  simp only [seed_loop_eq]

/-- On chains that share no memory, in whose nodes `P` and `P_pml` share none, the recursion
on the store and the recursion on the nodes give the same chains. -/
theorem init_store_agrees (F : fields) (op np : List polarization)
    (hsep : chains_apart op np) (hpo : ∀ o ∈ op, o.own_pml) (hpn : ∀ n ∈ np, n.own_pml) :
    F.initialize_polarizations_nodes op np =
      (op.map (polarization.pokes ((op.zip np).flatMap (fun p => F.seed_cells p.1 p.2))),
       np.map (polarization.pokes ((op.zip np).flatMap (fun p => F.seed_cells p.1 p.2)))) := by
  have hws : ∀ w, w ∈ (op.zip np).flatMap (fun p => F.seed_cells p.1 p.2) ↔ F.stores op np w :=
    stores_iff F op np
  have hws1 : ∀ w, w ∈ (op.zip np).flatMap (fun p => F.seed_cells p.1 p.2) ↔
      F.stores np op w :=
    fun w => ⟨fun h => stores_symm F op np w ((hws w).mp h),
      fun h => (hws w).mpr (stores_symm F np op w h)⟩
  have hsep1 := chains_apart_symm op np hsep
  generalize (op.zip np).flatMap (fun p => F.seed_cells p.1 p.2) = ws at hws hws1
  apply Prod.ext
  · apply List.ext_getElem?
    intro k
    rw [(init_nodes_getElem_all F op np k).1, List.getElem?_map]
    cases ho : op[k]? with
    | none => rfl
    | some o =>
      simp only [Option.map_some', Option.some.injEq]
      cases hn : np[k]? with
      | none =>
        simp only
        rw [later_unchanged F op np ws hws hsep k o ho (List.getElem?_eq_none_iff.mp hn)]
      | some n =>
        simp only
        rw [seeded_node F op np ws hws hsep k o n ho hn (hpo o (List.getElem?_mem ho)),
          seed_node_blocks]
  · apply List.ext_getElem?
    intro k
    rw [(init_nodes_getElem_all F op np k).2, List.getElem?_map]
    cases hn : np[k]? with
    | none => rfl
    | some n =>
      simp only [Option.map_some', Option.some.injEq]
      cases ho : op[k]? with
      | none =>
        simp only
        rw [later_unchanged F np op ws hws1 hsep1 k n hn (List.getElem?_eq_none_iff.mp ho)]
      | some o =>
        simp only
        rw [seeded_node F np op ws hws1 hsep1 k n o hn ho (hpn n (List.getElem?_mem hn)),
          seed_node_blocks]

/-- The two branches of `initialize_polarizations` agree: on a container whose two buffers
share no memory, the call on the buffers themselves, `initialize_polarizations(olpol, pol)`,
as the second branch does it on the store, leaves the container the sentinel call leaves. -/
theorem init_branches_agree (F : fields) (hol : F.olpol ≠ []) (hpl : F.pol ≠ [])
    (hsep : chains_apart F.olpol F.pol) (hpo : ∀ o ∈ F.olpol, o.own_pml)
    (hpn : ∀ n ∈ F.pol, n.own_pml) :
    ∃ F1, F.initialize_polarizations [] [] = some (F1, [], []) ∧
      F.initialize_polarizations F.olpol F.pol = some (F1, F1.olpol, F1.pol) := by
  refine ⟨_, init_sentinel_eq F (isEmpty_false_of_ne_nil _ hol) (isEmpty_false_of_ne_nil _ hpl),
    ?_⟩
  rw [init_explicit_eq F F.olpol F.pol hol hpl hol hpl,
    init_store_agrees F F.olpol F.pol hsep hpo hpn]

/-- The buffers of `line_fields`, built by `set_up_polarizations` one after the other, share
no memory, so the two branches agree on it. -/
theorem line_fields_branches_agree :
    ∃ F1, line_fields.initialize_polarizations [] [] = some (F1, [], []) ∧
      line_fields.initialize_polarizations line_fields.olpol line_fields.pol
        = some (F1, F1.olpol, F1.pol) :=
  init_branches_agree line_fields (List.ne_nil_of_length_pos (by decide))
    (List.ne_nil_of_length_pos (by decide)) (by decide!) (by decide!) (by decide!)

/-- C18 (as amended): for non-null chains `op` of length m and `np` of length n that share no
memory (their m + n nodes are different objects, each with blocks of its own), passed
explicitly to `initialize_polarizations` on a container whose buffers are non-null, the call
returns; the field arrays are what they were; the chains keep their lengths; each of the
first `min m n` nodes of either chain is the same object as before and (its blocks being
allocated) holds the field value at every point of every present electric component; and
every later node of the longer chain is unchanged. -/
theorem C18_explicit_seeding (F : fields) (op np : List polarization)
    (hop : op ≠ []) (hnp : np ≠ []) (hol : F.olpol ≠ []) (hpl : F.pol ≠ [])
    (hwo : ∀ o ∈ op, o.allocated F.v) (hwn : ∀ n ∈ np, n.allocated F.v)
    (hsep : chains_apart op np) :
    ∃ (F1 : fields) (op1 np1 : List polarization),
      F.initialize_polarizations op np = some (F1, op1, np1) ∧
      F1.f = F.f ∧ F1.f_pml = F.f_pml ∧
      op1.length = op.length ∧ np1.length = np.length ∧
      (∀ k, k < min op.length np.length →
        ∃ o n o1 n1 : polarization, op[k]? = some o ∧ np[k]? = some n ∧
          op1[k]? = some o1 ∧ np1[k]? = some n1 ∧ o1.same_object o ∧ n1.same_object n ∧
          ∀ c, c < 10 → F.v.electric c = true → ∀ cmp, cmp < 2 → ∀ i, i < F.v.ntot →
            rd (o1.P c cmp) i = (F.f c cmp).getD i 0 ∧
            rd (n1.P c cmp) i = (F.f c cmp).getD i 0) ∧
      (∀ k, min op.length np.length ≤ k → op1[k]? = op[k]? ∧ np1[k]? = np[k]?) := by
  have hws : ∀ w, w ∈ (op.zip np).flatMap (fun p => F.seed_cells p.1 p.2) ↔ F.stores op np w :=
    stores_iff F op np
  have hws1 : ∀ w, w ∈ (op.zip np).flatMap (fun p => F.seed_cells p.1 p.2) ↔
      F.stores np op w :=
    fun w => ⟨fun h => stores_symm F op np w ((hws w).mp h),
      fun h => (hws w).mpr (stores_symm F np op w h)⟩
  have hsep1 := chains_apart_symm op np hsep
  refine ⟨_, _, _, init_explicit_eq F op np hop hnp hol hpl, rfl, rfl, ?_, ?_, ?_, ?_⟩
  · simp
  · simp
  · generalize (op.zip np).flatMap (fun p => F.seed_cells p.1 p.2) = ws at hws hws1
    intro k hk
    have hk1 : k < op.length := by omega
    have hk2 : k < np.length := by omega
    have hko : op[k]? = some op[k] := List.getElem?_eq_getElem hk1
    have hkn : np[k]? = some np[k] := List.getElem?_eq_getElem hk2
    refine ⟨op[k], np[k], polarization.pokes ws op[k], polarization.pokes ws np[k], hko, hkn,
      ?_, ?_, node_pokes_same_object _ _, node_pokes_same_object _ _, ?_⟩
    · rw [List.getElem?_map, hko]; rfl
    · rw [List.getElem?_map, hkn]; rfl
    · intro c hc he cmp hcmp i hi
      exact ⟨seeded_values F op np _ hws hsep k _ _ hko hkn (hwo _ (List.getElem_mem hk1))
          c hc he cmp hcmp i hi,
        seeded_values F np op _ hws1 hsep1 k _ _ hkn hko (hwn _ (List.getElem_mem hk2))
          c hc he cmp hcmp i hi⟩
  · intro k hk
    rw [List.getElem?_map, List.getElem?_map]
    constructor
    · cases ho : op[k]? with
      | none => rfl
      | some o =>
        have hk1 : k < op.length := (List.getElem?_eq_some.mp ho).1
        simp only [Option.map_some']
        rw [later_unchanged F op np _ hws hsep k o ho (by omega)]
    · cases hn : np[k]? with
      | none => rfl
      | some n =>
        have hk2 : k < np.length := (List.getElem?_eq_some.mp hn).1
        simp only [Option.map_some']
        rw [later_unchanged F np op _ hws1 hsep1 k n hn (by omega)]

theorem C18_explicit_seeding_witness :
    chains_apart pair_chain single_chain ∧
    ∃ (F1 : fields) (op1 np1 : List polarization),
      line_fields.initialize_polarizations pair_chain single_chain = some (F1, op1, np1) ∧
      F1.f = line_fields.f ∧ F1.f_pml = line_fields.f_pml ∧
      op1.length = pair_chain.length ∧ np1.length = single_chain.length ∧
      (∀ k, k < min pair_chain.length single_chain.length →
        ∃ o n o1 n1 : polarization, pair_chain[k]? = some o ∧ single_chain[k]? = some n ∧
          op1[k]? = some o1 ∧ np1[k]? = some n1 ∧ o1.same_object o ∧ n1.same_object n ∧
          ∀ c, c < 10 → line_fields.v.electric c = true → ∀ cmp, cmp < 2 →
            ∀ i, i < line_fields.v.ntot →
              rd (o1.P c cmp) i = (line_fields.f c cmp).getD i 0 ∧
              rd (n1.P c cmp) i = (line_fields.f c cmp).getD i 0) ∧
      (∀ k, min pair_chain.length single_chain.length ≤ k →
        op1[k]? = pair_chain[k]? ∧ np1[k]? = single_chain[k]?) :=
  ⟨by decide!, C18_explicit_seeding line_fields pair_chain single_chain
    (List.ne_nil_of_length_pos (by decide)) (List.ne_nil_of_length_pos (by decide))
    (List.ne_nil_of_length_pos (by decide)) (List.ne_nil_of_length_pos (by decide))
    (by decide) (by decide) (by decide!)⟩

/-- C18 (counterexample): the chain `pair_chain` of two nodes and the chain that starts at its
second node (`op->next` passed as `np`) are non-null chains of lengths 2 and 1; passed
explicitly to `initialize_polarizations` on `line_fields`, whose buffers are non-null, the
call seeds `min 2 1 = 1` pair of nodes, and the second node of `op`, a later node of the
longer chain, does not stay unchanged: it is the node `np` starts at, so its amplitudes, `0`
before the call, are the field value `1` after it. -/
theorem C18_explicit_seeding_counterexample :
    (pair_chain.length = 2 ∧ pair_chain.tail.length = 1 ∧ line_fields.olpol.length = 1 ∧
      line_fields.pol.length = 1) ∧
    pair_chain.map (fun o => (rd (o.P Ex 0) 0, rd (o.P Ex 0) 1)) = [(0, 0), (0, 0)] ∧
    (line_fields.initialize_polarizations pair_chain pair_chain.tail).map
      (fun r => r.2.1.map (fun o => (rd (o.P Ex 0) 0, rd (o.P Ex 0) 1)))
      = some [(1, 1), (1, 1)] ∧
    ¬ ∃ r : fields × List polarization × List polarization,
      line_fields.initialize_polarizations pair_chain pair_chain.tail = some r ∧
      ∀ k, min pair_chain.length pair_chain.tail.length ≤ k → r.2.1[k]? = pair_chain[k]? := by
  have h1 : pair_chain.map (fun o => (rd (o.P Ex 0) 0, rd (o.P Ex 0) 1)) = [(0, 0), (0, 0)] := by
    decide!
  have h2 : (line_fields.initialize_polarizations pair_chain pair_chain.tail).map
      (fun r => r.2.1.map (fun o => (rd (o.P Ex 0) 0, rd (o.P Ex 0) 1)))
      = some [(1, 1), (1, 1)] := by
    decide!
  refine ⟨⟨by decide, by decide, by decide, by decide⟩, h1, h2, ?_⟩
  rintro ⟨r, hr, hk⟩
  rw [hr] at h2
  simp only [Option.map_some', Option.some.injEq] at h2
  have h3 := hk 1 (by decide)
  have h4 : (r.2.1.map (fun o => (rd (o.P Ex 0) 0, rd (o.P Ex 0) 1)))[1]?
      = (pair_chain.map (fun o => (rd (o.P Ex 0) 0, rd (o.P Ex 0) 1)))[1]? := by
    rw [List.getElem?_map, List.getElem?_map, h3]
  rw [h1, h2] at h4
  revert h4
  decide

/-! ## The dual-buffer invariant -/

/-- A property every round of a loop keeps holds after the loop. -/
theorem forRange_inv {σ : Type} (Inv : σ → Prop) (body : Nat → σ → σ) (n : Nat)
    (hbody : ∀ i, i < n → ∀ st, Inv st → Inv (body i st)) (s : σ) (h0 : Inv s) :
    Inv (forRange n body s) := by
  induction n with
  | zero => exact h0
  | succ n ih =>
    rw [forRange_succ]
    exact hbody n (by omega) _ (ih (fun i hi st hst => hbody i (by omega) st hst))

theorem dual_iff_map (F : fields) :
    F.dual ↔ F.olpol.map polarization.pb = F.pol.map polarization.pb := by
  constructor
  · intro h
    apply List.ext_getElem?
    intro k
    simp only [List.getElem?_map]
    cases ho : F.olpol[k]? with
    | none =>
      have h1 : F.olpol.length ≤ k := List.getElem?_eq_none_iff.mp ho
      have h2 : F.pol[k]? = none := List.getElem?_eq_none (by rw [← h.2.1]; exact h1)
      rw [h2]
    | some o =>
      have h1 : k < F.olpol.length := (List.getElem?_eq_some.mp ho).1
      have h2 : k < F.pol.length := by rw [← h.2.1]; exact h1
      rw [List.getElem?_eq_getElem h2]
      simp only [Option.map_some', Option.some.injEq]
      exact h.2.2 k o _ ho (List.getElem?_eq_getElem h2)
  · intro h
    have hlen : F.olpol.length = F.pol.length := by
      have := congrArg List.length h
      simpa using this
    refine ⟨?_, hlen, ?_⟩
    · constructor
      · intro h1
        rw [h1] at hlen
        exact List.length_eq_zero.mp hlen.symm
      · intro h1
        rw [h1] at hlen
        exact List.length_eq_zero.mp hlen
    · intro k o n ho hn
      have := congrArg (fun l => l[k]?) h
      simp only [List.getElem?_map, ho, hn, Option.map_some', Option.some.injEq] at this
      exact this

theorem init_nodes_map_pb (F : fields) (op np : List polarization) :
    (F.initialize_polarizations_nodes op np).1.map polarization.pb = op.map polarization.pb ∧
    (F.initialize_polarizations_nodes op np).2.map polarization.pb = np.map polarization.pb := by
  constructor
  · apply List.ext_getElem?
    intro k
    simp only [List.getElem?_map, (init_nodes_getElem_all F op np k).1]
    cases ho : op[k]? with
    | none => rfl
    | some o =>
      cases hn : np[k]? with
      | none => rfl
      | some n => simp [(seed_node_same_object F o n).1.1]
  · apply List.ext_getElem?
    intro k
    simp only [List.getElem?_map, (init_nodes_getElem_all F op np k).2]
    cases hn : np[k]? with
    | none => rfl
    | some n =>
      cases ho : op[k]? with
      | none => rfl
      | some o => simp [(seed_node_same_object F o n).2.1]

theorem step_nodes_map_pb (F : fields) (op np : List polarization) :
    (F.step_polarization_itself_nodes op np).map polarization.pb = op.map polarization.pb := by
  apply List.ext_getElem?
  intro k
  simp only [List.getElem?_map, step_nodes_getElem_all F op np k]
  cases ho : op[k]? with
  | none => rfl
  | some o =>
    cases hn : np[k]? with
    | none => rfl
    | some n => simp [(advance_node_same_object F o n).1]

theorem same_chains_refl (F : fields) : F.same_chains F := ⟨rfl, rfl, rfl, rfl⟩

/-- The loops of the reaction for one `cc` and `cmp` write the field arrays only. -/
theorem react_slot_frame (F0 : fields) (op np : polarization) (past : past_tables)
    (cmp cc : Nat) (F : fields) (h : F0.same_chains F) :
    F0.same_chains (fields.react_slot op np past cmp cc F) := by
  unfold fields.react_slot
  by_cases hc : (F.v.has_field cc && is_electric cc) = true
  · rw [if_pos hc]
    exact h
  · rw [if_neg hc]
    exact h

/-- The `DOCMP` block of the reaction writes the field arrays only. -/
theorem react_node_frame (F0 F : fields) (h : F0.same_chains F) (op np : polarization)
    (past : past_tables) : F0.same_chains (F.react_node op np past) := by
  have key := forRange_inv (fun st : fields => F0.same_chains st)
    (fun cmp st => forRange 10 (fields.react_slot op np past cmp) st) 2
    (fun cmp _ st hst =>
      forRange_inv (fun st : fields => F0.same_chains st)
        (fields.react_slot op np past cmp) 10
        (fun cc _ st1 hst1 => react_slot_frame F0 op np past cmp cc st1 hst1) st hst)
    F h
  exact key

theorem react_nodes_nil_left (F : fields) (past : Nat → past_tables)
    (np : List polarization) : fields.step_e_polarization_nodes F past [] np = F := by
  cases np <;> rfl

theorem react_nodes_nil_right (F : fields) (past : Nat → past_tables)
    (op : List polarization) : fields.step_e_polarization_nodes F past op [] = F := by
  cases op <;> rfl

theorem react_nodes_cons (F : fields) (past : Nat → past_tables) (o n : polarization)
    (os ns : List polarization) :
    fields.step_e_polarization_nodes F past (o :: os) (n :: ns) =
      if os.isEmpty || ns.isEmpty then F.react_node o n (past 0)
      else fields.step_e_polarization_nodes (F.react_node o n (past 0))
        (fun k => past (k + 1)) os ns := rfl

/-- The recursion of the reaction down two chains writes the field arrays only. -/
theorem react_nodes_frame (F0 : fields) (op : List polarization) :
    ∀ (np : List polarization) (past : Nat → past_tables) (F : fields), F0.same_chains F →
      F0.same_chains (fields.step_e_polarization_nodes F past op np) := by
  induction op with
  | nil =>
    intro np past F h
    rw [react_nodes_nil_left]
    exact h
  | cons o os ih =>
    intro np past F h
    cases np with
    | nil =>
      rw [react_nodes_nil_right]
      exact h
    | cons n ns =>
      rw [react_nodes_cons]
      have h1 := react_node_frame F0 F h o n (past 0)
      by_cases hc : (os.isEmpty || ns.isEmpty) = true
      · rw [if_pos hc]
        exact h1
      · rw [if_neg hc]
        exact ih ns _ _ h1

/-- The sentinel reaction returns on every container, whatever it reads past the tables,
and leaves the chains, the grid and the material as they were. -/
theorem react_sentinel_result (F : fields) (past : Nat → past_tables) :
    ∃ F1, F.step_e_polarization past [] [] = some (F1, [], []) ∧ F.same_chains F1 := by
  unfold fields.step_e_polarization
  simp only [List.isEmpty_nil, Bool.true_and]
  by_cases hc : (!F.olpol.isEmpty && !F.pol.isEmpty) = true
  · rw [if_pos hc]
    exact ⟨_, rfl, react_nodes_frame F F.olpol F.pol past F (same_chains_refl F)⟩
  · rw [if_neg hc, if_neg hc]
    exact ⟨F, rfl, same_chains_refl F⟩

/-- Two loops whose rounds agree on the states that satisfy a property the rounds keep give
the same result from such a state. -/
theorem forRange_congr_inv {σ : Type} (Inv : σ → Prop) (f g : Nat → σ → σ) (n : Nat)
    (hkeep : ∀ i, i < n → ∀ s, Inv s → Inv (g i s))
    (heq : ∀ i, i < n → ∀ s, Inv s → f i s = g i s) (s : σ) (h0 : Inv s) :
    forRange n f s = forRange n g s ∧ Inv (forRange n g s) := by
  induction n with
  | zero => exact ⟨rfl, h0⟩
  | succ n ih =>
    obtain ⟨h1, h2⟩ := ih (fun i hi => hkeep i (by omega)) (fun i hi => heq i (by omega))
    rw [forRange_succ, forRange_succ, h1]
    exact ⟨heq n (by omega) _ h2, hkeep n (by omega) _ h2⟩

/-- Inside the tables the loop of the reaction does not consult what lies past them. -/
theorem react_loop_inside (n : Nat) (inveps : List ℚ) (npP opP : Nat → Nat → Option dbuf)
    (past past1 : Nat → Int) (cc : Nat) (hin : 2 * cc + n ≤ 20) (a : List ℚ) :
    react_loop n inveps npP opP past cc a = react_loop n inveps npP opP past1 cc a := by
  unfold react_loop
  refine (forRange_congr_inv (fun _ => True) _ _ n (fun _ _ _ _ => trivial) ?_ a trivial).1
  intro i hi l _
  have hlt : 2 * cc + i < 20 := by omega
  simp only [row_diff, if_pos hlt]

theorem react_slot_inside (F0 : fields) (hin : F0.v.in_table) (op np : polarization)
    (past past1 : past_tables) (cmp cc : Nat) (hcc : cc < 10) (F : fields)
    (h : F0.same_chains F) :
    fields.react_slot op np past cmp cc F = fields.react_slot op np past1 cmp cc F := by
  unfold fields.react_slot
  by_cases hc : (F.v.has_field cc && is_electric cc) = true
  · rw [if_pos hc, if_pos hc]
    have he : F0.v.electric cc = true := by rw [← h.2.2.1]; exact hc
    have hb : 2 * cc + F.v.ntot ≤ 20 := by rw [h.2.2.1]; exact hin cc hcc he
    simp only [react_loop_inside F.v.ntot (F.ma.inveps cc) np.P op.P (past.P cmp cc)
        (past1.P cmp cc) cc hb,
      react_loop_inside F.v.ntot (F.ma.inveps cc) np.P_pml op.P_pml (past.P_pml cmp cc)
        (past1.P_pml cmp cc) cc hb]
  · rw [if_neg hc, if_neg hc]

theorem react_node_inside (F0 : fields) (hin : F0.v.in_table) (op np : polarization)
    (past past1 : past_tables) (F : fields) (h : F0.same_chains F) :
    F.react_node op np past = F.react_node op np past1 := by
  unfold fields.react_node
  refine (forRange_congr_inv (fun st : fields => F0.same_chains st) _ _ 2 ?_ ?_ F h).1
  · intro cmp _ st hst
    exact forRange_inv (fun st : fields => F0.same_chains st)
      (fields.react_slot op np past1 cmp) 10
      (fun cc _ st1 hst1 => react_slot_frame F0 op np past1 cmp cc st1 hst1) st hst
  · intro cmp _ st hst
    refine (forRange_congr_inv (fun st : fields => F0.same_chains st) _ _ 10 ?_ ?_ st hst).1
    · intro cc _ st1 hst1
      exact react_slot_frame F0 op np past1 cmp cc st1 hst1
    · intro cc hcc st1 hst1
      exact react_slot_inside F0 hin op np past past1 cmp cc hcc st1 hst1

theorem react_nodes_inside (F0 : fields) (hin : F0.v.in_table) (op : List polarization) :
    ∀ (np : List polarization) (past past1 : Nat → past_tables) (F : fields),
      F0.same_chains F →
      fields.step_e_polarization_nodes F past op np =
        fields.step_e_polarization_nodes F past1 op np := by
  induction op with
  | nil => intro np past past1 F _; rw [react_nodes_nil_left, react_nodes_nil_left]
  | cons o os ih =>
    intro np past past1 F h
    cases np with
    | nil => rw [react_nodes_nil_right, react_nodes_nil_right]
    | cons n ns =>
      rw [react_nodes_cons, react_nodes_cons,
        react_node_inside F0 hin o n (past 0) (past1 0) F h]
      by_cases hc : (os.isEmpty || ns.isEmpty) = true
      · rw [if_pos hc, if_pos hc]
      · rw [if_neg hc, if_neg hc]
        exact ih ns _ _ _ (react_node_frame F0 F h o n (past1 0))

/-- On a grid whose two-subscript reads stay inside the tables, `step_e_polarization` does
the same whatever lies past the tables. -/
theorem react_inside_tables (F : fields) (hin : F.v.in_table) (past past1 : Nat → past_tables)
    (op np : List polarization) :
    F.step_e_polarization past op np = F.step_e_polarization past1 op np := by
  unfold fields.step_e_polarization
  rw [react_nodes_inside F hin F.olpol F.pol past past1 F (same_chains_refl F),
    react_nodes_inside F hin op np past past1 F (same_chains_refl F)]

/-- The grid of `line_fields` keeps the two-subscript reads inside the tables. -/
theorem line_volume_in_table : line_volume.in_table := by decide

/-- The sentinel seeding returns on every container, and keeps the terms the nodes refer to. -/
theorem seed_sentinel_result (F : fields) :
    ∃ F1, F.initialize_polarizations [] [] = some (F1, [], []) ∧ F1.v = F.v ∧
      F1.olpol.map polarization.pb = F.olpol.map polarization.pb ∧
      F1.pol.map polarization.pb = F.pol.map polarization.pb := by
  by_cases hc : (!F.olpol.isEmpty && !F.pol.isEmpty) = true
  · have ho : F.olpol.isEmpty = false := by
      cases h : F.olpol.isEmpty <;> simp [h] at hc ⊢
    have hp : F.pol.isEmpty = false := by
      cases h : F.pol.isEmpty <;> simp [h] at hc ⊢
    have hmap := init_nodes_map_pb F F.olpol F.pol
    exact ⟨_, init_sentinel_eq F ho hp, rfl, hmap.1, hmap.2⟩
  · refine ⟨F, ?_, rfl, rfl, rfl⟩
    unfold fields.initialize_polarizations
    simp only [List.isEmpty_nil, Bool.true_and]
    rw [if_neg hc, if_neg hc]

/-- The sentinel advance returns on every container; it exchanges the chains and keeps the
terms the nodes refer to. -/
theorem advance_sentinel_result (F : fields) :
    ∃ F1, F.step_polarization_itself [] [] = some (F1, [], []) ∧ F1.v = F.v ∧
      ((F1.olpol.map polarization.pb = F.pol.map polarization.pb ∧
        F1.pol.map polarization.pb = F.olpol.map polarization.pb) ∨
       (F1.olpol = F.olpol ∧ F1.pol = F.pol)) := by
  by_cases hc : (!F.olpol.isEmpty && !F.pol.isEmpty) = true
  · have ho : F.olpol.isEmpty = false := by
      cases h : F.olpol.isEmpty <;> simp [h] at hc ⊢
    have hp : F.pol.isEmpty = false := by
      cases h : F.pol.isEmpty <;> simp [h] at hc ⊢
    exact ⟨_, step_sentinel_eq F ho hp, rfl, Or.inl ⟨rfl, step_nodes_map_pb F F.olpol F.pol⟩⟩
  · refine ⟨F, ?_, rfl, Or.inr ⟨rfl, rfl⟩⟩
    unfold fields.step_polarization_itself
    simp only [List.isEmpty_nil, Bool.true_and]
    rw [if_neg hc, if_neg hc]

/-- Every sentinel call returns, to a container that satisfies the dual-buffer predicate
when the container it started from does. -/
theorem call_dual (F : fields) (c : sentinel_call) (hd : F.dual) :
    ∃ F1, F.call c = some F1 ∧ F1.dual := by
  rw [dual_iff_map] at hd
  cases c with
  | seed =>
    obtain ⟨F2, h2, _, ho, hp⟩ := seed_sentinel_result F
    exact ⟨F2, by simp [fields.call, h2], (dual_iff_map F2).mpr (by rw [ho, hp, hd])⟩
  | advance =>
    obtain ⟨F2, h2, _, hch⟩ := advance_sentinel_result F
    refine ⟨F2, by simp [fields.call, h2], (dual_iff_map F2).mpr ?_⟩
    rcases hch with ⟨ho, hp⟩ | ⟨ho, hp⟩
    · rw [ho, hp, hd]
    · rw [ho, hp, hd]
  | react past =>
    obtain ⟨F2, h2, hs⟩ := react_sentinel_result F past
    exact ⟨F2, by simp [fields.call, h2], (dual_iff_map F2).mpr (by rw [hs.1, hs.2.1, hd])⟩

/-- Every finite sequence of sentinel calls runs to its end, and ends in a container that
satisfies the dual-buffer predicate when it started from one. -/
theorem calls_dual (cs : List sentinel_call) :
    ∀ F : fields, F.dual → ∃ F1, F.calls cs = some F1 ∧ F1.dual := by
  induction cs with
  | nil => intro F hd; exact ⟨F, rfl, hd⟩
  | cons c cs ih =>
    intro F hd
    obtain ⟨F2, h2, hd2⟩ := call_dual F c hd
    obtain ⟨F1, h1, hd1⟩ := ih F2 hd2
    refine ⟨F1, ?_, hd1⟩
    rw [fields.calls, h2]
    exact h1

/-- C15: the dual-buffer predicate (old and new chain both null or both non-null, of equal
length, corresponding nodes referring to the same term) holds for two chains built by
`set_up_polarizations` on the same material; each sentinel call, `initialize_polarizations(NULL,
NULL)`, `step_polarization_itself(NULL, NULL)` and `step_e_polarization(NULL, NULL)` (on every
grid, whatever the reaction reads past the tables), returns and keeps it; hence every finite
sequence of sentinel calls runs to its end and the predicate holds after it, in particular
when the sequence starts from two chains built by `set_up_polarizations` on one material. -/
theorem C15_dual_buffer_invariant :
    (∀ (F : fields) (ma : mat) (h h1 : heap),
      F.olpol = (polarization.set_up_polarizations ma h).1 →
      F.pol = (polarization.set_up_polarizations ma h1).1 → F.dual) ∧
    (∀ F : fields, F.dual →
      (∃ F1, F.initialize_polarizations [] [] = some (F1, [], []) ∧ F1.dual) ∧
      (∃ F1, F.step_polarization_itself [] [] = some (F1, [], []) ∧ F1.dual) ∧
      (∀ past : Nat → past_tables,
        ∃ F1, F.step_e_polarization past [] [] = some (F1, [], []) ∧ F1.dual)) ∧
    (∀ (F : fields) (cs : List sentinel_call), F.dual →
      ∃ F1, F.calls cs = some F1 ∧ F1.dual) ∧
    (∀ (F : fields) (ma : mat) (h h1 : heap) (cs : List sentinel_call),
      F.olpol = (polarization.set_up_polarizations ma h).1 →
      F.pol = (polarization.set_up_polarizations ma h1).1 →
      ∃ F1, F.calls cs = some F1 ∧ F1.dual) := by
  have hstart : ∀ (F : fields) (ma : mat) (h h1 : heap),
      F.olpol = (polarization.set_up_polarizations ma h).1 →
      F.pol = (polarization.set_up_polarizations ma h1).1 → F.dual := by
    intro F ma h h1 ho hp
    rw [dual_iff_map, ho, hp, set_up_pb_chain, set_up_pb_chain]
  refine ⟨hstart, ?_, ?_, ?_⟩
  · intro F hd
    have hm := (dual_iff_map F).mp hd
    refine ⟨?_, ?_, ?_⟩
    · obtain ⟨F1, h1, _, ho, hp⟩ := seed_sentinel_result F
      exact ⟨F1, h1, (dual_iff_map F1).mpr (by rw [ho, hp, hm])⟩
    · obtain ⟨F1, h1, _, hch⟩ := advance_sentinel_result F
      refine ⟨F1, h1, (dual_iff_map F1).mpr ?_⟩
      rcases hch with ⟨ho, hp⟩ | ⟨ho, hp⟩
      · rw [ho, hp, hm]
      · rw [ho, hp, hm]
    · intro past
      obtain ⟨F1, h1, hs⟩ := react_sentinel_result F past
      exact ⟨F1, h1, (dual_iff_map F1).mpr (by rw [hs.1, hs.2.1, hm])⟩
  · intro F cs hd
    exact calls_dual cs F hd
  · intro F ma h h1 cs ho hp
    exact calls_dual cs F (hstart F ma h h1 ho hp)

theorem C15_dual_buffer_invariant_witness :
    long_fields.olpol = (polarization.set_up_polarizations long_mat ⟨0, fun _ => 7⟩).1 ∧
    long_fields.pol = (polarization.set_up_polarizations long_mat
      (polarization.set_up_polarizations long_mat ⟨0, fun _ => 7⟩).2).1 ∧
    ∃ F1, long_fields.calls [sentinel_call.seed, sentinel_call.advance,
        sentinel_call.react long_past, sentinel_call.advance,
        sentinel_call.react past_zero] = some F1 ∧ F1.dual :=
  ⟨rfl, rfl, C15_dual_buffer_invariant.2.2.2 long_fields long_mat _ _ _ rfl rfl⟩

/-! ## The blocks of a constructed oscillator chain -/

theorem zero_fill_val (n : Nat) (b : dbuf) (hb : b.val.length = n) :
    (zero_fill n b).val = List.replicate n 0 ∧ (zero_fill n b).addr = b.addr := by
  have h := set_loop_get (fun _ => (0 : ℚ)) b n
  refine ⟨?_, h.1⟩
  have hlen : (zero_fill n b).val.length = n := by
    have := h.2.1
    rw [hb] at this
    exact this
  apply List.ext_getElem
  · simp [hlen]
  · intro j h1 h2
    have hj : j < n := by rw [← hlen]; exact h1
    have hget := h.2.2 j hj (by rw [hb]; exact hj)
    have hget1 : (zero_fill n b).get j = 0 := hget
    simp only [dbuf.get, List.getD_eq_getElem?_getD, List.getElem?_eq_getElem h1,
      Option.getD_some] at hget1
    simp [hget1]

theorem alloc_slot_pos (v : volume) (cmp c : Nat) (st : polarization_raw)
    (he : v.electric c = true) :
    polarization.alloc_slot v cmp c st =
      { P := tset st.P c cmp (some (zero_fill v.ntot (new_double st.h v.ntot).1)),
        P_pml := tset st.P_pml c cmp
          (some (zero_fill v.ntot (new_double (new_double st.h v.ntot).2 v.ntot).1)),
        h := (new_double (new_double st.h v.ntot).2 v.ntot).2 } := by
  have he1 : (v.has_field c && is_electric c) = true := he
  simp [polarization.alloc_slot, he1]

theorem alloc_slot_neg (v : volume) (cmp c : Nat) (st : polarization_raw)
    (he : v.electric c = false) :
    polarization.alloc_slot v cmp c st =
      { P := tset st.P c cmp none, P_pml := tset st.P_pml c cmp none, h := st.h } := by
  have he1 : (v.has_field c && is_electric c) = false := he
  simp [polarization.alloc_slot, he1]

/-- One round of the allocation leaves its own slot zeroed (or null) and no other slot
changed. -/
theorem alloc_slot_spec (v : volume) (cmp c : Nat) (st : polarization_raw) :
    (zeroed_slot v c ((polarization.alloc_slot v cmp c st).P c cmp) ∧
      zeroed_slot v c ((polarization.alloc_slot v cmp c st).P_pml c cmp)) ∧
    ∀ c1 cmp1, ¬ (c1 = c ∧ cmp1 = cmp) →
      (polarization.alloc_slot v cmp c st).P c1 cmp1 = st.P c1 cmp1 ∧
      (polarization.alloc_slot v cmp c st).P_pml c1 cmp1 = st.P_pml c1 cmp1 := by
  by_cases he : v.electric c = true
  · rw [alloc_slot_pos v cmp c st he]
    refine ⟨⟨⟨fun _ => ⟨zero_fill v.ntot (new_double st.h v.ntot).1, by simp [tset],
        (zero_fill_val v.ntot _ (new_double_length _ _)).1⟩, fun h => ?_⟩,
      ⟨fun _ => ⟨zero_fill v.ntot (new_double (new_double st.h v.ntot).2 v.ntot).1,
        by simp [tset], (zero_fill_val v.ntot _ (new_double_length _ _)).1⟩, fun h => ?_⟩⟩, ?_⟩
    · rw [he] at h; exact absurd h (by decide)
    · rw [he] at h; exact absurd h (by decide)
    · intro c1 cmp1 hne
      simp [tset, hne]
  · have he1 : v.electric c = false := by simpa using he
    rw [alloc_slot_neg v cmp c st he1]
    refine ⟨⟨⟨fun h => ?_, fun _ => by simp [tset]⟩, ⟨fun h => ?_, fun _ => by simp [tset]⟩⟩, ?_⟩
    · exact absurd h he
    · exact absurd h he
    · intro c1 cmp1 hne
      simp [tset, hne]

/-- After the first `n` rounds of the loop over `c` for one `cmp`, the slots `c < n` of that
`cmp` are zeroed (or null) and every other slot is what it was. -/
theorem alloc_c_loop (v : volume) (cmp : Nat) (st0 : polarization_raw) (n : Nat) :
    ∀ c1 cmp1,
      (c1 < n ∧ cmp1 = cmp →
        zeroed_slot v c1 ((forRange n (polarization.alloc_slot v cmp) st0).P c1 cmp1) ∧
        zeroed_slot v c1 ((forRange n (polarization.alloc_slot v cmp) st0).P_pml c1 cmp1)) ∧
      (¬ (c1 < n ∧ cmp1 = cmp) →
        (forRange n (polarization.alloc_slot v cmp) st0).P c1 cmp1 = st0.P c1 cmp1 ∧
        (forRange n (polarization.alloc_slot v cmp) st0).P_pml c1 cmp1 = st0.P_pml c1 cmp1) := by
  induction n with
  | zero =>
    intro c1 cmp1
    exact ⟨fun h => by omega, fun _ => ⟨rfl, rfl⟩⟩
  | succ n ih =>
    intro c1 cmp1
    rw [forRange_succ]
    have hs := alloc_slot_spec v cmp n (forRange n (polarization.alloc_slot v cmp) st0)
    by_cases hcur : c1 = n ∧ cmp1 = cmp
    · obtain ⟨h1, h2⟩ := hcur
      subst h1; subst h2
      exact ⟨fun _ => hs.1, fun h => absurd ⟨by omega, rfl⟩ h⟩
    · have hfr := hs.2 c1 cmp1 hcur
      rw [hfr.1, hfr.2]
      constructor
      · intro h
        have h1 : c1 < n ∧ cmp1 = cmp := by
          refine ⟨?_, h.2⟩
          by_contra hlt
          exact hcur ⟨by omega, h.2⟩
        exact (ih c1 cmp1).1 h1
      · intro h
        have h1 : ¬ (c1 < n ∧ cmp1 = cmp) := fun h2 => h ⟨by omega, h2.2⟩
        exact (ih c1 cmp1).2 h1

/-- After the two nested loops of the constructor every slot `c < 10`, `cmp < 2` of `P` and
of `P_pml` is zeroed (or null). -/
theorem alloc_loops_spec (v : volume) (st0 : polarization_raw) (c cmp : Nat) (hc : c < 10)
    (hcmp : cmp < 2) :
    zeroed_slot v c
      ((forRange 2 (fun cmp st => forRange 10 (polarization.alloc_slot v cmp) st) st0).P c cmp) ∧
    zeroed_slot v c
      ((forRange 2 (fun cmp st => forRange 10 (polarization.alloc_slot v cmp) st)
        st0).P_pml c cmp) := by
  rw [forRange_two]
  have h01 : cmp = 0 ∨ cmp = 1 := by omega
  rcases h01 with h0 | h1
  · subst h0
    have hfr := (alloc_c_loop v 1 (forRange 10 (polarization.alloc_slot v 0) st0) 10 c 0).2
      (fun h => absurd h.2 (by decide))
    rw [hfr.1, hfr.2]
    exact (alloc_c_loop v 0 st0 10 c 0).1 ⟨hc, rfl⟩
  · subst h1
    exact (alloc_c_loop v 1 (forRange 10 (polarization.alloc_slot v 0) st0) 10 c 1).1 ⟨hc, rfl⟩

/-- Every node the constructor of `polarization` builds has all its slots zeroed (or null),
with respect to the grid of the term it refers to. -/
theorem new_polarization_zeroed (rest : List polarizability) :
    ∀ (h : heap) (the_pb : polarizability),
      ∀ o ∈ (polarization.new_polarization h the_pb rest).1, ∀ c, c < 10 → ∀ cmp, cmp < 2 →
        zeroed_slot o.pb.v c (o.P c cmp) ∧ zeroed_slot o.pb.v c (o.P_pml c cmp) := by
  induction rest with
  | nil =>
    intro h the_pb o ho c hc cmp hcmp
    simp only [polarization.new_polarization, List.mem_singleton] at ho
    subst ho
    exact alloc_loops_spec the_pb.v _ c cmp hc hcmp
  | cons nx rest1 ih =>
    intro h the_pb o ho c hc cmp hcmp
    rw [polarization.new_polarization] at ho
    simp only [List.mem_cons] at ho
    rcases ho with ho | ho
    · subst ho
      exact alloc_loops_spec the_pb.v _ c cmp hc hcmp
    · exact ih _ nx o ho c hc cmp hcmp

/-- C11: for every susceptibility chain, every node of the oscillator chain constructed from
it (by the constructor, and so by `set_up_polarizations`) has, for each component `c` in
`0..9` and each part `cmp`: when `c` is an electric component present in the grid of the
node's term, `P[c][cmp]` and `P_pml[c][cmp]` are blocks of `ntot` doubles that are all `0`;
otherwise both are null. -/
theorem C11_zeroed_blocks :
    (∀ (h : heap) (the_pb : polarizability) (rest : List polarizability),
      ∀ o ∈ (polarization.new_polarization h the_pb rest).1, ∀ c, c < 10 → ∀ cmp, cmp < 2 →
        zeroed_slot o.pb.v c (o.P c cmp) ∧ zeroed_slot o.pb.v c (o.P_pml c cmp)) ∧
    (∀ (ma : mat) (h : heap),
      ∀ o ∈ (polarization.set_up_polarizations ma h).1, ∀ c, c < 10 → ∀ cmp, cmp < 2 →
        zeroed_slot o.pb.v c (o.P c cmp) ∧ zeroed_slot o.pb.v c (o.P_pml c cmp)) := by
  refine ⟨fun h the_pb rest => new_polarization_zeroed rest h the_pb, ?_⟩
  intro ma h o ho
  unfold polarization.set_up_polarizations at ho
  cases hpb : ma.pb with
  | nil => rw [hpb] at ho; simp at ho
  | cons p rest =>
    rw [hpb] at ho
    exact new_polarization_zeroed rest h p o ho

theorem C11_zeroed_blocks_witness :
    ∀ o ∈ (polarization.set_up_polarizations still_mat ⟨0, fun _ => 7⟩).1,
      ∀ c, c < 10 → ∀ cmp, cmp < 2 →
        zeroed_slot o.pb.v c (o.P c cmp) ∧ zeroed_slot o.pb.v c (o.P_pml c cmp) :=
  C11_zeroed_blocks.2 still_mat ⟨0, fun _ => 7⟩

/-! ## The copy constructor -/

/-- A loop `for (i...) p[i] = g(i)` over a whole block leaves the values `g(0), ..., g(n-1)`. -/
theorem set_loop_val (g : Nat → ℚ) (b : dbuf) (n : Nat) (hb : b.val.length = n) :
    (forRange n (fun i b => b.set i (g i)) b).val = (List.range n).map g ∧
    (forRange n (fun i b => b.set i (g i)) b).addr = b.addr := by
  have h := set_loop_get g b n
  refine ⟨?_, h.1⟩
  have hlen : (forRange n (fun i b => b.set i (g i)) b).val.length = n := by
    have := h.2.1
    rw [hb] at this
    exact this
  apply List.ext_getElem
  · simp [hlen]
  · intro j h1 h2
    have hj : j < n := by rw [← hlen]; exact h1
    have hget := h.2.2 j hj (by rw [hb]; exact hj)
    simp only [dbuf.get, List.getD_eq_getElem?_getD, List.getElem?_eq_getElem h1,
      Option.getD_some] at hget
    simp [hget]

/-- Copying a source block of `n` entries into a block of `n` entries gives its entries. -/
theorem copy_block_val (n : Nat) (sb dst : dbuf) (hs : sb.val.length = n)
    (hd : dst.val.length = n) :
    (copy_block n (some sb) dst).val = sb.val ∧ (copy_block n (some sb) dst).addr = dst.addr := by
  have h := set_loop_val (fun i => rd (some sb) i) dst n hd
  refine ⟨?_, h.2⟩
  unfold copy_block
  rw [h.1]
  apply List.ext_getElem
  · simp [hs]
  · intro j h1 h2
    simp [rd, dbuf.get, List.getD_eq_getElem?_getD, List.getElem?_eq_getElem h2]

theorem copy_block_addr (n : Nat) (src : Option dbuf) (dst : dbuf) :
    (copy_block n src dst).addr = dst.addr ∧
    (copy_block n src dst).val.length = dst.val.length := by
  have h := set_loop_get (fun i => rd src i) dst n
  exact ⟨h.1, h.2.1⟩

theorem copy_s_pos (pb : polarizability) (c : Nat) (st : (Nat → Option dbuf) × heap)
    (he : pb.v.electric c = true) :
    polarizability.copy_s pb c st =
      (vset st.1 c (some (copy_block pb.v.ntot (pb.s c) (new_double st.2 pb.v.ntot).1)),
       (new_double st.2 pb.v.ntot).2) := by
  have he1 : (pb.v.has_field c && is_electric c) = true := he
  simp [polarizability.copy_s, he1]

theorem copy_s_neg (pb : polarizability) (c : Nat) (st : (Nat → Option dbuf) × heap)
    (he : pb.v.electric c = false) :
    polarizability.copy_s pb c st = (vset st.1 c none, st.2) := by
  have he1 : (pb.v.has_field c && is_electric c) = false := he
  simp [polarizability.copy_s, he1]

/-- After the first `n` rounds of the loop over `c` of the copy constructor on a well-formed
source, `s[c]` for `c < n` has the entries of the source's `s[c]`: it is null exactly when
the source's is. -/
theorem copy_s_loop (pb : polarizability) (hwf : pb.wf) (st0 : (Nat → Option dbuf) × heap)
    (n : Nat) (hn : n ≤ 10) :
    ∀ c, c < n →
      ((forRange n (polarizability.copy_s pb) st0).1 c).map dbuf.val = (pb.s c).map dbuf.val := by
  induction n with
  | zero => intro c hc; omega
  | succ n ih =>
    intro c hc
    rw [forRange_succ]
    have hw := hwf.2 n (by omega)
    by_cases he : pb.v.electric n = true
    · rw [copy_s_pos pb n _ he]
      by_cases hcn : c = n
      · subst hcn
        obtain ⟨h1, h2⟩ := hw.1 he
        cases hs : pb.s c with
        | none => rw [hs] at h1; simp at h1
        | some sb =>
          rw [hs] at h2
          have := (copy_block_val pb.v.ntot sb
            (new_double (forRange c (polarizability.copy_s pb) st0).2 pb.v.ntot).1 h2
            (new_double_length _ pb.v.ntot)).1
          simp [vset, this]
      · have := ih (by omega) c (by omega)
        simpa [vset, hcn] using this
    · have he1 : pb.v.electric n = false := by simpa using he
      rw [copy_s_neg pb n _ he1]
      by_cases hcn : c = n
      · subst hcn
        simp [vset, hw.2 he1]
      · have := ih (by omega) c (by omega)
        simpa [vset, hcn] using this

theorem new_copy_nil (h : heap) (pb : polarizability) :
    polarizability.new_copy h pb [] =
      ([polarizability.copy_node h pb], polarizability.copy_heap h pb) := by
  rw [polarizability.new_copy]; rfl

theorem new_copy_cons (h : heap) (pb nx : polarizability) (rest1 : List polarizability) :
    polarizability.new_copy h pb (nx :: rest1) =
      (polarizability.copy_node h pb ::
        (polarizability.new_copy (polarizability.copy_heap h pb) nx rest1).1,
       (polarizability.new_copy (polarizability.copy_heap h pb) nx rest1).2) := by
  rw [polarizability.new_copy]; rfl

/-- Throughout the loop over `c` of the copy constructor the break of the free store does not
go below `a`, and every block in the table lies at or above `a`, when that holds at its
start. -/
theorem copy_s_loop_above (pb : polarizability) (a : Int) (st0 : (Nat → Option dbuf) × heap)
    (h0 : a ≤ st0.2.brk ∧ ∀ c b, st0.1 c = some b → a ≤ b.addr) (n : Nat) :
    a ≤ (forRange n (polarizability.copy_s pb) st0).2.brk ∧
    ∀ c b, (forRange n (polarizability.copy_s pb) st0).1 c = some b → a ≤ b.addr := by
  refine forRange_inv
    (fun st : (Nat → Option dbuf) × heap => a ≤ st.2.brk ∧ ∀ c b, st.1 c = some b → a ≤ b.addr)
    (polarizability.copy_s pb) n ?_ st0 h0
  intro i _ st hst
  by_cases he : pb.v.electric i = true
  · rw [copy_s_pos pb i st he]
    refine ⟨?_, ?_⟩
    · have : a ≤ st.2.brk := hst.1
      simp only [new_double]
      omega
    · intro c b hb
      by_cases hci : c = i
      · subst hci
        simp only [vset, if_true, Option.some.injEq] at hb
        rw [← hb, (copy_block_addr _ _ _).1]
        exact hst.1
      · simp only [vset, hci, if_false] at hb
        exact hst.2 c b hb
  · have he1 : pb.v.electric i = false := by simpa using he
    rw [copy_s_neg pb i st he1]
    refine ⟨hst.1, ?_⟩
    intro c b hb
    by_cases hci : c = i
    · subst hci
      simp [vset] at hb
    · simp only [vset, hci, if_false] at hb
      exact hst.2 c b hb

theorem copy_heap_ge (h : heap) (pb : polarizability) :
    h.brk ≤ (polarizability.copy_heap h pb).brk := by
  unfold polarizability.copy_heap
  refine (copy_s_loop_above pb h.brk _ ⟨?_, ?_⟩ 10).1
  · simp only [new_double]; omega
  · intro c b hb; simp at hb

theorem mem_blocks (t : polarizability) (b : dbuf) :
    b ∈ t.blocks ↔ b = t.sigma ∨ ∃ c, c < 10 ∧ t.s c = some b := by
  simp [polarizability.blocks, List.mem_filterMap]

/-- Every block of the node the copy constructor builds lies at or above the break of the
free store it was built on. -/
theorem copy_node_above (h : heap) (pb : polarizability) :
    ∀ b ∈ (polarizability.copy_node h pb).blocks, h.brk ≤ b.addr := by
  intro b hb
  rw [mem_blocks] at hb
  rcases hb with hb | ⟨c, _, hc⟩
  · rw [hb]
    show h.brk ≤ (copy_block pb.v.ntot (some pb.sigma) (new_double h pb.v.ntot).1).addr
    rw [(copy_block_addr _ _ _).1]
    simp [new_double]
  · refine (copy_s_loop_above pb h.brk (fun _ => none, (new_double h pb.v.ntot).2)
      ⟨?_, ?_⟩ 10).2 c b hc
    · simp only [new_double]; omega
    · intro c b hb; simp at hb

/-- The node the copy constructor builds from a well-formed term: same scalars and grid,
`sigma` and every `s[c]` equal entry by entry, null where the source's is null. -/
theorem copy_node_spec (h : heap) (pb : polarizability) (hwf : pb.wf) :
    (polarizability.copy_node h pb).omeganot = pb.omeganot ∧
    (polarizability.copy_node h pb).gamma = pb.gamma ∧
    (polarizability.copy_node h pb).v = pb.v ∧
    (polarizability.copy_node h pb).sigma.val = pb.sigma.val ∧
    ∀ c, c < 10 →
      ((polarizability.copy_node h pb).s c = none ↔ pb.s c = none) ∧
      ((polarizability.copy_node h pb).s c = none ↔ pb.v.electric c = false) ∧
      ((polarizability.copy_node h pb).s c).map dbuf.val = (pb.s c).map dbuf.val := by
  refine ⟨rfl, rfl, rfl, ?_, ?_⟩
  · exact (copy_block_val pb.v.ntot pb.sigma _ hwf.1 (new_double_length _ _)).1
  · intro c hc
    have hmap : ((polarizability.copy_node h pb).s c).map dbuf.val = (pb.s c).map dbuf.val :=
      copy_s_loop pb hwf _ 10 (by omega) c hc
    have hnone : (polarizability.copy_node h pb).s c = none ↔ pb.s c = none := by
      cases h1 : (polarizability.copy_node h pb).s c <;> cases h2 : pb.s c <;>
        simp [h1, h2] at hmap ⊢
    refine ⟨hnone, ?_, hmap⟩
    rw [hnone]
    have hw := hwf.2 c hc
    constructor
    · intro hn
      by_contra he
      have he1 : pb.v.electric c = true := by simpa using he
      have := (hw.1 he1).1
      rw [hn] at this
      simp at this
    · exact hw.2

/-- Every node of the chain the copy constructor returns is the copy of the node at the same
place of the source, built on a free store whose break is not below the one it started at. -/
theorem new_copy_getElem (rest : List polarizability) :
    ∀ (h : heap) (pb : polarizability) (k : Nat) (t : polarizability),
      (pb :: rest)[k]? = some t →
      ∃ h1 : heap, (polarizability.new_copy h pb rest).1[k]? =
        some (polarizability.copy_node h1 t) ∧ h.brk ≤ h1.brk := by
  induction rest with
  | nil =>
    intro h pb k t hk
    cases k with
    | zero =>
      simp only [List.getElem?_cons_zero, Option.some.injEq] at hk
      subst hk
      exact ⟨h, by rw [new_copy_nil]; simp, le_refl _⟩
    | succ k => simp at hk
  | cons nx rest1 ih =>
    intro h pb k t hk
    cases k with
    | zero =>
      simp only [List.getElem?_cons_zero, Option.some.injEq] at hk
      subst hk
      exact ⟨h, by rw [new_copy_cons]; simp, le_refl _⟩
    | succ k =>
      simp only [List.getElem?_cons_succ] at hk
      obtain ⟨h1, hget, hle⟩ := ih (polarizability.copy_heap h pb) nx k t hk
      refine ⟨h1, by rw [new_copy_cons]; simpa using hget, ?_⟩
      exact le_trans (copy_heap_ge h pb) hle

theorem new_copy_length (rest : List polarizability) :
    ∀ (h : heap) (pb : polarizability),
      (polarizability.new_copy h pb rest).1.length = (pb :: rest).length := by
  induction rest with
  | nil => intro h pb; rw [new_copy_nil]; rfl
  | cons nx rest1 ih =>
    intro h pb
    rw [new_copy_cons]
    simp only [List.length_cons, ih]

/-- C12: for every chain of well-formed susceptibility terms of length N, the copy
constructor returns a chain of length N whose k-th node has the `omeganot`, the `gamma` and
the grid of the source's k-th node, a `sigma` equal entry by entry to the source's, and for
every component `c` an `s[c]` that is null exactly when the source's is (that is, when `c` is
not a present electric component) and otherwise equal entry by entry to the source's. -/
theorem C12_copy_constructor (h : heap) (the_pb : polarizability)
    (rest : List polarizability) (hwf : ∀ t ∈ the_pb :: rest, t.wf) :
    (polarizability.new_copy h the_pb rest).1.length = (the_pb :: rest).length ∧
    ∀ (k : Nat) (t : polarizability), (the_pb :: rest)[k]? = some t →
      ∃ t1 : polarizability, (polarizability.new_copy h the_pb rest).1[k]? = some t1 ∧
        t1.omeganot = t.omeganot ∧ t1.gamma = t.gamma ∧ t1.v = t.v ∧
        t1.sigma.val = t.sigma.val ∧
        ∀ c, c < 10 →
          (t1.s c = none ↔ t.s c = none) ∧
          (t1.s c = none ↔ t.v.electric c = false) ∧
          (t1.s c).map dbuf.val = (t.s c).map dbuf.val := by
  refine ⟨new_copy_length rest h the_pb, ?_⟩
  intro k t hk
  obtain ⟨h1, hget, _⟩ := new_copy_getElem rest h the_pb k t hk
  exact ⟨_, hget, copy_node_spec h1 t (hwf t (List.getElem?_mem hk))⟩

theorem C12_copy_constructor_witness :
    (∀ t ∈ [line_term, still_term], t.wf) ∧
    (polarizability.new_copy ⟨200, fun _ => 7⟩ line_term [still_term]).1.length
      = [line_term, still_term].length ∧
    ∀ (k : Nat) (t : polarizability), [line_term, still_term][k]? = some t →
      ∃ t1 : polarizability,
        (polarizability.new_copy ⟨200, fun _ => 7⟩ line_term [still_term]).1[k]? = some t1 ∧
        t1.omeganot = t.omeganot ∧ t1.gamma = t.gamma ∧ t1.v = t.v ∧
        t1.sigma.val = t.sigma.val ∧
        ∀ c, c < 10 →
          (t1.s c = none ↔ t.s c = none) ∧
          (t1.s c = none ↔ t.v.electric c = false) ∧
          (t1.s c).map dbuf.val = (t.s c).map dbuf.val :=
  ⟨by decide, C12_copy_constructor ⟨200, fun _ => 7⟩ line_term [still_term] (by decide)⟩

theorem mem_chain_blocks (L : List polarizability) (b : dbuf) :
    b ∈ chain_blocks L ↔ ∃ t, t ∈ L ∧ b ∈ t.blocks := by
  induction L with
  | nil => simp [chain_blocks]
  | cons t ts ih => simp [chain_blocks, ih]

/-- Every block of the chain the copy constructor returns lies at or above the break of the
free store the constructor started on. -/
theorem new_copy_above (h : heap) (pb : polarizability) (rest : List polarizability) :
    ∀ cb ∈ chain_blocks (polarizability.new_copy h pb rest).1, h.brk ≤ cb.addr := by
  intro cb hcb
  obtain ⟨t1, ht1, hb⟩ := (mem_chain_blocks _ cb).mp hcb
  obtain ⟨k, hk⟩ := List.mem_iff_getElem?.mp ht1
  have hlt : k < (pb :: rest).length := by
    rw [← new_copy_length rest h pb]
    exact (List.getElem?_eq_some.mp hk).1
  obtain ⟨h1, hget, hle⟩ := new_copy_getElem rest h pb k _ (List.getElem?_eq_getElem hlt)
  rw [hget] at hk
  simp only [Option.some.injEq] at hk
  rw [← hk] at hb
  exact le_trans hle (copy_node_above h1 _ cb hb)

/-- C13: copy independence. When the source chain lies in allocated memory (every block of
it ends at or below the break of the free store), then after cloning it with the copy
constructor, overwriting any one element of `sigma` or of any `s[c]` array of any node of
the clone (the double at that element's address) changes that element of the clone and
leaves every block of the original chain, hence every element of it, unchanged. -/
theorem C13_copy_independence (h : heap) (the_pb : polarizability)
    (rest : List polarizability)
    (hbelow : ∀ sb ∈ chain_blocks (the_pb :: rest), sb.addr + (sb.val.length : Int) ≤ h.brk) :
    ∀ cb ∈ chain_blocks (polarizability.new_copy h the_pb rest).1,
      ∀ i, i < cb.val.length → ∀ x : ℚ,
        (poke (cb.addr + (i : Int)) x cb).get i = x ∧
        ∀ sb ∈ chain_blocks (the_pb :: rest), poke (cb.addr + (i : Int)) x sb = sb := by
  intro cb hcb i hi x
  refine ⟨poke_self cb i hi x, ?_⟩
  intro sb hsb
  have h1 := hbelow sb hsb
  have h2 := new_copy_above h the_pb rest cb hcb
  exact poke_above sb _ (by omega) x

theorem C13_copy_independence_witness :
    (∀ sb ∈ chain_blocks [line_term],
      sb.addr + (sb.val.length : Int) ≤ (⟨200, fun _ => 7⟩ : heap).brk) ∧
    ∀ cb ∈ chain_blocks (polarizability.new_copy ⟨200, fun _ => 7⟩ line_term []).1,
      ∀ i, i < cb.val.length → ∀ x : ℚ,
        (poke (cb.addr + (i : Int)) x cb).get i = x ∧
        ∀ sb ∈ chain_blocks [line_term], poke (cb.addr + (i : Int)) x sb = sb :=
  ⟨by decide, C13_copy_independence ⟨200, fun _ => 7⟩ line_term [] (by decide)⟩

/-! ## Registering a susceptibility term -/

/-- On a geometry on which the profile-sampling constructor returns (in this program, a
cylindrical one), for a material whose chain is the list L of N terms,
`add_polarizability(sigma, omega, gamma, delta_epsilon)` returns and leaves the material with
a chain of N+1 terms: the head is the term the constructor builds from `sigma` with
`omeganot = (2*pi*c/a)*omega`, `gamma = (2*pi*c/a)*gamma` and scale factor
`(2*pi*c/a)^2 * omega^2 * delta_epsilon`, and the tail is exactly L; grid, `a` and `inveps`
are unchanged. And on any geometry, whenever the call returns, the chain it leaves is a new
head followed by L. -/
theorem add_polarizability_returns (ma : mat) (h : heap) (pi c : ℚ) (sigma : vec → ℚ)
    (omega gamma delta_epsilon : ℚ) :
    (ma.v.dim = ndim.dcyl →
      ∃ (npb : polarizability) (h1 : heap) (ma1 : mat),
        polarizability.new_sampled h ma sigma (2 * pi * c / ma.a * omega)
          (2 * pi * c / ma.a * gamma)
          ((2 * pi * c / ma.a) ^ 2 * omega ^ 2 * delta_epsilon) = Except.ok (npb, h1) ∧
        ma.add_polarizability h pi c sigma omega gamma delta_epsilon = Except.ok (ma1, h1) ∧
        ma1.pb = npb :: ma.pb ∧ ma1.pb.length = ma.pb.length + 1 ∧ ma1.pb.tail = ma.pb ∧
        npb.omeganot = 2 * pi * c / ma.a * omega ∧ npb.gamma = 2 * pi * c / ma.a * gamma ∧
        ma1.v = ma.v ∧ ma1.a = ma.a ∧ ma1.inveps = ma.inveps) ∧
    (∀ (ma1 : mat) (h1 : heap),
      ma.add_polarizability h pi c sigma omega gamma delta_epsilon = Except.ok (ma1, h1) →
      ∃ npb : polarizability, ma1.pb = npb :: ma.pb) := by
  have hscale : 2 * pi * c / ma.a * (2 * pi * c / ma.a) * omega * omega * delta_epsilon
      = (2 * pi * c / ma.a) ^ 2 * omega ^ 2 * delta_epsilon := by ring
  constructor
  · intro hdim
    obtain ⟨npb, h1, hret, hom, hga⟩ : ∃ (npb : polarizability) (h1 : heap),
        polarizability.new_sampled h ma sigma (2 * pi * c / ma.a * omega)
          (2 * pi * c / ma.a * gamma)
          ((2 * pi * c / ma.a) ^ 2 * omega ^ 2 * delta_epsilon) = Except.ok (npb, h1) ∧
        npb.omeganot = 2 * pi * c / ma.a * omega ∧ npb.gamma = 2 * pi * c / ma.a * gamma :=
      ⟨_, _, new_sampled_dcyl h ma sigma (2 * pi * c / ma.a * omega)
        (2 * pi * c / ma.a * gamma) ((2 * pi * c / ma.a) ^ 2 * omega ^ 2 * delta_epsilon) hdim,
        rfl, rfl⟩
    refine ⟨npb, h1, { ma with pb := npb :: ma.pb }, hret, ?_, rfl, by simp, rfl, hom, hga,
      rfl, rfl, rfl⟩
    unfold mat.add_polarizability
    simp only [hscale, hret]
  · intro ma1 h1 hadd
    unfold mat.add_polarizability at hadd
    simp only at hadd
    cases hs : polarizability.new_sampled h ma sigma (2 * pi * c / ma.a * omega)
        (2 * pi * c / ma.a * gamma)
        (2 * pi * c / ma.a * (2 * pi * c / ma.a) * omega * omega * delta_epsilon) with
    | error e => rw [hs] at hadd; simp at hadd
    | ok r =>
      rw [hs] at hadd
      simp only [Except.ok.injEq, Prod.mk.injEq] at hadd
      exact ⟨r.1, by rw [← hadd.1]⟩

/-- C14 (the code at a failing input): on a one-dimensional geometry (`dim = d1`), which the
constructor's first chain of tests serves, `add_polarizability(sigma, omega, gamma,
delta_epsilon)` does not leave the material with a chain of N+1 terms, whatever the chain L of
the material is: the constructor it calls exits with status 1 (its second chain of tests asks
for `dcyl` twice), so the call never reaches `npb->next = pb; pb = npb` and returns no
material. -/
theorem C14_add_polarizability_exits (ma : mat) (h : heap) (pi c : ℚ) (sigma : vec → ℚ)
    (omega gamma delta_epsilon : ℚ) (hdim : ma.v.dim = ndim.d1) :
    ma.add_polarizability h pi c sigma omega gamma delta_epsilon = Except.error 1 ∧
    ∀ (ma1 : mat) (h1 : heap),
      ma.add_polarizability h pi c sigma omega gamma delta_epsilon ≠ Except.ok (ma1, h1) := by
  have hex : ma.add_polarizability h pi c sigma omega gamma delta_epsilon = Except.error 1 := by
    unfold mat.add_polarizability
    simp only
    rw [new_sampled_exits h ma sigma _ _ _ (by rw [hdim]; decide)]
  refine ⟨hex, ?_⟩
  intro ma1 h1 hok
  rw [hex] at hok
  cases hok

theorem C14_add_polarizability_exits_witness :
    bare_line_mat.v.dim = ndim.d1 ∧
    (bare_line_mat.add_polarizability ⟨0, fun _ => 7⟩ 3 (1 / 2) (fun _ => 3) 5 7 11
      = Except.error 1 ∧
     ∀ (ma1 : mat) (h1 : heap),
      bare_line_mat.add_polarizability ⟨0, fun _ => 7⟩ 3 (1 / 2) (fun _ => 3) 5 7 11
        ≠ Except.ok (ma1, h1)) :=
  ⟨rfl, C14_add_polarizability_exits bare_line_mat ⟨0, fun _ => 7⟩ 3 (1 / 2) (fun _ => 3) 5 7 11
    rfl⟩

/-! ## The cells the cylindrical loops assign -/

/-- A loop that keeps `Pre` until round `i0`, establishes `Post` in round `i0` and keeps
`Post` afterwards ends with `Post`. -/
theorem forRange_establish {σ : Type} (Pre Post : σ → Prop) (body : Nat → σ → σ)
    (n i0 : Nat) (hi0 : i0 < n)
    (hpre : ∀ i, i < i0 → ∀ st, Pre st → Pre (body i st))
    (hest : ∀ st, Pre st → Post (body i0 st))
    (hpost : ∀ i, i0 < i → i < n → ∀ st, Post st → Post (body i st))
    (s : σ) (h0 : Pre s) : Post (forRange n body s) := by
  induction n with
  | zero => omega
  | succ n ih =>
    rw [forRange_succ]
    by_cases h : i0 = n
    · subst h
      exact hest _ (forRange_inv Pre body i0 hpre s h0)
    · exact hpost n (by omega) (by omega) _
        (ih (by omega) (fun i h1 h2 st hst => hpost i h1 (by omega) st hst))

theorem forFrom_inv {σ : Type} (Inv : σ → Prop) (body : Nat → σ → σ) (lo hi : Nat)
    (hbody : ∀ i, lo ≤ i → i < hi → ∀ st, Inv st → Inv (body i st)) (s : σ) (h0 : Inv s) :
    Inv (forFrom lo hi body s) := by
  unfold forFrom
  exact forRange_inv Inv (fun j st => body (lo + j) st) (hi - lo)
    (fun j hj st hst => hbody (lo + j) (by omega) (by omega) st hst) s h0

theorem forFrom_establish {σ : Type} (Pre Post : σ → Prop) (body : Nat → σ → σ)
    (lo hi i0 : Nat) (hlo : lo ≤ i0) (hi0 : i0 < hi)
    (hpre : ∀ i, lo ≤ i → i < i0 → ∀ st, Pre st → Pre (body i st))
    (hest : ∀ st, Pre st → Post (body i0 st))
    (hpost : ∀ i, i0 < i → i < hi → ∀ st, Post st → Post (body i st))
    (s : σ) (h0 : Pre s) : Post (forFrom lo hi body s) := by
  unfold forFrom
  refine forRange_establish Pre Post (fun j st => body (lo + j) st) (hi - lo) (i0 - lo)
    (by omega) (fun j hj st hst => hpre (lo + j) (by omega) (by omega) st hst) ?_
    (fun j h1 h2 st hst => hpost (lo + j) (by omega) (by omega) st hst) s h0
  intro st hst
  have : lo + (i0 - lo) = i0 := by omega
  show Post (body (lo + (i0 - lo)) st)
  rw [this]
  exact hest st hst

/-- The three assignments `s[Er][j] = x; s[Ep][j] = y; s[Ez][j] = z`, component by
component. -/
theorem swr3_apply (s : Nat → Option dbuf) (j : Nat) (x y z : ℚ) :
    swr (swr (swr s Er j x) Ep j y) Ez j z Er = wr (s Er) j x ∧
    swr (swr (swr s Er j x) Ep j y) Ez j z Ep = wr (s Ep) j y ∧
    swr (swr (swr s Er j x) Ep j y) Ez j z Ez = wr (s Ez) j z ∧
    ∀ c, c ≠ Er → c ≠ Ep → c ≠ Ez → swr (swr (swr s Er j x) Ep j y) Ez j z c = s c := by
  refine ⟨by simp [swr, vset, Er, Ep, Ez], by simp [swr, vset, Er, Ep, Ez],
    by simp [swr, vset, Er, Ep, Ez], ?_⟩
  intro c h1 h2 h3
  simp [swr, vset, h1, h2, h3]

theorem swr3_blocks (ntot : Nat) (s : Nat → Option dbuf) (j : Nat) (x y z : ℚ)
    (h : cyl_blocks ntot s) : cyl_blocks ntot (swr (swr (swr s Er j x) Ep j y) Ez j z) := by
  obtain ⟨e1, e2, e3, _⟩ := swr3_apply s j x y z
  unfold cyl_blocks
  rw [e1, e2, e3, blen_wr, blen_wr, blen_wr]
  exact h

theorem swr3_hit (ntot : Nat) (s : Nat → Option dbuf) (j : Nat) (x y z : ℚ)
    (h : cyl_blocks ntot s) (hj : j < ntot) :
    cyl_cell ntot j x y z (swr (swr (swr s Er j x) Ep j y) Ez j z) := by
  refine ⟨swr3_blocks ntot s j x y z h, ?_⟩
  obtain ⟨e1, e2, e3, _⟩ := swr3_apply s j x y z
  rw [e1, e2, e3, rd_wr, rd_wr, rd_wr, h.1, h.2.1, h.2.2]
  simp [hj]

theorem swr3_miss (ntot idx : Nat) (a b c : ℚ) (s : Nat → Option dbuf) (j : Nat)
    (x y z : ℚ) (h : cyl_cell ntot idx a b c s) (hj : j ≠ idx) :
    cyl_cell ntot idx a b c (swr (swr (swr s Er j x) Ep j y) Ez j z) := by
  refine ⟨swr3_blocks ntot s j x y z h.1, ?_⟩
  obtain ⟨e1, e2, e3, _⟩ := swr3_apply s j x y z
  have hne : ¬ idx = j := fun e => hj e.symm
  rw [e1, e2, e3, rd_wr, rd_wr, rd_wr]
  simp only [hne, false_and, if_false]
  exact h.2

/-- Two grid points `(r, z)` and `(r0, z0)` with `z, z0 <= nz` that share the index
`z + r*(nz+1)` are the same point. -/
theorem cell_inj (nz r z r0 z0 : Nat) (hz : z ≤ nz) (hz0 : z0 ≤ nz)
    (h : z + r * (nz + 1) = z0 + r0 * (nz + 1)) : r = r0 ∧ z = z0 := by
  rcases Nat.lt_trichotomy r r0 with hlt | heq | hgt
  · have h1 : (r + 1) * (nz + 1) ≤ r0 * (nz + 1) := Nat.mul_le_mul_right _ hlt
    have h2 : (r + 1) * (nz + 1) = r * (nz + 1) + (nz + 1) := by ring
    omega
  · subst heq
    exact ⟨rfl, by omega⟩
  · have h1 : (r0 + 1) * (nz + 1) ≤ r * (nz + 1) := Nat.mul_le_mul_right _ hgt
    have h2 : (r0 + 1) * (nz + 1) = r0 * (nz + 1) + (nz + 1) := by ring
    omega

/-- The interior loop leaves in the cell of an interior point `(r0, z0)` the three averages
of `sigma` the source writes there. -/
theorem cyl_interior_cell (v : volume) (sigma : dbuf) (hn : v.nr * (v.nz + 1) ≤ v.ntot)
    (r0 z0 : Nat) (hr1 : 1 ≤ r0) (hr : r0 < v.nr) (hz1 : 1 ≤ z0) (hz : z0 ≤ v.nz)
    (s : Nat → Option dbuf) (hs : cyl_blocks v.ntot s) :
    cyl_cell v.ntot (z0 + r0 * (v.nz + 1))
      (0.5 * (sigma.get (z0 + r0 * (v.nz + 1)) + sigma.get (z0 + r0 * (v.nz + 1) - 1)))
      (0.25 * (sigma.get (z0 + r0 * (v.nz + 1)) + sigma.get (z0 + r0 * (v.nz + 1) - 1) +
        sigma.get (z0 + (r0 - 1) * (v.nz + 1)) + sigma.get (z0 + (r0 - 1) * (v.nz + 1) - 1)))
      (0.5 * (sigma.get (z0 + r0 * (v.nz + 1)) + sigma.get (z0 + (r0 - 1) * (v.nz + 1))))
      (cyl_interior v sigma s) := by
  have hrow : (r0 + 1) * (v.nz + 1) ≤ v.nr * (v.nz + 1) := Nat.mul_le_mul_right _ hr
  have hexp : (r0 + 1) * (v.nz + 1) = r0 * (v.nz + 1) + (v.nz + 1) := by ring
  have hidx : z0 + r0 * (v.nz + 1) < v.ntot := by omega
  unfold cyl_interior
  refine forFrom_establish (cyl_blocks v.ntot) _ _ 1 v.nr r0 hr1 hr ?_ ?_ ?_ s hs
  · intro r _ _ st hst
    exact forFrom_inv (cyl_blocks v.ntot) _ 1 (v.nz + 1)
      (fun z _ _ st1 hst1 => swr3_blocks v.ntot st1 _ _ _ _ hst1) st hst
  · intro st hst
    refine forFrom_establish (cyl_blocks v.ntot) _ _ 1 (v.nz + 1) z0 hz1 (by omega) ?_ ?_ ?_
      st hst
    · intro z _ _ st1 hst1
      exact swr3_blocks v.ntot st1 _ _ _ _ hst1
    · intro st1 hst1
      exact swr3_hit v.ntot st1 _ _ _ _ hst1 hidx
    · intro z hz0 _ st1 hst1
      exact swr3_miss v.ntot _ _ _ _ st1 _ _ _ _ hst1 (by omega)
  · intro r hr0 _ st hst
    refine forFrom_inv _ _ 1 (v.nz + 1) ?_ st hst
    intro z _ hzlt st1 hst1
    refine swr3_miss v.ntot _ _ _ _ st1 _ _ _ _ hst1 ?_
    intro heq
    have := (cell_inj v.nz r z r0 z0 (by omega) hz heq).1
    omega

/-- The loop over the column `z = 0` does not touch the cell of a point with `1 <= z0 <= nz`. -/
theorem cyl_column_cell (v : volume) (sig : vec → ℚ) (sigscale : ℚ) (dr dz : vec)
    (r0 z0 : Nat) (hz1 : 1 ≤ z0) (hz : z0 ≤ v.nz) (a b c : ℚ)
    (s : Nat → Option dbuf) (hs : cyl_cell v.ntot (z0 + r0 * (v.nz + 1)) a b c s) :
    cyl_cell v.ntot (z0 + r0 * (v.nz + 1)) a b c (cyl_column v sig sigscale dr dz s) := by
  unfold cyl_column
  refine forRange_inv _ _ v.nr ?_ s hs
  intro r _ st hst
  refine swr3_miss v.ntot _ _ _ _ st _ _ _ _ hst ?_
  intro heq
  have h0 : 0 + r * (v.nz + 1) = z0 + r0 * (v.nz + 1) := by omega
  have := (cell_inj v.nz r 0 r0 z0 (by omega) hz h0).2
  omega

/-- The loop over the row `r = 0` does not touch the cell of a point with `1 <= r0`. -/
theorem cyl_row_cell (v : volume) (sig : vec → ℚ) (sigscale : ℚ) (dr dz : vec)
    (r0 z0 : Nat) (hr1 : 1 ≤ r0) (a b c : ℚ)
    (s : Nat → Option dbuf) (hs : cyl_cell v.ntot (z0 + r0 * (v.nz + 1)) a b c s) :
    cyl_cell v.ntot (z0 + r0 * (v.nz + 1)) a b c (cyl_row v sig sigscale dr dz s) := by
  unfold cyl_row
  refine forRange_inv _ _ v.nz ?_ s hs
  intro z hzlt st hst
  have h1 : 1 * (v.nz + 1) ≤ r0 * (v.nz + 1) := Nat.mul_le_mul_right _ hr1
  exact swr3_miss v.ntot _ _ _ _ st _ _ _ _ hst (by omega)

/-- The coupling arrays `s[Er]`, `s[Ep]`, `s[Ez]` the allocation loop of the constructor
leaves on a grid that carries the three components are blocks of `ntot` doubles. -/
theorem alloc_s_blocks (v : volume) (h : heap) (hEr : v.has_field Er = true)
    (hEp : v.has_field Ep = true) (hEz : v.has_field Ez = true) :
    cyl_blocks v.ntot (forRange 10 (polarizability.alloc_s v) (fun _ => none, h)).1 := by
  have hal := alloc_s_loop v (fun _ => none, h) 10
  refine ⟨?_, ?_, ?_⟩
  · exact ((hal Er (by decide)).1 (by simp [volume.electric, hEr, is_electric])).2
  · exact ((hal Ep (by decide)).1 (by simp [volume.electric, hEp, is_electric])).2
  · exact ((hal Ez (by decide)).1 (by simp [volume.electric, hEz, is_electric])).2

/-- C16: on a cylindrical grid (carrying `Er`, `Ep`, `Ez`, with `ntot >= nr*(nz+1)`) the
profile-sampling constructor returns a term with `sigma[j] = sigscale * sig(loc(Hp, j))` for
every `j < ntot` and, at every interior point `1 <= r < nr`, `1 <= z <= nz`, with
`idx = z + r*(nz+1)` and `up = z + (r-1)*(nz+1)`:
`s[Er][idx] = (sigma[idx] + sigma[idx-1])/2`,
`s[Ep][idx] = (sigma[idx] + sigma[idx-1] + sigma[up] + sigma[up-1])/4` and
`s[Ez][idx] = (sigma[idx] + sigma[up])/2`. -/
theorem C16_interior_average (h : heap) (ma : mat) (sig : vec → ℚ) (om ga sigscale : ℚ)
    (hdim : ma.v.dim = ndim.dcyl) (hEr : ma.v.has_field Er = true)
    (hEp : ma.v.has_field Ep = true) (hEz : ma.v.has_field Ez = true)
    (hn : ma.v.nr * (ma.v.nz + 1) ≤ ma.v.ntot) :
    ∃ (pb : polarizability) (h1 : heap),
      polarizability.new_sampled h ma sig om ga sigscale = Except.ok (pb, h1) ∧
      (∀ j, j < ma.v.ntot → pb.sigma.get j = sigscale * sig (ma.v.loc Hp j)) ∧
      ∀ r z, 1 ≤ r → r < ma.v.nr → 1 ≤ z → z ≤ ma.v.nz →
        rd (pb.s Er) (z + r * (ma.v.nz + 1)) =
          (pb.sigma.get (z + r * (ma.v.nz + 1)) + pb.sigma.get (z + r * (ma.v.nz + 1) - 1)) / 2 ∧
        rd (pb.s Ep) (z + r * (ma.v.nz + 1)) =
          (pb.sigma.get (z + r * (ma.v.nz + 1)) + pb.sigma.get (z + r * (ma.v.nz + 1) - 1) +
            pb.sigma.get (z + (r - 1) * (ma.v.nz + 1)) +
            pb.sigma.get (z + (r - 1) * (ma.v.nz + 1) - 1)) / 4 ∧
        rd (pb.s Ez) (z + r * (ma.v.nz + 1)) =
          (pb.sigma.get (z + r * (ma.v.nz + 1)) +
            pb.sigma.get (z + (r - 1) * (ma.v.nz + 1))) / 2 := by
  refine ⟨_, _, new_sampled_dcyl h ma sig om ga sigscale hdim, ?_, ?_⟩
  · intro j hj
    exact fill_sigma_get ma.v sig sigscale Hp _ (new_double_length _ _) j hj
  · intro r z hr1 hr hz1 hz
    have g1 := cyl_interior_cell ma.v
      (fill_sigma ma.v sig sigscale Hp
        (new_double (forRange 10 (polarizability.alloc_s ma.v) (fun _ => none, h)).2
          ma.v.ntot).1) hn r z hr1 hr hz1 hz _ (alloc_s_blocks ma.v h hEr hEp hEz)
    have g2 := cyl_column_cell ma.v sig sigscale (ma.v.dr * (0.5 : ℚ)) (ma.v.dz * (0.5 : ℚ))
      r z hz1 hz _ _ _ _ g1
    have g3 := cyl_row_cell ma.v sig sigscale (ma.v.dr * (0.5 : ℚ)) (ma.v.dz * (0.5 : ℚ))
      r z hr1 _ _ _ _ g2
    obtain ⟨_, e1, e2, e3⟩ := g3
    refine ⟨?_, ?_, ?_⟩
    · rw [e1]; norm_num; ring
    · rw [e2]; norm_num; ring
    · rw [e3]; norm_num; ring

theorem C16_interior_average_witness :
    ∃ (pb : polarizability) (h1 : heap),
      polarizability.new_sampled ⟨0, fun _ => 77⟩ cyl_mat (fun p => p.r * 10 + p.z) 1 0 2
        = Except.ok (pb, h1) ∧
      (∀ j, j < cyl_mat.v.ntot →
        pb.sigma.get j = 2 * (fun p : vec => p.r * 10 + p.z) (cyl_mat.v.loc Hp j)) ∧
      ∀ r z, 1 ≤ r → r < cyl_mat.v.nr → 1 ≤ z → z ≤ cyl_mat.v.nz →
        rd (pb.s Er) (z + r * (cyl_mat.v.nz + 1)) =
          (pb.sigma.get (z + r * (cyl_mat.v.nz + 1)) +
            pb.sigma.get (z + r * (cyl_mat.v.nz + 1) - 1)) / 2 ∧
        rd (pb.s Ep) (z + r * (cyl_mat.v.nz + 1)) =
          (pb.sigma.get (z + r * (cyl_mat.v.nz + 1)) +
            pb.sigma.get (z + r * (cyl_mat.v.nz + 1) - 1) +
            pb.sigma.get (z + (r - 1) * (cyl_mat.v.nz + 1)) +
            pb.sigma.get (z + (r - 1) * (cyl_mat.v.nz + 1) - 1)) / 4 ∧
        rd (pb.s Ez) (z + r * (cyl_mat.v.nz + 1)) =
          (pb.sigma.get (z + r * (cyl_mat.v.nz + 1)) +
            pb.sigma.get (z + (r - 1) * (cyl_mat.v.nz + 1))) / 2 :=
  C16_interior_average ⟨0, fun _ => 77⟩ cyl_mat (fun p => p.r * 10 + p.z) 1 0 2
    rfl rfl rfl rfl (by decide)

/-! ## The subscripts of the cylindrical loops -/

/-- What a loop collects when every round adds to the list the elements `A i`. -/
theorem mem_forRange_collect {α : Type} (body : Nat → List α → List α) (A : Nat → α → Prop)
    (hb : ∀ i acc x, x ∈ body i acc ↔ x ∈ acc ∨ A i x) (n : Nat) (init : List α) (x : α) :
    x ∈ forRange n body init ↔ x ∈ init ∨ ∃ i, i < n ∧ A i x := by
  induction n with
  | zero =>
    rw [forRange_zero]
    constructor
    · exact Or.inl
    · rintro (h | ⟨i, hi, _⟩)
      · exact h
      · omega
  | succ n ih =>
    rw [forRange_succ, hb, ih]
    constructor
    · rintro ((h | ⟨i, hi, hA⟩) | hA)
      · exact Or.inl h
      · exact Or.inr ⟨i, by omega, hA⟩
      · exact Or.inr ⟨n, by omega, hA⟩
    · rintro (h | ⟨i, hi, hA⟩)
      · exact Or.inl (Or.inl h)
      · by_cases hin : i = n
        · subst hin; exact Or.inr hA
        · exact Or.inl (Or.inr ⟨i, by omega, hA⟩)

theorem mem_forFrom_collect {α : Type} (body : Nat → List α → List α) (A : Nat → α → Prop)
    (hb : ∀ i acc x, x ∈ body i acc ↔ x ∈ acc ∨ A i x) (lo hi : Nat) (init : List α) (x : α) :
    x ∈ forFrom lo hi body init ↔ x ∈ init ∨ ∃ i, lo ≤ i ∧ i < hi ∧ A i x := by
  unfold forFrom
  rw [mem_forRange_collect (fun j acc => body (lo + j) acc) (fun j x => A (lo + j) x)
    (fun j acc x => hb (lo + j) acc x)]
  constructor
  · rintro (h | ⟨j, hj, hA⟩)
    · exact Or.inl h
    · exact Or.inr ⟨lo + j, by omega, by omega, hA⟩
  · rintro (h | ⟨i, h1, h2, hA⟩)
    · exact Or.inl h
    · refine Or.inr ⟨i - lo, by omega, ?_⟩
      have : lo + (i - lo) = i := by omega
      show A (lo + (i - lo)) x
      rw [this]; exact hA

/-- The subscripts at which the interior loop reads `sigma`. -/
theorem mem_cyl_reads (v : volume) (x : Int) :
    x ∈ cyl_reads v ↔ ∃ r z : Nat, 1 ≤ r ∧ r < v.nr ∧ 1 ≤ z ∧ z < v.nz + 1 ∧
      (x = (z : Int) + (r : Int) * ((v.nz : Int) + 1) ∨
       x = (z : Int) + (r : Int) * ((v.nz : Int) + 1) - 1 ∨
       x = (z : Int) + ((r : Int) - 1) * ((v.nz : Int) + 1) ∨
       x = (z : Int) + ((r : Int) - 1) * ((v.nz : Int) + 1) - 1) := by
  unfold cyl_reads
  rw [mem_forFrom_collect _
    (fun r x => ∃ z : Nat, 1 ≤ z ∧ z < v.nz + 1 ∧
      (x = (z : Int) + (r : Int) * ((v.nz : Int) + 1) ∨
       x = (z : Int) + (r : Int) * ((v.nz : Int) + 1) - 1 ∨
       x = (z : Int) + ((r : Int) - 1) * ((v.nz : Int) + 1) ∨
       x = (z : Int) + ((r : Int) - 1) * ((v.nz : Int) + 1) - 1))]
  · simp
  · intro r acc x
    rw [mem_forFrom_collect _
      (fun z x =>
        (x = (z : Int) + (r : Int) * ((v.nz : Int) + 1) ∨
         x = (z : Int) + (r : Int) * ((v.nz : Int) + 1) - 1 ∨
         x = (z : Int) + ((r : Int) - 1) * ((v.nz : Int) + 1) ∨
         x = (z : Int) + ((r : Int) - 1) * ((v.nz : Int) + 1) - 1))]
    intro z acc1 x1
    simp only [List.mem_append, List.mem_cons, List.mem_singleton, List.not_mem_nil, or_false]
    tauto

/-- The assignments of the three loops: the component is `Er`, `Ep` or `Ez`, and the
subscript is `z + r*(nz+1)` of an interior point, `r*(nz+1)` of a row, or `z < nz`. -/
theorem mem_cyl_writes (v : volume) (c : Nat) (x : Int) :
    (c, x) ∈ cyl_writes v ↔ (c = Er ∨ c = Ep ∨ c = Ez) ∧
      ((∃ r z : Nat, 1 ≤ r ∧ r < v.nr ∧ 1 ≤ z ∧ z < v.nz + 1 ∧
          x = (z : Int) + (r : Int) * ((v.nz : Int) + 1)) ∨
       (∃ r : Nat, r < v.nr ∧ x = (r : Int) * ((v.nz : Int) + 1)) ∨
       (∃ z : Nat, z < v.nz ∧ x = (z : Int))) := by
  unfold cyl_writes
  simp only
  rw [mem_forRange_collect _ (fun z p => (p.1 = Er ∨ p.1 = Ep ∨ p.1 = Ez) ∧ p.2 = (z : Int)),
    mem_forRange_collect _
      (fun r p => (p.1 = Er ∨ p.1 = Ep ∨ p.1 = Ez) ∧ p.2 = (r : Int) * ((v.nz : Int) + 1)),
    mem_forFrom_collect _
      (fun r p => ∃ z : Nat, 1 ≤ z ∧ z < v.nz + 1 ∧ (p.1 = Er ∨ p.1 = Ep ∨ p.1 = Ez) ∧
        p.2 = (z : Int) + (r : Int) * ((v.nz : Int) + 1))]
  · simp only [List.not_mem_nil, false_or]
    constructor
    · rintro ((⟨r, h1, h2, z, h3, h4, h5, h6⟩ | ⟨r, h1, h2, h3⟩) | ⟨z, h1, h2, h3⟩)
      · exact ⟨h5, Or.inl ⟨r, z, h1, h2, h3, h4, h6⟩⟩
      · exact ⟨h2, Or.inr (Or.inl ⟨r, h1, h3⟩)⟩
      · exact ⟨h2, Or.inr (Or.inr ⟨z, h1, h3⟩)⟩
    · rintro ⟨hc, (⟨r, z, h1, h2, h3, h4, h6⟩ | ⟨r, h1, h3⟩ | ⟨z, h1, h3⟩)⟩
      · exact Or.inl (Or.inl ⟨r, h1, h2, z, h3, h4, hc, h6⟩)
      · exact Or.inl (Or.inr ⟨r, h1, hc, h3⟩)
      · exact Or.inr ⟨z, h1, hc, h3⟩
  · intro r acc p
    rw [mem_forFrom_collect _
      (fun z p => (p.1 = Er ∨ p.1 = Ep ∨ p.1 = Ez) ∧
        p.2 = (z : Int) + (r : Int) * ((v.nz : Int) + 1))]
    intro z acc1 p1
    obtain ⟨p11, p12⟩ := p1
    simp only [List.mem_append, List.mem_cons, List.mem_singleton, List.not_mem_nil, or_false,
      Prod.mk.injEq]
    tauto
  · intro r acc p
    obtain ⟨p1, p2⟩ := p
    simp only [List.mem_append, List.mem_cons, List.mem_singleton, List.not_mem_nil, or_false,
      Prod.mk.injEq]
    tauto
  · intro z acc p
    obtain ⟨p1, p2⟩ := p
    simp only [List.mem_append, List.mem_cons, List.mem_singleton, List.not_mem_nil, or_false,
      Prod.mk.injEq]
    tauto

/-- C17 (as amended): on a cylindrical grid with `ntot >= nr*(nz+1)` and `ntot >= nz`, every
subscript at which the profile-sampling constructor reads `sigma` or assigns to `s[Er]`,
`s[Ep]`, `s[Ez]`, in the interior loop and in the two boundary loops, lies in
`0 <= index < ntot`. -/
theorem C17_subscripts_in_range (v : volume) (hn : v.nr * (v.nz + 1) ≤ v.ntot)
    (hz : v.nz ≤ v.ntot) :
    (∀ x ∈ cyl_reads v, 0 ≤ x ∧ x < (v.ntot : Int)) ∧
    (∀ p ∈ cyl_writes v, 0 ≤ p.2 ∧ p.2 < (v.ntot : Int)) := by
  have f3 : (v.nr : Int) * ((v.nz : Int) + 1) ≤ (v.ntot : Int) := by exact_mod_cast hn
  have f4 : (v.nz : Int) ≤ (v.ntot : Int) := by exact_mod_cast hz
  have key : ∀ r : Nat, r < v.nr →
      0 ≤ (r : Int) * ((v.nz : Int) + 1) ∧
      (r : Int) * ((v.nz : Int) + 1) + ((v.nz : Int) + 1) ≤ (v.nr : Int) * ((v.nz : Int) + 1) := by
    intro r hr
    have f1n : (r + 1) * (v.nz + 1) ≤ v.nr * (v.nz + 1) := Nat.mul_le_mul_right _ hr
    have f1 : ((r : Int) + 1) * ((v.nz : Int) + 1) ≤ (v.nr : Int) * ((v.nz : Int) + 1) := by
      exact_mod_cast f1n
    have e2 : ((r : Int) + 1) * ((v.nz : Int) + 1)
        = (r : Int) * ((v.nz : Int) + 1) + ((v.nz : Int) + 1) := by ring
    have f0 : (0 : Int) ≤ (r : Int) * ((v.nz : Int) + 1) := by positivity
    exact ⟨f0, by omega⟩
  constructor
  · intro x hx
    obtain ⟨r, z, hr1, hr, hz1, hzlt, hcase⟩ := (mem_cyl_reads v x).mp hx
    have hk := key r hr
    have hk1 := key (r - 1) (by omega)
    have ecast : ((r - 1 : Nat) : Int) = (r : Int) - 1 := by omega
    rw [ecast] at hk1
    have e1 : ((r : Int) - 1) * ((v.nz : Int) + 1)
        = (r : Int) * ((v.nz : Int) + 1) - ((v.nz : Int) + 1) := by ring
    rcases hcase with h | h | h | h <;> rw [h] <;> constructor <;> omega
  · intro p hp
    obtain ⟨c, x⟩ := p
    obtain ⟨_, hcase⟩ := (mem_cyl_writes v c x).mp hp
    rcases hcase with ⟨r, z, hr1, hr, hz1, hzlt, h⟩ | ⟨r, hr, h⟩ | ⟨z, hzlt, h⟩
    · have hk := key r hr
      simp only [h]
      constructor <;> omega
    · have hk := key r hr
      simp only [h]
      constructor <;> omega
    · simp only [h]
      constructor <;> omega

theorem C17_subscripts_in_range_witness :
    (cyl_volume.nr * (cyl_volume.nz + 1) ≤ cyl_volume.ntot ∧ cyl_volume.nz ≤ cyl_volume.ntot) ∧
    (∀ x ∈ cyl_reads cyl_volume, 0 ≤ x ∧ x < (cyl_volume.ntot : Int)) ∧
    (∀ p ∈ cyl_writes cyl_volume, 0 ≤ p.2 ∧ p.2 < (cyl_volume.ntot : Int)) :=
  ⟨by decide, C17_subscripts_in_range cyl_volume (by decide) (by decide)⟩

/-- C17 (counterexample): the cylindrical grid `flat_volume` has `nr = 0 >= 0`,
`nz = 1 >= 0` and `ntot = 0 >= nr*(nz+1)`, and the loop over `z` of the constructor assigns
to `s[Er][0]`, `s[Ep][0]` and `s[Ez][0]`: the subscript `0` is not below `ntot = 0`. -/
theorem C17_subscripts_counterexample :
    flat_volume.dim = ndim.dcyl ∧ 0 ≤ flat_volume.nr ∧ 0 ≤ flat_volume.nz ∧
    flat_volume.nr * (flat_volume.nz + 1) ≤ flat_volume.ntot ∧
    cyl_writes flat_volume = [(Er, 0), (Ep, 0), (Ez, 0)] ∧
    ¬ ((0 : Int) < (flat_volume.ntot : Int)) := by
  decide

theorem swr3_keep (idx : Nat) (a b c : ℚ) (s : Nat → Option dbuf) (j : Nat) (x y z : ℚ)
    (h : cyl_keep idx a b c s) (hj : j ≠ idx) :
    cyl_keep idx a b c (swr (swr (swr s Er j x) Ep j y) Ez j z) := by
  obtain ⟨e1, e2, e3, _⟩ := swr3_apply s j x y z
  have hne : ¬ idx = j := fun e => hj e.symm
  unfold cyl_keep
  rw [e1, e2, e3, rd_wr, rd_wr, rd_wr]
  simp only [hne, false_and, if_false]
  exact h

/-- The three loops of the cylindrical case leave the cell `nz` and every cell from
`nr*(nz+1)` on as they find it, on a grid with `nr >= 1` and `nz >= 1`. -/
theorem cyl_loops_keep (v : volume) (sigma : dbuf) (sig : vec → ℚ) (sigscale : ℚ)
    (dr dz : vec) (hnr : 1 ≤ v.nr) (hnz : 1 ≤ v.nz) (idx : Nat)
    (hidx : idx = v.nz ∨ v.nr * (v.nz + 1) ≤ idx) (a b c : ℚ) (s : Nat → Option dbuf)
    (hs : cyl_keep idx a b c s) :
    cyl_keep idx a b c
      (cyl_row v sig sigscale dr dz (cyl_column v sig sigscale dr dz (cyl_interior v sigma s))) := by
  have key : ∀ r, r < v.nr → (r + 1) * (v.nz + 1) ≤ v.nr * (v.nz + 1) ∧
      (r + 1) * (v.nz + 1) = r * (v.nz + 1) + (v.nz + 1) :=
    fun r hr => ⟨Nat.mul_le_mul_right _ hr, by ring⟩
  have hone : 1 * (v.nz + 1) ≤ v.nr * (v.nz + 1) := Nat.mul_le_mul_right _ hnr
  have g1 : cyl_keep idx a b c (cyl_interior v sigma s) := by
    unfold cyl_interior
    refine forFrom_inv _ _ 1 v.nr ?_ s hs
    intro r hr1 hr st hst
    refine forFrom_inv _ _ 1 (v.nz + 1) ?_ st hst
    intro z hz1 hz st1 hst1
    have hk := key r hr
    have hr1m : 1 * (v.nz + 1) ≤ r * (v.nz + 1) := Nat.mul_le_mul_right _ hr1
    exact swr3_keep idx a b c st1 _ _ _ _ hst1 (by omega)
  have g2 : cyl_keep idx a b c (cyl_column v sig sigscale dr dz (cyl_interior v sigma s)) := by
    unfold cyl_column
    refine forRange_inv _ _ v.nr ?_ _ g1
    intro r hr st hst
    have hk := key r hr
    refine swr3_keep idx a b c st _ _ _ _ hst ?_
    rcases Nat.eq_zero_or_pos r with h0 | hpos
    · subst h0; omega
    · have hr1m : 1 * (v.nz + 1) ≤ r * (v.nz + 1) := Nat.mul_le_mul_right _ hpos
      omega
  unfold cyl_row
  refine forRange_inv _ _ v.nz ?_ _ g2
  intro z hz st hst
  exact swr3_keep idx a b c st _ _ _ _ hst (by omega)

/-- C20: on a cylindrical grid with `nr >= 1` and `nz >= 1`, for each of `s[Er]`, `s[Ep]`,
`s[Ez]` the subscripts the constructor assigns are exactly the `r*(nz+1) + z` with
`0 <= r < nr` and `0 <= z <= nz` other than `nz`; the subscript `nz` and every subscript
`>= nr*(nz+1)` is never assigned, and the entries there of the term the constructor returns
are those of the fresh blocks. -/
theorem C20_assigned_cells (h : heap) (ma : mat) (sig : vec → ℚ) (om ga sigscale : ℚ)
    (hdim : ma.v.dim = ndim.dcyl) (hnr : 1 ≤ ma.v.nr) (hnz : 1 ≤ ma.v.nz) :
    (∀ c, c = Er ∨ c = Ep ∨ c = Ez → ∀ x : Int,
      ((c, x) ∈ cyl_writes ma.v ↔
        (∃ r z : Nat, r < ma.v.nr ∧ z ≤ ma.v.nz ∧
          x = (r : Int) * ((ma.v.nz : Int) + 1) + (z : Int)) ∧ x ≠ (ma.v.nz : Int))) ∧
    (∀ c, (c, (ma.v.nz : Int)) ∉ cyl_writes ma.v) ∧
    (∀ c (x : Int), (ma.v.nr : Int) * ((ma.v.nz : Int) + 1) ≤ x → (c, x) ∉ cyl_writes ma.v) ∧
    ∃ (pb : polarizability) (h1 : heap),
      polarizability.new_sampled h ma sig om ga sigscale = Except.ok (pb, h1) ∧
      ∀ idx, idx = ma.v.nz ∨ ma.v.nr * (ma.v.nz + 1) ≤ idx →
        rd (pb.s Er) idx =
          rd ((forRange 10 (polarizability.alloc_s ma.v) (fun _ => none, h)).1 Er) idx ∧
        rd (pb.s Ep) idx =
          rd ((forRange 10 (polarizability.alloc_s ma.v) (fun _ => none, h)).1 Ep) idx ∧
        rd (pb.s Ez) idx =
          rd ((forRange 10 (polarizability.alloc_s ma.v) (fun _ => none, h)).1 Ez) idx := by
  have key : ∀ r : Nat, r < ma.v.nr →
      (r : Int) * ((ma.v.nz : Int) + 1) + ((ma.v.nz : Int) + 1)
        ≤ (ma.v.nr : Int) * ((ma.v.nz : Int) + 1) := by
    intro r hr
    have f1n : (r + 1) * (ma.v.nz + 1) ≤ ma.v.nr * (ma.v.nz + 1) := Nat.mul_le_mul_right _ hr
    have f1 : ((r : Int) + 1) * ((ma.v.nz : Int) + 1)
        ≤ (ma.v.nr : Int) * ((ma.v.nz : Int) + 1) := by exact_mod_cast f1n
    have e2 : ((r : Int) + 1) * ((ma.v.nz : Int) + 1)
        = (r : Int) * ((ma.v.nz : Int) + 1) + ((ma.v.nz : Int) + 1) := by ring
    omega
  have pos : ∀ r : Nat, 1 ≤ r →
      ((ma.v.nz : Int) + 1) ≤ (r : Int) * ((ma.v.nz : Int) + 1) := by
    intro r hr
    have f1n : 1 * (ma.v.nz + 1) ≤ r * (ma.v.nz + 1) := Nat.mul_le_mul_right _ hr
    have f1 : (1 : Int) * ((ma.v.nz : Int) + 1) ≤ (r : Int) * ((ma.v.nz : Int) + 1) := by
      exact_mod_cast f1n
    omega
  have hiff : ∀ c, c = Er ∨ c = Ep ∨ c = Ez → ∀ x : Int,
      ((c, x) ∈ cyl_writes ma.v ↔
        (∃ r z : Nat, r < ma.v.nr ∧ z ≤ ma.v.nz ∧
          x = (r : Int) * ((ma.v.nz : Int) + 1) + (z : Int)) ∧ x ≠ (ma.v.nz : Int)) := by
    intro c hc x
    rw [mem_cyl_writes]
    constructor
    · rintro ⟨_, (⟨r, z, hr1, hr, hz1, hz, hx⟩ | ⟨r, hr, hx⟩ | ⟨z, hz, hx⟩)⟩
      · have := pos r hr1
        exact ⟨⟨r, z, hr, by omega, by omega⟩, by omega⟩
      · refine ⟨⟨r, 0, hr, by omega, by simp [hx]⟩, ?_⟩
        rcases Nat.eq_zero_or_pos r with h0 | hpos
        · subst h0; simp only [hx]; omega
        · have := pos r hpos; omega
      · exact ⟨⟨0, z, by omega, by omega, by simp [hx]⟩, by omega⟩
    · rintro ⟨⟨r, z, hr, hz, hx⟩, hne⟩
      refine ⟨hc, ?_⟩
      by_cases hz0 : z = 0
      · subst hz0
        exact Or.inr (Or.inl ⟨r, hr, by simp [hx]⟩)
      · by_cases hr0 : r = 0
        · subst hr0
          refine Or.inr (Or.inr ⟨z, ?_, by simp [hx]⟩)
          have : x = (z : Int) := by simp [hx]
          omega
        · exact Or.inl ⟨r, z, by omega, hr, by omega, by omega, by omega⟩
  have hnot : ∀ c (x : Int), (x = (ma.v.nz : Int) ∨
      (ma.v.nr : Int) * ((ma.v.nz : Int) + 1) ≤ x) → (c, x) ∉ cyl_writes ma.v := by
    intro c x hx hmem
    have hc := ((mem_cyl_writes ma.v c x).mp hmem).1
    obtain ⟨⟨r, z, hr, hz, hxe⟩, hne⟩ := (hiff c hc x).mp hmem
    have := key r hr
    rcases hx with hx | hx <;> omega
  refine ⟨hiff, fun c => hnot c _ (Or.inl rfl), fun c x hx => hnot c x (Or.inr hx), ?_⟩
  refine ⟨_, _, new_sampled_dcyl h ma sig om ga sigscale hdim, ?_⟩
  intro idx hidx
  exact cyl_loops_keep ma.v _ sig sigscale _ _ hnr hnz idx hidx _ _ _ _ ⟨rfl, rfl, rfl⟩

theorem C20_assigned_cells_witness :
    (∀ c, c = Er ∨ c = Ep ∨ c = Ez → ∀ x : Int,
      ((c, x) ∈ cyl_writes cyl_mat.v ↔
        (∃ r z : Nat, r < cyl_mat.v.nr ∧ z ≤ cyl_mat.v.nz ∧
          x = (r : Int) * ((cyl_mat.v.nz : Int) + 1) + (z : Int)) ∧
        x ≠ (cyl_mat.v.nz : Int))) ∧
    (∀ c, (c, (cyl_mat.v.nz : Int)) ∉ cyl_writes cyl_mat.v) ∧
    (∀ c (x : Int), (cyl_mat.v.nr : Int) * ((cyl_mat.v.nz : Int) + 1) ≤ x →
      (c, x) ∉ cyl_writes cyl_mat.v) ∧
    ∃ (pb : polarizability) (h1 : heap),
      polarizability.new_sampled ⟨0, fun _ => 77⟩ cyl_mat (fun _ => 3) 1 0 2
        = Except.ok (pb, h1) ∧
      ∀ idx, idx = cyl_mat.v.nz ∨ cyl_mat.v.nr * (cyl_mat.v.nz + 1) ≤ idx →
        rd (pb.s Er) idx =
          rd ((forRange 10 (polarizability.alloc_s cyl_mat.v)
            (fun _ => none, (⟨0, fun _ => 77⟩ : heap))).1 Er) idx ∧
        rd (pb.s Ep) idx =
          rd ((forRange 10 (polarizability.alloc_s cyl_mat.v)
            (fun _ => none, (⟨0, fun _ => 77⟩ : heap))).1 Ep) idx ∧
        rd (pb.s Ez) idx =
          rd ((forRange 10 (polarizability.alloc_s cyl_mat.v)
            (fun _ => none, (⟨0, fun _ => 77⟩ : heap))).1 Ez) idx :=
  C20_assigned_cells ⟨0, fun _ => 77⟩ cyl_mat (fun _ => 3) 1 0 2 rfl (by decide) (by decide)
